import Mathlib

/-!
Verification development for the vector search segment (HNSW index with
filter-aware search) of the vectordb repository.

Modelling conventions (shallow embedding of the Rust sources):
* `u64` point ids become `Nat`; `usize` becomes `Nat`; `i64` becomes `Int`.
* `f32`/`f64` scalars are modelled as exact rationals `ℚ`.  The `f32`
  square root is modelled by `ratSqrt`, a computable rational square root
  that is exact whenever the radicand is the square of a rational (all
  concrete traces in this file only use such inputs) and a rational
  approximation otherwise, mirroring the fact that the machine square
  root is inexact off perfect squares.
* Rust `HashMap`/`HashSet` become association lists / duplicate-free
  lists; the unspecified hash iteration order is refined to the list
  order (first inserted first).  `BinaryHeap::pop` ties are refined to
  "first stored among the optimal elements"; `rand` based choices
  (`choose_multiple`, level assignment) are externalized: sampling takes
  the first elements, and the randomly drawn insertion level is an
  explicit argument of `insert`.
* Fallible functions return `Except DBError`; Rust indexing panics
  (`self.vectors[&id]`) are modelled by `Option.getD` with a default, a
  case never reached from the states the theorems quantify over.
* Loops without a structural bound run on an explicit fuel chosen large
  enough; the step cap 1000 of `greedy_search_layer` is the code's own.
-/

set_option maxRecDepth 40000
set_option maxHeartbeats 4000000

namespace VectorDB

/-- `utils/types.rs`: point ids (u64 modelled as Nat). -/
abbrev PointId := Nat

/-- `utils/types.rs`: scores (f32 modelled as ℚ). -/
abbrev Score := ℚ

/-- `utils/types.rs`: vectors (Vec of f32 modelled as List ℚ). -/
abbrev QVector := List ℚ

/-- `utils/types.rs`: the distance metric enum. -/
inductive DistanceMetric where
  | Cosine
  | Dot
  | Euclidean
deriving DecidableEq, Repr

/-- `utils/errors.rs`: the error enum (the reserved IO / serialization /
WAL variants are unused by the verified core and omitted). -/
inductive DBError where
  | NotFound (id : PointId)
  | VectorLengthMismatch (expected actual : Nat)
  | InvalidPayload (msg : String)
  | SearchError (msg : String)
deriving DecidableEq, Repr

/-- Association-list lookup: the value stored at a key, mirroring
`HashMap::get` (lists are kept duplicate-free by `alSet`). -/
def alGet? {α β : Type} [DecidableEq α] (l : List (α × β)) (k : α) : Option β :=
  (l.find? (fun p => p.1 = k)).map (·.2)

/-- Association-list store, mirroring `HashMap::insert`: replaces the
binding of an existing key, otherwise appends a fresh binding. -/
def alSet {α β : Type} [DecidableEq α] (l : List (α × β)) (k : α) (v : β) :
    List (α × β) :=
  match l with
  | [] => [(k, v)]
  | (k0, v0) :: rest =>
    if k0 = k then (k, v) :: rest else (k0, v0) :: alSet rest k v

/-- Keys of an association list (`HashMap::keys`, in list order). -/
def alKeys {α β : Type} (l : List (α × β)) : List α := l.map (·.1)

/-- Set insertion on duplicate-free lists, mirroring `HashSet::insert`. -/
def slInsert {α : Type} [DecidableEq α] (l : List α) (a : α) : List α :=
  if a ∈ l then l else l ++ [a]

/-! ## Payload values and records (`utils/payload.rs`) -/

/-- `utils/payload.rs`: the tagged payload value (f64 as ℚ via
`OrderedFloat`, whose order on the rationals is the natural one). -/
inductive PayloadValue where
  | Int (i : Int)
  | Float (q : ℚ)
  | Str (s : String)
  | Bool (b : Bool)
  | ListInt (l : List Int)
  | ListFloat (l : List ℚ)
  | ListStr (l : List String)
  | ListBool (l : List Bool)
deriving DecidableEq, Repr

/-- `utils/payload.rs`: the six scalar comparison operators. -/
inductive ScalarComparisonOp where
  | Eq
  | Neq
  | Lt
  | Lte
  | Gt
  | Gte
deriving DecidableEq, Repr

/-- `utils/payload.rs`: a payload record (HashMap from field name to
value, as a duplicate-free association list). -/
abbrev Payload := List (String × PayloadValue)

/-- `Payload::get`. -/
def Payload.get (p : Payload) (key : String) : Option PayloadValue :=
  alGet? p key

/-- `Payload::set`. -/
def Payload.set (p : Payload) (key : String) (v : PayloadValue) : Payload :=
  alSet p key v

/-- `PayloadValue::compare_scalar`: a result only for matching tags with
the op defined for that tag (booleans: only Eq/Neq); otherwise None. -/
def compare_scalar (v : PayloadValue) (op : ScalarComparisonOp)
    (other : PayloadValue) : Option Bool :=
  match v, other with
  | .Int a, .Int b =>
    some (match op with
      | .Eq => a = b | .Neq => a ≠ b | .Lt => a < b
      | .Lte => a ≤ b | .Gt => a > b | .Gte => a ≥ b)
  | .Float a, .Float b =>
    some (match op with
      | .Eq => a = b | .Neq => a ≠ b | .Lt => a < b
      | .Lte => a ≤ b | .Gt => a > b | .Gte => a ≥ b)
  | .Str a, .Str b =>
    some (match op with
      | .Eq => a = b | .Neq => a ≠ b | .Lt => a < b
      | .Lte => a ≤ b | .Gt => a > b | .Gte => a ≥ b)
  | .Bool a, .Bool b =>
    match op with
    | .Eq => some (a = b)
    | .Neq => some (a ≠ b)
    | _ => none
  | _, _ => none

/-- `Payload::compare_field`: missing field and type mismatch are typed
errors; the `(ListStr, ListStr)` and `(ListStr, Str)` pairs are
special-cased before the scalar fallback (the latter as membership). -/
def Payload.compare_field (p : Payload) (field : String)
    (op : ScalarComparisonOp) (other : PayloadValue) : Except DBError Bool :=
  match p.get field with
  | some value =>
    match value, other with
    | .ListStr l, .ListStr o =>
      match op with
      | .Eq => .ok (l = o)
      | .Neq => .ok (l ≠ o)
      | _ => .error (.InvalidPayload "Invalid operation for ListStr")
    | .ListStr l, .Str s =>
      match op with
      | .Eq => .ok (s ∈ l)
      | .Neq => .ok (s ∉ l)
      | _ => .error (.InvalidPayload "Invalid operation for ListStr and Str")
    | _, _ =>
      match compare_scalar value op other with
      | some res => .ok res
      | none => .error (.InvalidPayload ("Type mismatch for field: " ++ field))
  | none => .error (.InvalidPayload ("Missing field: " ++ field))

/-! ## Filters (`payload_storage/filters.rs`) -/

/-- `payload_storage/filters.rs`: the recursive filter tree. -/
inductive Filter where
  | Match (key : String) (value : PayloadValue)
  | Compare (key : String) (op : ScalarComparisonOp) (value : PayloadValue)
  | And (conds : List Filter)
  | Or (conds : List Filter)
  | Not (inner : Filter)

/-- `evaluate_filter`: Match on a missing key is false; Compare defers to
`compare_field` (where a missing key errors); And/Or short-circuit. -/
def evaluate_filter (f : Filter) (payload : Payload) : Except DBError Bool :=
  match f with
  | .Match key value =>
    match payload.get key with
    | some actual => .ok (actual = value)
    | none => .ok false
  | .Compare key op value => payload.compare_field key op value
  | .And conds => goAnd conds payload
  | .Or conds => goOr conds payload
  | .Not inner => do
    let r ← evaluate_filter inner payload
    .ok (!r)
where
  /-- short-circuit conjunction over the children -/
  goAnd : List Filter → Payload → Except DBError Bool
    | [], _ => .ok true
    | c :: cs, payload => do
      let r ← evaluate_filter c payload
      if r then goAnd cs payload else .ok false
  /-- short-circuit disjunction over the children -/
  goOr : List Filter → Payload → Except DBError Bool
    | [], _ => .ok false
    | c :: cs, payload => do
      let r ← evaluate_filter c payload
      if r then .ok true else goOr cs payload

/-! ## Inverted payload index (`payload_storage/stores.rs`) -/

/-- `payload_storage/stores.rs`: field name -> value -> set of ids. -/
abbrev PayloadIndex := List (String × List (PayloadValue × List PointId))

/-- `PayloadIndex::is_indexable`: exactly the four scalar tags. -/
def PayloadIndex.is_indexable (v : PayloadValue) : Bool :=
  match v with
  | .Int _ | .Float _ | .Str _ | .Bool _ => true
  | _ => false

/-- `PayloadIndex::insert`: index every indexable (field, value) pair. -/
def PayloadIndex.insert (idx : PayloadIndex) (point_id : PointId)
    (payload : Payload) : PayloadIndex :=
  payload.foldl
    (fun acc kv =>
      if PayloadIndex.is_indexable kv.2 then
        let vmap := (alGet? acc kv.1).getD []
        let idset := (alGet? vmap kv.2).getD []
        alSet acc kv.1 (alSet vmap kv.2 (slInsert idset point_id))
      else acc)
    idx

/-- Association-list removal of a key (`HashMap::remove`). -/
def alRemove {α β : Type} [DecidableEq α] (l : List (α × β)) (k : α) :
    List (α × β) :=
  l.filter (fun p => p.1 ≠ k)

/-- `PayloadIndex::remove`: drop the id from each of the payload's
indexable (field, value) sets, dropping empty sets and field maps. -/
def PayloadIndex.remove (idx : PayloadIndex) (point_id : PointId)
    (payload : Payload) : PayloadIndex :=
  payload.foldl
    (fun acc kv =>
      if PayloadIndex.is_indexable kv.2 then
        match alGet? acc kv.1 with
        | none => acc
        | some vmap =>
          let vmap1 :=
            match alGet? vmap kv.2 with
            | none => vmap
            | some idset =>
              let idset1 := idset.filter (fun j => j ≠ point_id)
              if idset1 = [] then alRemove vmap kv.2
              else alSet vmap kv.2 idset1
          if vmap1 = [] then alRemove acc kv.1 else alSet acc kv.1 vmap1
      else acc)
    idx

/-- `PayloadIndex::query_exact`: the id set at (field, value), absent for
non-indexable values or unindexed pairs. -/
def PayloadIndex.query_exact (idx : PayloadIndex) (key : String)
    (value : PayloadValue) : Option (List PointId) :=
  if PayloadIndex.is_indexable value then
    (alGet? idx key).bind (fun vmap => alGet? vmap value)
  else none

/-! ## Distance kernels (`vector/metric.rs`) -/

/-- Downward search for the integer square root: the largest `r` below
the first argument bound with `r * r ≤ n`. -/
def isqrtGo (n : Nat) : Nat → Nat
  | 0 => 0
  | r + 1 => if (r + 1) * (r + 1) ≤ n then r + 1 else isqrtGo n r

/-- Integer (floor) square root, structurally recursive so that concrete
traces reduce inside the kernel. -/
def isqrt (n : Nat) : Nat := isqrtGo n n

/-- The f32 square root, modelled as a computable rational square root:
exact whenever numerator and denominator are perfect squares (the only
inputs the concrete traces below produce), a floor-based rational
approximation otherwise — mirroring that the machine square root is
inexact off perfect squares. -/
def ratSqrt (q : ℚ) : ℚ :=
  (isqrt q.num.toNat : ℚ) / (isqrt q.den : ℚ)

/-- Decidable equality of `Except` values (needed so that concrete runs
of the fallible operations can be checked by `decide`). -/
instance {ε α : Type} [DecidableEq ε] [DecidableEq α] :
    DecidableEq (Except ε α)
  | .ok a, .ok b =>
    if h : a = b then .isTrue (by rw [h])
    else .isFalse (by intro c; cases c; exact h rfl)
  | .ok _, .error _ => .isFalse (by intro c; cases c)
  | .error _, .ok _ => .isFalse (by intro c; cases c)
  | .error e, .error f =>
    if h : e = f then .isTrue (by rw [h])
    else .isFalse (by intro c; cases c; exact h rfl)

/-- Dot product of two vectors, truncating to the shorter length exactly
as the Rust iterator zip does. -/
def dotProd (a b : QVector) : ℚ :=
  ((a.zip b).map (fun p => p.1 * p.2)).sum

/-- `euclidean_distance`: the square root of the sum of squared
coordinate differences. -/
def euclidean_distance (a b : QVector) : ℚ :=
  ratSqrt (((a.zip b).map (fun p => (p.1 - p.2) ^ 2)).sum)

/-- The epsilon guard of `cosine_distance` (1e-10). -/
def cosEps : ℚ := 1 / 10000000000

/-- `cosine_distance`: 1 - dot/(‖a‖·‖b‖ + ε). -/
def cosine_distance (a b : QVector) : ℚ :=
  let na := ratSqrt ((a.map (fun x => x * x)).sum)
  let nb := ratSqrt ((b.map (fun x => x * x)).sum)
  1 - dotProd a b / (na * nb + cosEps)

/-- Modelled from the spec: the `score` dispatcher imported by
`vector/hnsw.rs` and `vector/in_place.rs` from `vector::metric` is not
among the provided sources (the provided `metric.rs` only defines
`distance`, whose Dot branch negates the dot product).  Per §4.A of the
spec ("Inner product (Dot): returns the raw dot product a·b") and the
repository's tests (`tests/utilsvector.rs` asserts `score(v1, v2, Dot) >
0` for aligned vectors, and `tests/hnsw.rs` checks the top Dot result's
`raw_score` against the maximal raw dot), `score` returns the raw dot
product for Dot, the cosine distance for Cosine and the Euclidean
distance for Euclidean. -/
def score (a b : QVector) (metric : DistanceMetric) : ℚ :=
  match metric with
  | .Cosine => cosine_distance a b
  | .Dot => dotProd a b
  | .Euclidean => euclidean_distance a b

/-- `HNSWIndex::normalize_score` (also inlined in `in_place.rs`):
identity for Euclidean/Cosine, negation for Dot, so that lower sort key
is always better. -/
def normalize_score (metric : DistanceMetric) (raw : ℚ) : ℚ :=
  match metric with
  | .Cosine | .Euclidean => raw
  | .Dot => -raw

/-- `HNSWIndex::maybe_normalize`: L2-normalize under Cosine (keeping the
zero vector), pass through otherwise. -/
def maybe_normalize (metric : DistanceMetric) (vec : QVector) : QVector :=
  match metric with
  | .Cosine =>
    let norm := ratSqrt ((vec.map (fun x => x * x)).sum)
    if norm = 0 then vec else vec.map (fun x => x / norm)
  | _ => vec

/-! ## Scored points, heaps and sorting (`vector/hnsw.rs`) -/

/-- `ScoredPoint`: id, raw score and the "lower is better" sort key. -/
structure ScoredPoint where
  id : PointId
  raw_score : Score
  sort_key : Score
deriving DecidableEq, Repr

/-- Extract an element of minimal `sort_key` (the first such element —
a deterministic refinement of `BinaryHeap` tie behaviour), together with
the remaining elements. -/
def selectMin (best : ScoredPoint) : List ScoredPoint →
    ScoredPoint × List ScoredPoint
  | [] => (best, [])
  | x :: xs =>
    if x.sort_key < best.sort_key then
      let r := selectMin x xs
      (r.1, best :: r.2)
    else
      let r := selectMin best xs
      (r.1, x :: r.2)

/-- Pop of the candidate queue: the element with the lowest sort key
(the `ScoredPoint` `Ord` is inverted, so `BinaryHeap::pop` yields the
minimum). -/
def popMin : List ScoredPoint → Option (ScoredPoint × List ScoredPoint)
  | [] => none
  | x :: xs => some (selectMin x xs)

/-- Extract an element of maximal `sort_key` (first such element). -/
def selectMax (best : ScoredPoint) : List ScoredPoint →
    ScoredPoint × List ScoredPoint
  | [] => (best, [])
  | x :: xs =>
    if x.sort_key > best.sort_key then
      let r := selectMax x xs
      (r.1, best :: r.2)
    else
      let r := selectMax best xs
      (r.1, x :: r.2)

/-- Pop of the result heap (`ResultPoint` wrapper): the element with the
highest sort key, i.e. the worst result. -/
def popMax : List ScoredPoint → Option (ScoredPoint × List ScoredPoint)
  | [] => none
  | x :: xs => some (selectMax x xs)

/-- `sort_by(|a, b| a.sort_key.partial_cmp(&b.sort_key))`: stable
ascending sort by sort key. -/
def sortAsc (l : List ScoredPoint) : List ScoredPoint :=
  List.insertionSort (fun a b => a.sort_key ≤ b.sort_key) l

/-- `BinaryHeap::<ScoredPoint>::into_sorted_vec`: ascending in the
inverted `Ord`, i.e. descending by sort key. -/
def sortDesc (l : List ScoredPoint) : List ScoredPoint :=
  List.insertionSort (fun a b => b.sort_key ≤ a.sort_key) l

/-- `sort_by` of `build_filter_aware_edges`: by raw score, descending
for Dot and ascending otherwise. -/
def sortByRaw (metric : DistanceMetric) (l : List ScoredPoint) :
    List ScoredPoint :=
  if metric = .Dot then
    List.insertionSort (fun a b => b.raw_score ≤ a.raw_score) l
  else
    List.insertionSort (fun a b => a.raw_score ≤ b.raw_score) l

/-! ## The HNSW index (`vector/hnsw.rs`) -/

/-- `HNSWIndex` state.  `level_scale` is omitted: it only feeds the
random level draw, which is externalized as the explicit `level`
argument of `insert`. -/
structure HNSWIndex where
  layers : List (Nat × List (PointId × List PointId))
  vectors : List (PointId × QVector)
  levels : List (PointId × Nat)
  entry_point : Option PointId
  metric : DistanceMetric
  m : Nat
  ef : Nat
  max_level_cap : Nat
  current_max_level : Nat
  dim : Nat
  deleted : List PointId
deriving DecidableEq, Repr

/-- `HNSWIndex::new`. -/
def HNSWIndex.new (metric : DistanceMetric) (m ef max_level_cap dim : Nat) :
    HNSWIndex :=
  ⟨[], [], [], none, metric, m, ef, max_level_cap, 0, dim, []⟩

/-- `self.layers.get(&level).and_then(|l| l.get(&id))`. -/
def HNSWIndex.layer_neighbors (h : HNSWIndex) (level : Nat) (id : PointId) :
    Option (List PointId) :=
  (alGet? h.layers level).bind (fun lm => alGet? lm id)

/-- `self.vectors[&id]`: the panicking index is modelled with an empty
default, never reached from well-formed states. -/
def HNSWIndex.vecOf (h : HNSWIndex) (id : PointId) : QVector :=
  (alGet? h.vectors id).getD []

/-- `HNSWIndex::get_vector`: None for tombstoned points. -/
def HNSWIndex.get_vector (h : HNSWIndex) (id : PointId) : Option QVector :=
  if h.deleted.contains id then none else alGet? h.vectors id

/-- `HNSWIndex::contains`. -/
def HNSWIndex.containsPt (h : HNSWIndex) (id : PointId) : Bool :=
  (alGet? h.vectors id).isSome

/-- `HNSWIndex::len`. -/
def HNSWIndex.lenPts (h : HNSWIndex) : Nat := h.vectors.length

/-- `HNSWIndex::get_entry_point`. -/
def HNSWIndex.get_entry_point (h : HNSWIndex) : Option PointId := h.entry_point

/-- One pass of `greedy_search_layer`: the first live neighbor of
`current` whose sort key against the query strictly improves on
`current`'s (the loop breaks at the first improvement). -/
def HNSWIndex.greedy_step (h : HNSWIndex) (query : QVector) (level : Nat)
    (current : PointId) : Option PointId :=
  match h.layer_neighbors level current with
  | none => none
  | some nbrs =>
    nbrs.find? (fun n =>
      !h.deleted.contains n &&
        decide (normalize_score h.metric (score query (h.vecOf n) h.metric) <
          normalize_score h.metric (score query (h.vecOf current) h.metric)))

/-- The `while changed && steps < 1000` loop of `greedy_search_layer`,
with the code's own step cap as fuel. -/
def HNSWIndex.greedyGo (h : HNSWIndex) (query : QVector) (level : Nat) :
    Nat → PointId → PointId
  | 0, cur => cur
  | fuel + 1, cur =>
    match h.greedy_step query level cur with
    | none => cur
    | some n => h.greedyGo query level fuel n

/-- `HNSWIndex::greedy_search_layer`. -/
def HNSWIndex.greedy_search_layer (h : HNSWIndex) (query : QVector)
    (entry : PointId) (level : Nat) : PointId :=
  h.greedyGo query level 1000 entry

/-- The mutable state of the beam search loop of `search_layer`:
candidate queue, result heap, visited set and the cached worst score. -/
structure BeamState where
  cands : List ScoredPoint
  res : List ScoredPoint
  visited : List PointId
  worst : ℚ
deriving DecidableEq, Repr

/-- One neighbor of the `search_layer` neighbor loop: skip tombstoned
or visited neighbors, mark the rest visited, and push those that fit
the beam, evicting the worst result beyond `ef` and refreshing the
cached worst score. -/
def HNSWIndex.beamPush (h : HNSWIndex) (query : QVector) (level : Nat)
    (ef : Nat) (normalize : Bool) (st : BeamState) (n : PointId) :
    BeamState :=
  if h.deleted.contains n || st.visited.contains n then st
  else
    let visited1 := st.visited ++ [n]
    let raw := score query (h.vecOf n) h.metric
    let key := if normalize then normalize_score h.metric raw else raw
    if st.res.length < ef || key < st.worst then
      let sp : ScoredPoint := ⟨n, raw, key⟩
      let res1 := st.res ++ [sp]
      let res2 := if res1.length > ef then
          ((popMax res1).map (fun p => p.2)).getD res1
        else res1
      let worst1 := match popMax res2 with
        | some p => p.1.sort_key
        | none => st.worst
      ⟨st.cands ++ [sp], res2, visited1, worst1⟩
    else
      { st with visited := visited1 }

/-- The neighbor loop body of `search_layer`. -/
def HNSWIndex.beamProcess (h : HNSWIndex) (query : QVector) (level : Nat)
    (ef : Nat) (normalize : Bool) (cur : ScoredPoint) (st : BeamState) :
    BeamState :=
  ((h.layer_neighbors level cur.id).getD []).foldl
    (h.beamPush query level ef normalize) st

/-- The outer `while let Some(current) = candidate_queue.peek()` loop of
`search_layer`: stop when the best candidate is worse than the cached
worst result.  Fuel-bounded; pops never exceed pushes, which the chosen
fuel dominates. -/
def HNSWIndex.beamLoop (h : HNSWIndex) (query : QVector) (level : Nat)
    (ef : Nat) (normalize : Bool) : Nat → BeamState → BeamState
  | 0, st => st
  | fuel + 1, st =>
    match popMin st.cands with
    | none => st
    | some (cur, rest) =>
      if cur.sort_key > st.worst then st
      else
        h.beamLoop query level ef normalize fuel
          (h.beamProcess query level ef normalize cur { st with cands := rest })

/-- Total size of all adjacency lists, used to bound the beam fuel. -/
def HNSWIndex.adjSize (h : HNSWIndex) : Nat :=
  (h.layers.map (fun lv => (lv.2.map (fun p => p.2.length)).sum)).sum

/-- A fuel that dominates any possible number of beam iterations. -/
def HNSWIndex.beamFuel (h : HNSWIndex) : Nat :=
  h.vectors.length + h.adjSize + 2

/-- `HNSWIndex::search_layer`, additionally returning the set of visited
points (the Rust function computes it internally and drops it). -/
def HNSWIndex.search_layer_full (h : HNSWIndex) (query : QVector)
    (entry : PointId) (level : Nat) (ef : Nat) (normalize : Bool) :
    Except DBError (List ScoredPoint × List PointId) :=
  if query.length ≠ h.dim then
    .error (.VectorLengthMismatch h.dim query.length)
  else
    let start_entry :=
      if h.deleted.contains entry then
        ((alKeys h.vectors).find? (fun id => !h.deleted.contains id)).getD entry
      else entry
    let entry_distance := score query (h.vecOf start_entry) h.metric
    let entry_score :=
      if normalize then normalize_score h.metric entry_distance
      else entry_distance
    let initial : ScoredPoint := ⟨start_entry, entry_distance, entry_score⟩
    let st0 : BeamState := ⟨[initial], [initial], [start_entry], entry_score⟩
    let st := h.beamLoop query level ef normalize h.beamFuel st0
    .ok (sortAsc st.res, st.visited)

/-- `HNSWIndex::search_layer` (results only, sorted ascending). -/
def HNSWIndex.search_layer (h : HNSWIndex) (query : QVector)
    (entry : PointId) (level : Nat) (ef : Nat) (normalize : Bool) :
    Except DBError (List ScoredPoint) :=
  (h.search_layer_full query entry level ef normalize).map (fun p => p.1)

/-- The descending level list `(lo..=hi).rev()`. -/
def rangeRev (lo hi : Nat) : List Nat :=
  ((List.range (hi + 1 - lo)).map (fun i => i + lo)).reverse

/-- The greedy descent `for l in (1..=current_max_level).rev()` used by
`search` (and by `build_filter_aware_edges`). -/
def HNSWIndex.greedyDescent (h : HNSWIndex) (query : QVector)
    (entry : PointId) : PointId :=
  (rangeRev 1 h.current_max_level).foldl
    (fun cur l => h.greedy_search_layer query cur l) entry

/-- `HNSWIndex::search`: empty without an entry point, dimension check,
metric-dependent query normalization, greedy descent to level 1, beam at
level 0, final ascending sort and truncation to `top_k`. -/
def HNSWIndex.search (h : HNSWIndex) (query : QVector) (top_k : Nat) :
    Except DBError (List ScoredPoint) :=
  match h.entry_point with
  | none => .ok []
  | some ep =>
    if query.length ≠ h.dim then
      .error (.VectorLengthMismatch h.dim query.length)
    else
      let normalize_query := h.metric = DistanceMetric.Cosine
      let normalize_flag := h.metric = DistanceMetric.Cosine ∨
        h.metric = DistanceMetric.Dot
      let q := if normalize_query then maybe_normalize h.metric query else query
      let current := h.greedyDescent q ep
      do
        let results ← h.search_layer q current 0 h.ef normalize_flag
        .ok ((sortAsc results).take top_k)

/-- `HNSWIndex::mark_deleted`: tombstone the id and, if it was the entry
point, move the entry to any live id (None if none remain). -/
def HNSWIndex.mark_deleted (h : HNSWIndex) (point_id : PointId) : HNSWIndex :=
  let deleted1 := slInsert h.deleted point_id
  let ep1 :=
    if h.entry_point = some point_id then
      (alKeys h.vectors).find? (fun id => !deleted1.contains id)
    else h.entry_point
  { h with deleted := deleted1, entry_point := ep1 }

/-- `layers.entry(l).or_default().entry(id).or_insert_with(Vec::new)
.push(tgt)`. -/
def HNSWIndex.pushLink (h : HNSWIndex) (l : Nat) (id tgt : PointId) :
    HNSWIndex :=
  let lm := (alGet? h.layers l).getD []
  let lst := (alGet? lm id).getD []
  { h with layers := alSet h.layers l (alSet lm id (lst ++ [tgt])) }

/-- `HNSWIndex::add_bidirectional_edge` (unconditional pushes, possibly
duplicating entries, exactly as the Rust code does). -/
def HNSWIndex.add_bidirectional_edge (h : HNSWIndex) (level : Nat)
    (a b : PointId) : HNSWIndex :=
  let h1 :=
    let lm := (alGet? h.layers level).getD []
    { h with layers := alSet h.layers level (alSet lm a ((alGet? lm a).getD [] ++ [b])) }
  let lm1 := (alGet? h1.layers level).getD []
  { h1 with layers := alSet h1.layers level (alSet lm1 b ((alGet? lm1 b).getD [] ++ [a])) }

/-- The `for l in (0..=level).rev()` insertion loop of `insert`: beam at
each level, link the new point to the top `m` candidates (plus a
self-loop), append it to each chosen neighbor's adjacency without
duplicates, and advance the working entry to the best neighbor. -/
def insertBackLink (point_id : PointId) (l : Nat) (h : HNSWIndex)
    (n : PointId) : HNSWIndex :=
  let lm := (alGet? h.layers l).getD []
  let e := (alGet? lm n).getD []
  if e.contains point_id then h
  else { h with layers := alSet h.layers l (alSet lm n (e ++ [point_id])) }

def insertLayersGo (point_id : PointId) :
    List Nat → HNSWIndex → PointId → Except DBError (HNSWIndex × PointId)
  | [], h, cur => .ok (h, cur)
  | l :: rest, h, cur => do
    let use_norm := h.metric = DistanceMetric.Cosine ∨
      h.metric = DistanceMetric.Dot
    let candidates ← h.search_layer (h.vecOf point_id) cur l h.ef use_norm
    let neighbors := (candidates.take h.m).map (fun sp => sp.id)
    let linked :=
      if neighbors.contains point_id then neighbors else neighbors ++ [point_id]
    let lm := (alGet? h.layers l).getD []
    let h1 := { h with layers := alSet h.layers l (alSet lm point_id linked) }
    let h2 := neighbors.foldl (insertBackLink point_id l) h1
    let cur1 := neighbors.head?.getD cur
    insertLayersGo point_id rest h2 cur1

/-- `HNSWIndex::insert`.  The randomly drawn level is the explicit
`level` argument; the cap `min(level, max_level_cap)` is the code's. -/
def HNSWIndex.insert (h : HNSWIndex) (point_id : PointId) (vector : QVector)
    (level : Nat) : Except DBError HNSWIndex :=
  if (alGet? h.vectors point_id).isSome then .ok h
  else if vector.length ≠ h.dim then
    .error (.VectorLengthMismatch h.dim vector.length)
  else
    let level := min level h.max_level_cap
    let vec := maybe_normalize h.metric vector
    let h1 := { h with vectors := alSet h.vectors point_id vec,
                       levels := alSet h.levels point_id level }
    let h2 := (List.range (level + 1)).foldl
      (fun h l => h.pushLink l point_id point_id) h1
    if h2.entry_point = none then
      .ok { h2 with entry_point := some point_id, current_max_level := level }
    else
      let current_entry :=
        match h2.entry_point with
        | some ep =>
          if h2.deleted.contains ep then
            ((alKeys h2.vectors).find? (fun id => !h2.deleted.contains id)).getD ep
          else ep
        | none => point_id
      let current_entry := (rangeRev (level + 1) h2.current_max_level).foldl
        (fun cur l => h2.greedy_search_layer (h2.vecOf point_id) cur l)
        current_entry
      do
        let (h3, _) ← insertLayersGo point_id (rangeRev 0 level) h2 current_entry
        if level > h3.current_max_level then
          .ok { h3 with entry_point := some point_id, current_max_level := level }
        else
          .ok h3

/-- The `for key in filter_keys` loop of
`HNSWIndex::build_filter_aware_edges`, accumulating the set of extra
neighbors (insertion-ordered, duplicate-free): fast path through the
inverted index (sampling refined to the first 100 matches), then the
descent+beam (or brute-force scoring when the graph has no upper level)
fallback filtered to payload-matching candidates; stop as soon as `m`
extra neighbors are gathered. -/
def HNSWIndex.bfaeGo (h : HNSWIndex) (query_vector : QVector)
    (point_id : PointId) (payload : Payload) (payload_index : PayloadIndex)
    (payloads : List (PointId × Payload)) :
    List String → List PointId → Except DBError (List PointId)
  | [], extra => .ok extra
  | key :: rest, extra =>
    match payload.get key with
    | none =>
      h.bfaeGo query_vector point_id payload payload_index payloads rest extra
    | some value =>
      let extra1 :=
        match payload_index.query_exact key value with
        | some id_set =>
          let sample := (id_set.filter
            (fun id => id ≠ point_id && (h.get_vector id).isSome)).take 100
          let scored := sample.filterMap (fun id =>
            (h.get_vector id).map (fun vec =>
              let raw := score query_vector vec h.metric
              (⟨id, raw, normalize_score h.metric raw⟩ : ScoredPoint)))
          ((sortByRaw h.metric scored).take h.m).foldl
            (fun ex sp => slInsert ex sp.id) extra
        | none => extra
      if extra1.length ≥ h.m then .ok extra1
      else do
        let candidates ←
          if h.current_max_level > 0 then
            h.search_layer query_vector
              (h.greedyDescent query_vector (h.get_entry_point.getD 0)) 0 h.ef
              (h.metric = DistanceMetric.Cosine ∨ h.metric = DistanceMetric.Dot)
          else
            .ok (h.vectors.filterMap (fun p =>
              if p.1 ≠ point_id ∧ ¬ h.deleted.contains p.1 then
                let raw := score query_vector p.2 h.metric
                some (⟨p.1, raw, normalize_score h.metric raw⟩ : ScoredPoint)
              else none))
        let filtered := (((sortByRaw h.metric candidates).filter (fun sp =>
            match alGet? payloads sp.id with
            | some p => p.get key = some value
            | none => false)).take h.m).map (fun sp => sp.id)
        let extra2 := filtered.foldl (fun ex id => slInsert ex id) extra1
        if extra2.length ≥ h.m then .ok extra2
        else
          h.bfaeGo query_vector point_id payload payload_index payloads rest
            extra2

/-- `HNSWIndex::build_filter_aware_edges`: gather extra neighbors across
the payload's filterable keys, add the self-loop, and insert a
bidirectional level-0 edge to each. -/
def HNSWIndex.build_filter_aware_edges (h : HNSWIndex) (point_id : PointId)
    (vector : QVector) (payload : Payload) (payload_index : PayloadIndex)
    (payloads : List (PointId × Payload)) (filter_keys : List String) :
    Except DBError HNSWIndex := do
  let query_vector :=
    if h.metric = DistanceMetric.Cosine then maybe_normalize h.metric vector
    else vector
  let extra ← h.bfaeGo query_vector point_id payload payload_index payloads
    filter_keys []
  let extra := slInsert extra point_id
  .ok (extra.foldl (fun h n => h.add_bidirectional_edge 0 point_id n) h)

/-! ## In-place filtered search (`vector/in_place.rs`) -/

/-- `find_entry_point_matching_filter`: first live, present id indexed
under a `Match` leaf; first seed of any child for `And`/`Or`; recurse
through `Not`; no seed for `Compare`. -/
def find_entry_point_matching_filter (payload_index : PayloadIndex)
    (is_deleted : PointId → Bool) (hnsw : HNSWIndex) :
    Filter → Option PointId
  | .Match key value =>
    (payload_index.query_exact key value).bind (fun ids =>
      ids.find? (fun id => !is_deleted id && (hnsw.get_vector id).isSome))
  | .And conds => goList conds
  | .Or conds => goList conds
  | .Not inner => find_entry_point_matching_filter payload_index is_deleted
      hnsw inner
  | .Compare _ _ _ => none
where
  /-- first seed produced by any child, in order -/
  goList : List Filter → Option PointId
    | [] => none
    | c :: cs =>
      match find_entry_point_matching_filter payload_index is_deleted hnsw c with
      | some id => some id
      | none => goList cs

/-- One pass of `greedy_search_layer_with_filter`: walk the (borrowed)
neighbor list of the entry, skipping tombstoned, payload-less and
filter-failing neighbors (filter errors propagate), moving to each
strict improvement; returns the final point and whether it moved. -/
def gswfPass (hnsw : HNSWIndex) (payloads : List (PointId × Payload))
    (filterOpt : Option Filter) (is_deleted : PointId → Bool)
    (query : QVector) (level : Nat) (entry : PointId) :
    Except DBError (PointId × Bool) :=
  match hnsw.layer_neighbors level entry with
  | none => .ok (entry, false)
  | some nbrs =>
    nbrs.foldlM
      (fun st n => do
        if is_deleted n then pure st
        else do
          let pass ←
            match filterOpt with
            | none => pure true
            | some f =>
              match alGet? payloads n with
              | none => pure false
              | some p => evaluate_filter f p
          if !pass then pure st
          else
            let d_current := score query (hnsw.vecOf st.1) hnsw.metric
            let d_new := score query (hnsw.vecOf n) hnsw.metric
            if normalize_score hnsw.metric d_new <
                normalize_score hnsw.metric d_current then
              pure (n, true)
            else pure st)
      (entry, false)

/-- The `while changed` loop of `greedy_search_layer_with_filter` (the
Rust loop has no step cap; fuel dominates the strictly improving
steps). -/
def gswfGo (hnsw : HNSWIndex) (payloads : List (PointId × Payload))
    (filterOpt : Option Filter) (is_deleted : PointId → Bool)
    (query : QVector) (level : Nat) :
    Nat → PointId → Except DBError PointId
  | 0, cur => .ok cur
  | fuel + 1, cur => do
    let r ← gswfPass hnsw payloads filterOpt is_deleted query level cur
    if r.2 then gswfGo hnsw payloads filterOpt is_deleted query level fuel r.1
    else .ok r.1

/-- `greedy_search_layer_with_filter`. -/
def greedy_search_layer_with_filter (query : QVector) (entry : PointId)
    (level : Nat) (hnsw : HNSWIndex) (payloads : List (PointId × Payload))
    (filterOpt : Option Filter) (is_deleted : PointId → Bool) :
    Except DBError PointId :=
  gswfGo hnsw payloads filterOpt is_deleted query level hnsw.beamFuel entry

/-- Seed selection of `in_place_filtered_search`: use the entry point
when it satisfies the filter (or there is none); otherwise try
`find_entry_point_matching_filter`, falling back to the (possibly
non-matching) entry point; `none` means the search returns empty. -/
def inPlaceSeed (hnsw : HNSWIndex) (payloads : List (PointId × Payload))
    (payload_index : PayloadIndex) (filterOpt : Option Filter)
    (is_deleted : PointId → Bool) : Except DBError (Option PointId) :=
  match hnsw.get_entry_point with
  | some id =>
    match filterOpt with
    | some f =>
      match alGet? payloads id with
      | some payload => do
        let r ← evaluate_filter f payload
        if r then .ok (some id)
        else .ok (some ((find_entry_point_matching_filter payload_index
          is_deleted hnsw f).getD id))
      | none =>
        .ok (some ((find_entry_point_matching_filter payload_index is_deleted
          hnsw f).getD id))
    | none => .ok (some id)
  | none =>
    match filterOpt with
    | some f =>
      match find_entry_point_matching_filter payload_index is_deleted hnsw f with
      | some id => .ok (some id)
      | none => .ok none
    | none => .ok none

/-- The state of the in-place beam: candidate heap, result heap and
visited set. -/
structure InPlaceState where
  cands : List ScoredPoint
  res : List ScoredPoint
  visited : List PointId
deriving DecidableEq, Repr

/-- Neighbor processing of the in-place beam: mark visited first, skip
tombstoned, payload-less and filter-failing neighbors (filter errors
propagate), push the rest into both heaps; when the result heap exceeds
`ef`, `results.pop()` on the inverted `ScoredPoint` order evicts the
element with the LOWEST sort key (the best one) — exactly what the Rust
code does. -/
def inPlaceProcess (hnsw : HNSWIndex) (payloads : List (PointId × Payload))
    (filterOpt : Option Filter) (is_deleted : PointId → Bool)
    (query : QVector) (cur : ScoredPoint) (st : InPlaceState) :
    Except DBError InPlaceState :=
  ((hnsw.layer_neighbors 0 cur.id).getD []).foldlM
    (fun st n => do
      if st.visited.contains n then pure st
      else
        let visited1 := st.visited ++ [n]
        if is_deleted n then pure { st with visited := visited1 }
        else do
          let pass ←
            match filterOpt with
            | none => pure true
            | some f =>
              match alGet? payloads n with
              | none => pure false
              | some p => evaluate_filter f p
          if !pass then pure { st with visited := visited1 }
          else
            let d := score query ((hnsw.get_vector n).getD []) hnsw.metric
            let sp : ScoredPoint := ⟨n, d, normalize_score hnsw.metric d⟩
            let res1 := st.res ++ [sp]
            let res2 :=
              if res1.length > hnsw.ef then ((popMin res1).map (fun p => p.2)).getD res1
              else res1
            pure ⟨st.cands ++ [sp], res2, visited1⟩)
    st

/-- The `while let Some(current) = candidates.pop()` loop of
`in_place_filtered_search` (no early-termination condition). -/
def inPlaceLoop (hnsw : HNSWIndex) (payloads : List (PointId × Payload))
    (filterOpt : Option Filter) (is_deleted : PointId → Bool)
    (query : QVector) : Nat → InPlaceState → Except DBError InPlaceState
  | 0, st => .ok st
  | fuel + 1, st =>
    match popMin st.cands with
    | none => .ok st
    | some (cur, rest) => do
      let st1 ← inPlaceProcess hnsw payloads filterOpt is_deleted query cur
        { st with cands := rest }
      inPlaceLoop hnsw payloads filterOpt is_deleted query fuel st1

/-- `in_place_filtered_search`: dimension check, seed selection, filtered
greedy descent, filtered beam at level 0, then
`results.into_sorted_vec()` — which, under the inverted `ScoredPoint`
order, is DESCENDING by sort key — truncated to `top_k`. -/
def in_place_filtered_search (query : QVector) (top_k : Nat)
    (hnsw : HNSWIndex) (payloads : List (PointId × Payload))
    (payload_index : PayloadIndex) (filterOpt : Option Filter)
    (is_deleted : PointId → Bool) : Except DBError (List ScoredPoint) := do
  if query.length ≠ hnsw.dim then
    .error (.VectorLengthMismatch hnsw.dim query.length)
  else do
    match ← inPlaceSeed hnsw payloads payload_index filterOpt is_deleted with
    | none => .ok []
    | some seed => do
      let current ← (rangeRev 1 hnsw.current_max_level).foldlM
        (fun cur level => greedy_search_layer_with_filter query cur level hnsw
          payloads filterOpt is_deleted)
        seed
      let dist := score query ((hnsw.get_vector current).getD []) hnsw.metric
      let first : ScoredPoint := ⟨current, dist, normalize_score hnsw.metric dist⟩
      let st ← inPlaceLoop hnsw payloads filterOpt is_deleted query
        hnsw.beamFuel ⟨[first], [first], [current]⟩
      .ok ((sortDesc st.res).take top_k)

/-! ## The segment (`segment/segment.rs`) -/

/-- `Segment` state: HNSW index, inverted payload index, payload map,
its own tombstone mirror, and the id counter (starting at 1). -/
structure Segment where
  hnsw : HNSWIndex
  payload_index : PayloadIndex
  payloads : List (PointId × Payload)
  deleted : List PointId
  next_id : PointId
deriving DecidableEq, Repr

/-- `Segment::new`. -/
def Segment.new (hnsw : HNSWIndex) : Segment := ⟨hnsw, [], [], [], 1⟩

/-- `Segment::insert`: allocate the next id, insert into HNSW, then (for
a payload) update the inverted index and payload map and build
filter-aware edges over the payload's scalar keys.  The drawn HNSW level
is the explicit `level` argument. -/
def Segment.insert (s : Segment) (vector : QVector)
    (payloadOpt : Option Payload) (level : Nat) :
    Except DBError (PointId × Segment) := do
  let point_id := s.next_id
  let h1 ← s.hnsw.insert point_id vector level
  match payloadOpt with
  | some p =>
    let idx1 := s.payload_index.insert point_id p
    let pls1 := alSet s.payloads point_id p
    let filter_keys := (p.filter (fun kv => PayloadIndex.is_indexable kv.2)).map
      (fun kv => kv.1)
    if filter_keys.isEmpty then
      let s1 : Segment :=
        ⟨h1, idx1, pls1, s.deleted, s.next_id + 1⟩
      .ok (point_id, s1)
    else do
      let h2 ← h1.build_filter_aware_edges point_id vector p idx1 pls1
        filter_keys
      let s1 : Segment :=
        ⟨h2, idx1, pls1, s.deleted, s.next_id + 1⟩
      .ok (point_id, s1)
  | none => .ok (point_id, { s with hnsw := h1, next_id := s.next_id + 1 })

/-- `Segment::get_vector`. -/
def Segment.get_vector (s : Segment) (point_id : PointId) : Option QVector :=
  if s.deleted.contains point_id then none else s.hnsw.get_vector point_id

/-- `Segment::get_payload`. -/
def Segment.get_payload (s : Segment) (point_id : PointId) : Option Payload :=
  alGet? s.payloads point_id

/-- `Segment::is_deleted`. -/
def Segment.deletedQ (s : Segment) (point_id : PointId) : Bool :=
  s.deleted.contains point_id

/-- The body of the `for (id, vector) in self.hnsw_index.vectors` loop
of `Segment::purge`: skip tombstoned points, reinsert the vector and,
when the point has a payload, reindex it and rebuild its filter-aware
edges. -/
def Segment.purgeStep (s : Segment) (lvl : PointId → Nat)
    (st : HNSWIndex × PayloadIndex × List (PointId × Payload))
    (pr : PointId × QVector) :
    Except DBError (HNSWIndex × PayloadIndex × List (PointId × Payload)) := do
  if s.deleted.contains pr.1 then pure st
  else do
    let h1 ← st.1.insert pr.1 pr.2 (lvl pr.1)
    match alGet? s.payloads pr.1 with
    | some p =>
      let idx1 := st.2.1.insert pr.1 p
      let pls1 := alSet st.2.2 pr.1 p
      let filter_keys := (p.filter
        (fun kv => PayloadIndex.is_indexable kv.2)).map (fun kv => kv.1)
      let h2 ← h1.build_filter_aware_edges pr.1 pr.2 p idx1 pls1
        filter_keys
      pure (h2, idx1, pls1)
    | none => pure (h1, st.2.1, st.2.2)

/-- `Segment::purge`: rebuild a fresh HNSW, inverted index and payload
map from the live points (in storage order), rebuilding filter-aware
edges, then swap in and clear the tombstones.  `lvl` supplies the level
drawn for each reinserted point. -/
def Segment.purge (s : Segment) (lvl : PointId → Nat) :
    Except DBError Segment := do
  let init : HNSWIndex × PayloadIndex × List (PointId × Payload) :=
    (HNSWIndex.new s.hnsw.metric s.hnsw.m s.hnsw.ef s.hnsw.max_level_cap
      s.hnsw.dim, [], [])
  let st ← s.hnsw.vectors.foldlM (s.purgeStep lvl) init
  .ok ⟨st.1, st.2.1, st.2.2, [], s.next_id⟩

/-- `Segment::delete`: no-op for already-deleted or absent ids; remove
the payload from the inverted index, tombstone in both sets, and purge
when at least 100 deletions make up at least a quarter of the stored
points. -/
def Segment.delete (s : Segment) (point_id : PointId) (lvl : PointId → Nat) :
    Except DBError Segment :=
  if s.deleted.contains point_id || !s.hnsw.containsPt point_id then .ok s
  else
    let s1 :=
      match alGet? s.payloads point_id with
      | some p => { s with payload_index := s.payload_index.remove point_id p }
      | none => s
    let s2 : Segment :=
      ⟨s1.hnsw.mark_deleted point_id, s1.payload_index, s1.payloads,
        slInsert s1.deleted point_id, s1.next_id⟩
    let deleted_count := s2.deleted.length
    let total_count := s2.hnsw.lenPts
    if deleted_count ≥ 100 ∧
        (deleted_count : ℚ) / (total_count : ℚ) ≥ 1 / 4 then
      s2.purge lvl
    else .ok s2

/-- `Segment::search`: error when no live points remain, oversample the
HNSW search by 2x, drop tombstones as a safety belt, truncate. -/
def Segment.search (s : Segment) (query : QVector) (top_k : Nat) :
    Except DBError (List ScoredPoint) := do
  if s.hnsw.lenPts - s.deleted.length = 0 then
    .error (.SearchError "No active points available to search.")
  else do
    let candidates ← s.hnsw.search query (top_k * 2)
    .ok ((candidates.filter (fun sp => !s.deleted.contains sp.id)).take top_k)

/-- `Segment::post_filter`: as `search` with 4x oversampling, dropping
tombstoned points and points whose payload is missing or fails the
filter; a filter evaluation error counts as a failure
(`unwrap_or(false)`). -/
def Segment.post_filter (s : Segment) (query : QVector) (top_k : Nat)
    (filterOpt : Option Filter) : Except DBError (List ScoredPoint) := do
  if s.hnsw.lenPts - s.deleted.length = 0 then
    .error (.SearchError "No active points available to search.")
  else do
    let candidates ← s.hnsw.search query (top_k * 4)
    .ok ((candidates.filter (fun sp =>
      !s.deleted.contains sp.id &&
        (match filterOpt with
         | none => true
         | some f =>
           match alGet? s.payloads sp.id with
           | some p =>
             match evaluate_filter f p with
             | .ok b => b
             | .error _ => false
           | none => false))).take top_k)

/-! ## Reachable states -/

/-- A segment mutation: insert (with its drawn level) or delete (with
the level oracle a triggered purge would use). -/
inductive SegOp where
  | insert (vector : QVector) (payloadOpt : Option Payload) (level : Nat)
  | delete (id : PointId) (lvl : PointId → Nat)

/-- Apply one operation; a failed operation leaves the segment unchanged
(both failing paths of the code mutate nothing before erroring). -/
def Segment.applyOp (s : Segment) (op : SegOp) : Segment :=
  match op with
  | .insert v p l =>
    match Segment.insert s v p l with
    | .ok r => r.2
    | .error _ => s
  | .delete id lvl =>
    match Segment.delete s id lvl with
    | .ok s1 => s1
    | .error _ => s

/-- Apply a list of operations in order. -/
def Segment.applyOps (s : Segment) (ops : List SegOp) : Segment :=
  ops.foldl Segment.applyOp s

/-- Segment states reachable from a fresh segment. -/
def SegReachable (s : Segment) : Prop :=
  ∃ metric m ef cap dim ops,
    Segment.applyOps (Segment.new (HNSWIndex.new metric m ef cap dim)) ops = s

/-- An HNSW-level mutation (public operations of `HNSWIndex`). -/
inductive HOp where
  | insert (id : PointId) (vector : QVector) (level : Nat)
  | markDeleted (id : PointId)

/-- Apply one HNSW operation; a failed insert leaves the index
unchanged. -/
def HNSWIndex.applyOp (h : HNSWIndex) (op : HOp) : HNSWIndex :=
  match op with
  | .insert id v l =>
    match HNSWIndex.insert h id v l with
    | .ok h1 => h1
    | .error _ => h
  | .markDeleted id => h.mark_deleted id

/-- Apply a list of HNSW operations in order. -/
def HNSWIndex.applyOps (h : HNSWIndex) (ops : List HOp) : HNSWIndex :=
  ops.foldl HNSWIndex.applyOp h

/-- HNSW states reachable from a fresh index. -/
def HReachable (h : HNSWIndex) : Prop :=
  ∃ metric m ef cap dim ops,
    HNSWIndex.applyOps (HNSWIndex.new metric m ef cap dim) ops = h

/-! ## Derived notions used by the theorems -/

/-- All ids occurring in adjacency lists (edge targets). -/
def HNSWIndex.adjIds (h : HNSWIndex) : List PointId :=
  ((h.layers.map (fun lv => (lv.2.map (fun p => p.2)).flatten)).flatten)

/-- Every id the index can ever hand out from a search: the entry point,
the stored ids and the edge targets. -/
def HNSWIndex.mentionIds (h : HNSWIndex) : List PointId :=
  h.entry_point.toList ++ alKeys h.vectors ++ h.adjIds

/-- The scored point the beam builds for id `j` against query `q` under
normalization flag `nf`. -/
def mkScored (h : HNSWIndex) (q : QVector) (nf : Bool) (j : PointId) :
    ScoredPoint :=
  let raw := score q (h.vecOf j) h.metric
  ⟨j, raw, if nf then normalize_score h.metric raw else raw⟩

/-- The beam-state invariant of the recall analysis for a target id
`i`: every result is a correctly scored visited point, the cached worst
score is attained by some result and bounds all of them, and `i` has
exactly one result entry as soon as it has been visited. -/
def BeamInv (h : HNSWIndex) (q : QVector) (nf : Bool) (i : PointId)
    (st : BeamState) : Prop :=
  (∀ sp ∈ st.res, sp.id ∈ st.visited ∧ sp = mkScored h q nf sp.id) ∧
  (∃ sp ∈ st.res, st.worst = sp.sort_key) ∧
  (∀ sp ∈ st.res, sp.sort_key ≤ st.worst) ∧
  (st.res.countP (fun sp => sp.id == i) =
    if i ∈ st.visited then 1 else 0)

/-- `sp.id` satisfies the filter: its payload exists and evaluates to
true. -/
def passesFilter (payloads : List (PointId × Payload)) (f : Filter)
    (n : PointId) : Prop :=
  ∃ p, alGet? payloads n = some p ∧ evaluate_filter f p = .ok true

/-- Structural well-formedness of an HNSW index: the entry point and all
edge targets are stored ids. -/
def HNSWIndex.WF (h : HNSWIndex) : Prop :=
  (∀ e, h.entry_point = some e → e ∈ alKeys h.vectors) ∧
  (∀ k ∈ h.adjIds, k ∈ alKeys h.vectors)

/-- Two indices agreeing on every field except the adjacency lists. -/
def sameSkeleton (h1 h2 : HNSWIndex) : Prop :=
  h1.vectors = h2.vectors ∧ h1.levels = h2.levels ∧
  h1.entry_point = h2.entry_point ∧
  h1.current_max_level = h2.current_max_level ∧ h1.deleted = h2.deleted ∧
  h1.metric = h2.metric ∧ h1.m = h2.m ∧ h1.ef = h2.ef ∧
  h1.max_level_cap = h2.max_level_cap ∧ h1.dim = h2.dim

/-- The entry-point/level invariant the amended C5 claims: a Some entry
point is stored and its level is bounded by (not necessarily equal to)
`current_max_level`; auxiliary conjuncts make it inductive: live levels
are bounded, a None entry means every stored id is tombstoned, and
`levels` and `vectors` share their key set. -/
def HNSWIndex.EntryLevelInv (h : HNSWIndex) : Prop :=
  (∀ e, h.entry_point = some e →
    e ∈ alKeys h.vectors ∧ (alGet? h.levels e).getD 0 ≤ h.current_max_level) ∧
  (∀ pr ∈ h.levels, pr.1 ∉ h.deleted → pr.2 ≤ h.current_max_level) ∧
  (h.entry_point = none → ∀ k ∈ alKeys h.vectors, k ∈ h.deleted) ∧
  (alKeys h.levels = alKeys h.vectors)

/-- Global segment invariant: the index is well-formed and every stored,
tombstoned or mentioned id has been allocated (is below `next_id`, and
at least 1). -/
def Segment.WF (s : Segment) : Prop :=
  s.hnsw.WF ∧ 1 ≤ s.next_id ∧
  (∀ k ∈ alKeys s.hnsw.vectors, 1 ≤ k ∧ k < s.next_id) ∧
  (∀ k ∈ s.deleted, 1 ≤ k ∧ k < s.next_id)

/-- The id `i` is dead to the segment: allocated, and either tombstoned
or not mentioned anywhere in the HNSW index. -/
def Segment.Dead (s : Segment) (i : PointId) : Prop :=
  i < s.next_id ∧ (i ∈ s.deleted ∨ i ∉ s.hnsw.mentionIds)

/-! ## Concrete fixtures -/

/-- C1 trace: Euclidean, m=1, ef=1, dim=1; four successful inserts, all
at level 0. -/
def fixC1 : HNSWIndex :=
  HNSWIndex.applyOps (HNSWIndex.new DistanceMetric.Euclidean 1 1 16 1)
    [HOp.insert 1 [5] 0, HOp.insert 2 [-4] 0, HOp.insert 3 [0] 0,
     HOp.insert 4 [3] 0]

/-- C1 witness fixture: a one-point index. -/
def fixW1 : HNSWIndex :=
  HNSWIndex.applyOps (HNSWIndex.new DistanceMetric.Euclidean 1 1 16 1)
    [HOp.insert 1 [5] 0]

/-- C5 trace: point 1 at level 1 becomes the entry, point 2 at level 0,
then the entry is tombstoned. -/
def fixC5 : HNSWIndex :=
  HNSWIndex.applyOps (HNSWIndex.new DistanceMetric.Euclidean 2 2 16 1)
    [HOp.insert 1 [0] 1, HOp.insert 2 [1] 0, HOp.markDeleted 1]

/-- C3/C2/C6 base: two points on a line (Euclidean, dim 1). -/
def fixC3 : Segment :=
  Segment.applyOps (Segment.new (HNSWIndex.new DistanceMetric.Euclidean 16 50 16 1))
    [SegOp.insert [0] none 0, SegOp.insert [3] none 0]

/-- C2 trace: one point whose payload fails the filter. -/
def fixC2 : Segment :=
  Segment.applyOps (Segment.new (HNSWIndex.new DistanceMetric.Euclidean 16 50 16 1))
    [SegOp.insert [0] (some [("group", PayloadValue.Str "odd")]) 0]

/-- The filter of the C2 trace, satisfied by no stored point. -/
def fixC2Filter : Filter := Filter.Match "group" (PayloadValue.Str "even")

/-- C2 witness fixture: one point whose payload satisfies the filter. -/
def fixW2 : Segment :=
  Segment.applyOps (Segment.new (HNSWIndex.new DistanceMetric.Euclidean 16 50 16 1))
    [SegOp.insert [0] (some [("group", PayloadValue.Str "even")]) 0]

/-- C6 trace: the second point's payload lacks the compared field. -/
def fixC6 : Segment :=
  Segment.applyOps (Segment.new (HNSWIndex.new DistanceMetric.Euclidean 16 50 16 1))
    [SegOp.insert [0] (some [("a", PayloadValue.Int 1)]) 0,
     SegOp.insert [3] (some [("b", PayloadValue.Int 2)]) 0]

/-- The C6 filter: `Compare` on a field the second payload misses. -/
def fixC6Filter : Filter :=
  Filter.Compare "a" ScalarComparisonOp.Gte (PayloadValue.Int 0)

/-- C6 witness fixture: the entry point's payload misses the compared
field, so the in-place seed computation already errors. -/
def fixW6 : Segment :=
  Segment.applyOps (Segment.new (HNSWIndex.new DistanceMetric.Euclidean 16 50 16 1))
    [SegOp.insert [0] (some [("b", PayloadValue.Int 2)]) 0]

/-- C7 trace: a Cosine segment storing the normalization of (3,2,1,1),
whose norm is irrational. -/
def fixC7 : Segment :=
  Segment.applyOps (Segment.new (HNSWIndex.new DistanceMetric.Cosine 4 4 8 4))
    [SegOp.insert [3, 2, 1, 1] none 0]

/-- C7 witness fixture: a Euclidean two-point segment with payloads. -/
def fixW7 : Segment :=
  Segment.applyOps (Segment.new (HNSWIndex.new DistanceMetric.Euclidean 2 2 16 1))
    [SegOp.insert [0] (some [("k", PayloadValue.Int 7)]) 0,
     SegOp.insert [3] none 0]

/-- C4 trace: one allocated point; `delete 2` is an Ok no-op on the
never-allocated id 2, which a later insert then allocates. -/
def fixC4 : Segment :=
  Segment.applyOps (Segment.new (HNSWIndex.new DistanceMetric.Euclidean 2 2 16 1))
    [SegOp.insert [0] none 0]

/-- The C4 trace after deleting the one stored point (no purge is
triggered, so this is the tombstoned segment). -/
def fixC4d : Segment :=
  match fixC4.delete 1 (fun _ => 0) with
  | .ok s1 => s1
  | .error _ => fixC4

/-! ## Small list lemmas -/

theorem contains_false_not_mem {l : List PointId} {a : PointId}
    (h : l.contains a = false) : a ∉ l := by
  simpa using h

theorem contains_true_of_mem {l : List PointId} {a : PointId}
    (h : a ∈ l) : l.contains a = true := by
  simpa using h

theorem mem_slInsert {l : List PointId} {x a : PointId} :
    x ∈ slInsert l a ↔ x ∈ l ∨ x = a := by
  unfold slInsert
  split
  · constructor
    · exact fun h => Or.inl h
    · rintro (h | rfl) <;> assumption
  · simp

theorem slInsert_length_not_mem {l : List PointId} {a : PointId}
    (h : a ∉ l) : (slInsert l a).length = l.length + 1 := by
  unfold slInsert
  rw [if_neg h]
  simp

/-! ## Association list lemmas -/

theorem alGet?_cons {α β : Type} [DecidableEq α] (a : α) (b : β)
    (tl : List (α × β)) (k : α) :
    alGet? ((a, b) :: tl) k = if a = k then some b else alGet? tl k := by
  simp only [alGet?, List.find?]
  by_cases hak : a = k <;> simp [hak]

theorem alGet?_alSet_self {α β : Type} [DecidableEq α] (l : List (α × β))
    (k : α) (v : β) : alGet? (alSet l k v) k = some v := by
  induction l with
  | nil => simp [alSet, alGet?_cons]
  | cons hd tl ih =>
    obtain ⟨a, b⟩ := hd
    by_cases hk : a = k
    · simp [alSet, hk, alGet?_cons]
    · simp [alSet, hk, alGet?_cons, ih]

theorem alGet?_alSet_ne {α β : Type} [DecidableEq α] (l : List (α × β))
    (k k' : α) (v : β) (h : k' ≠ k) :
    alGet? (alSet l k v) k' = alGet? l k' := by
  induction l with
  | nil =>
    have hne : ¬ k = k' := fun hh => h hh.symm
    simp [alSet, alGet?_cons, alGet?, hne]
  | cons hd tl ih =>
    obtain ⟨a, b⟩ := hd
    by_cases hk : a = k
    · subst hk
      have hne : ¬ a = k' := fun hh => h hh.symm
      simp [alSet, alGet?_cons, hne]
    · simp [alSet, hk, alGet?_cons, ih]

theorem mem_alSet {α β : Type} [DecidableEq α] {l : List (α × β)}
    {k : α} {v : β} {p : α × β} (h : p ∈ alSet l k v) :
    p ∈ l ∨ p = (k, v) := by
  induction l with
  | nil => simpa [alSet] using h
  | cons hd tl ih =>
    by_cases hk : hd.1 = k
    · simp only [alSet, hk, if_true] at h
      rcases List.mem_cons.mp h with h | h
      · exact Or.inr h
      · exact Or.inl (List.mem_cons_of_mem _ h)
    · simp only [alSet, hk, if_false] at h
      rcases List.mem_cons.mp h with h | h
      · exact Or.inl (h ▸ List.mem_cons_self _ _)
      · rcases ih h with h1 | h1
        · exact Or.inl (List.mem_cons_of_mem _ h1)
        · exact Or.inr h1

theorem alKeys_alSet {α β : Type} [DecidableEq α] (l : List (α × β))
    (k : α) (v : β) :
    alKeys (alSet l k v) =
      if k ∈ alKeys l then alKeys l else alKeys l ++ [k] := by
  induction l with
  | nil => simp [alSet, alKeys]
  | cons hd tl ih =>
    by_cases hk : hd.1 = k
    · simp [alSet, hk, alKeys]
    · simp only [alSet, hk, if_false, alKeys, List.map_cons] at ih ⊢
      rw [ih]
      by_cases hmem : k ∈ List.map Prod.fst tl
      · simp [hmem, Ne.symm hk]
      · simp [hmem, Ne.symm hk]

theorem mem_alKeys_alSet {α β : Type} [DecidableEq α] {l : List (α × β)}
    {k k' : α} {v : β} (h : k' ∈ alKeys (alSet l k v)) :
    k' ∈ alKeys l ∨ k' = k := by
  rw [alKeys_alSet] at h
  split at h
  · exact Or.inl h
  · rcases List.mem_append.mp h with h1 | h1
    · exact Or.inl h1
    · exact Or.inr (by simpa using h1)

theorem self_mem_alKeys_alSet {α β : Type} [DecidableEq α]
    (l : List (α × β)) (k : α) (v : β) : k ∈ alKeys (alSet l k v) := by
  rw [alKeys_alSet]
  split <;> simp_all

theorem alGet?_mem {α β : Type} [DecidableEq α] {l : List (α × β)} {k : α}
    {v : β} (h : alGet? l k = some v) : (k, v) ∈ l := by
  unfold alGet? at h
  cases hf : l.find? (fun p => p.1 = k) with
  | none => simp [hf] at h
  | some p =>
    have hp := List.mem_of_find?_eq_some hf
    have hk := List.find?_some hf
    simp [hf] at h
    have : p.1 = k := by simpa using hk
    rw [← h, ← this]
    simpa using hp

theorem alGet?_eq_none_of_not_mem_keys {α β : Type} [DecidableEq α]
    {l : List (α × β)} {k : α} (h : k ∉ alKeys l) : alGet? l k = none := by
  unfold alGet?
  cases hf : l.find? (fun p => p.1 = k) with
  | none => rfl
  | some p =>
    have hp := List.mem_of_find?_eq_some hf
    have hk : p.1 = k := by simpa using List.find?_some hf
    exact absurd (hk ▸ List.mem_map_of_mem Prod.fst hp) h

theorem mem_alKeys_of_alGet? {α β : Type} [DecidableEq α]
    {l : List (α × β)} {k : α} {v : β} (h : alGet? l k = some v) :
    k ∈ alKeys l := by
  simpa [alKeys] using List.mem_map_of_mem Prod.fst (alGet?_mem h)

theorem mem_alKeys_alSet_of_mem {α β : Type} [DecidableEq α]
    {l : List (α × β)} {k k' : α} {v : β} (h : k' ∈ alKeys l) :
    k' ∈ alKeys (alSet l k v) := by
  rw [alKeys_alSet]
  split
  · exact h
  · exact List.mem_append_left _ h

theorem alGet?_isSome_of_mem_keys {α β : Type} [DecidableEq α]
    {l : List (α × β)} {k : α} (h : k ∈ alKeys l) :
    (alGet? l k).isSome := by
  induction l with
  | nil => simp [alKeys] at h
  | cons hd tl ih =>
    obtain ⟨a, b⟩ := hd
    rw [alGet?_cons]
    by_cases hak : a = k
    · simp [hak]
    · simp only [hak, if_false]
      simp only [alKeys, List.map_cons, List.mem_cons] at h
      rcases h with h | h
      · exact absurd h.symm hak
      · exact ih h

theorem not_mem_keys_of_alGet?_not_isSome {α β : Type} [DecidableEq α]
    {l : List (α × β)} {k : α} (h : (alGet? l k).isSome = false) :
    k ∉ alKeys l := by
  intro hmem
  rw [alGet?_isSome_of_mem_keys hmem] at h
  cases h

/-! ## Skeleton (non-adjacency fields) preservation -/

theorem sameSkeleton_refl (h : HNSWIndex) : sameSkeleton h h :=
  ⟨rfl, rfl, rfl, rfl, rfl, rfl, rfl, rfl, rfl, rfl⟩

theorem sameSkeleton_trans {a b c : HNSWIndex} (h1 : sameSkeleton a b)
    (h2 : sameSkeleton b c) : sameSkeleton a c := by
  obtain ⟨e1, e2, e3, e4, e5, e6, e7, e8, e9, e10⟩ := h1
  obtain ⟨f1, f2, f3, f4, f5, f6, f7, f8, f9, f10⟩ := h2
  exact ⟨e1.trans f1, e2.trans f2, e3.trans f3, e4.trans f4, e5.trans f5,
    e6.trans f6, e7.trans f7, e8.trans f8, e9.trans f9, e10.trans f10⟩

theorem pushLink_skeleton (h : HNSWIndex) (l : Nat) (id tgt : PointId) :
    sameSkeleton (h.pushLink l id tgt) h :=
  ⟨rfl, rfl, rfl, rfl, rfl, rfl, rfl, rfl, rfl, rfl⟩

theorem foldl_skeleton {α : Type} (f : HNSWIndex → α → HNSWIndex)
    (hf : ∀ h a, sameSkeleton (f h a) h) :
    ∀ (l : List α) (h : HNSWIndex), sameSkeleton (l.foldl f h) h := by
  intro l
  induction l with
  | nil => intro h; exact sameSkeleton_refl h
  | cons hd tl ih =>
    intro h
    exact sameSkeleton_trans (ih (f h hd)) (hf h hd)

theorem insertBackLink_skeleton (j : PointId) (l : Nat) (h : HNSWIndex)
    (n : PointId) : sameSkeleton (insertBackLink j l h n) h := by
  unfold insertBackLink
  simp only []
  split
  · exact sameSkeleton_refl _
  · exact ⟨rfl, rfl, rfl, rfl, rfl, rfl, rfl, rfl, rfl, rfl⟩

theorem insertLayersGo_skeleton (j : PointId) :
    ∀ (ls : List Nat) (h : HNSWIndex) (cur : PointId)
      (r : HNSWIndex × PointId),
      insertLayersGo j ls h cur = .ok r → sameSkeleton r.1 h := by
  intro ls
  induction ls with
  | nil =>
    intro h cur r heq
    simp only [insertLayersGo] at heq
    cases heq
    exact sameSkeleton_refl h
  | cons l rest ih =>
    intro h cur r heq
    simp only [insertLayersGo] at heq
    cases hsl : h.search_layer (h.vecOf j) cur l h.ef
        (decide (h.metric = DistanceMetric.Cosine ∨
          h.metric = DistanceMetric.Dot)) with
    | error e =>
      rw [hsl] at heq
      cases heq
    | ok cs =>
      rw [hsl] at heq
      refine sameSkeleton_trans (ih _ _ _ heq) ?_
      refine sameSkeleton_trans
        (foldl_skeleton _ (fun h n => insertBackLink_skeleton j l h n) _ _)
        ?_
      · exact ⟨rfl, rfl, rfl, rfl, rfl, rfl, rfl, rfl, rfl, rfl⟩

/-! ## The entry-point/level invariant (C5) -/

theorem mem_alKeys_of_mem {α β : Type} {l : List (α × β)} {p : α × β}
    (h : p ∈ l) : p.1 ∈ alKeys l :=
  List.mem_map_of_mem (fun q => q.1) h

theorem EntryLevelInv_of_skeleton {h1 h2 : HNSWIndex}
    (hs : sameSkeleton h1 h2) (hinv : h2.EntryLevelInv) :
    h1.EntryLevelInv := by
  obtain ⟨e1, e2, e3, e4, e5, _, _, _, _, _⟩ := hs
  unfold HNSWIndex.EntryLevelInv at hinv ⊢
  rw [e1, e2, e3, e4, e5]
  exact hinv

theorem except_bind_ok {ε α β : Type} {e : Except ε α}
    {f : α → Except ε β} {b : β} (h : e >>= f = .ok b) :
    ∃ a, e = .ok a ∧ f a = .ok b := by
  cases e with
  | ok a => exact ⟨a, rfl, h⟩
  | error err => exact Except.noConfusion h

theorem insert_EntryLevelInv {h : HNSWIndex} {j : PointId} {v : QVector}
    {lvl : Nat} {h1 : HNSWIndex} (hinv : h.EntryLevelInv)
    (heq : h.insert j v lvl = .ok h1) : h1.EntryLevelInv := by
  obtain ⟨inv1, inv2, inv3, inv4⟩ := hinv
  simp only [HNSWIndex.insert] at heq
  split at heq
  · cases heq
    exact ⟨inv1, inv2, inv3, inv4⟩
  · rename_i hjs
    have hjnotmem : j ∉ alKeys h.vectors :=
      not_mem_keys_of_alGet?_not_isSome (by simpa using hjs)
    split at heq
    · exact Except.noConfusion heq
    · set L := min lvl h.max_level_cap with hL
      set nv := maybe_normalize h.metric v with hnv
      set hA : HNSWIndex :=
        { h with vectors := alSet h.vectors j nv,
                 levels := alSet h.levels j L } with hhA
      have hkeysEq : alKeys (alSet h.levels j L) =
          alKeys (alSet h.vectors j nv) := by
        rw [alKeys_alSet, alKeys_alSet, inv4]
      have hAinvNone : h.entry_point = none →
          HNSWIndex.EntryLevelInv
            { hA with entry_point := some j, current_max_level := L } := by
        intro hnone
        refine ⟨?_, ?_, ?_, hkeysEq⟩
        · intro e he
          cases he
          exact ⟨self_mem_alKeys_alSet _ _ _,
            by rw [alGet?_alSet_self]; exact le_refl L⟩
        · intro pr hpr hlive
          rcases mem_alSet hpr with hold | hnew
          · exact absurd (inv3 hnone pr.1 (inv4 ▸ mem_alKeys_of_mem hold))
              hlive
          · rw [hnew]
        · intro hn
          exact Option.noConfusion hn
      have hAinvPromo : L > h.current_max_level →
          HNSWIndex.EntryLevelInv
            { hA with entry_point := some j, current_max_level := L } := by
        intro hpromo
        refine ⟨?_, ?_, ?_, hkeysEq⟩
        · intro e he
          cases he
          exact ⟨self_mem_alKeys_alSet _ _ _,
            by rw [alGet?_alSet_self]; exact le_refl L⟩
        · intro pr hpr hlive
          rcases mem_alSet hpr with hold | hnew
          · exact le_trans (inv2 pr hold hlive) (Nat.le_of_lt hpromo)
          · rw [hnew]
        · intro hn
          exact Option.noConfusion hn
      have hAinvSome : h.entry_point ≠ none → ¬ L > h.current_max_level →
          HNSWIndex.EntryLevelInv hA := by
        intro hsome hnp
        refine ⟨?_, ?_, ?_, hkeysEq⟩
        · intro e he
          obtain ⟨hek, helev⟩ := inv1 e he
          have hej : e ≠ j := fun hh => hjnotmem (hh ▸ hek)
          exact ⟨mem_alKeys_alSet_of_mem hek,
            by rw [alGet?_alSet_ne _ _ _ _ hej]; exact helev⟩
        · intro pr hpr hlive
          rcases mem_alSet hpr with hold | hnew
          · exact inv2 pr hold hlive
          · rw [hnew]
            exact Nat.le_of_not_lt hnp
        · intro hn
          exact absurd hn hsome
      set hB := List.foldl (fun h l => h.pushLink l j j) hA
        (List.range (L + 1)) with hhB
      have hfold : sameSkeleton hB hA := foldl_skeleton _
        (fun h a => pushLink_skeleton h a j j) (List.range (L + 1)) hA
      split at heq
      · rename_i hnone
        cases heq
        have hnone0 : h.entry_point = none := hfold.2.2.1.symm.trans hnone
        refine EntryLevelInv_of_skeleton ?_ (hAinvNone hnone0)
        exact ⟨hfold.1, hfold.2.1, rfl, rfl, hfold.2.2.2.2.1,
          hfold.2.2.2.2.2.1, hfold.2.2.2.2.2.2.1, hfold.2.2.2.2.2.2.2.1,
          hfold.2.2.2.2.2.2.2.2.1, hfold.2.2.2.2.2.2.2.2.2⟩
      · rename_i hnotnone
        have hsome0 : h.entry_point ≠ none := fun hn =>
          hnotnone (hfold.2.2.1.trans hn)
        obtain ⟨r, hgo, hrest⟩ := except_bind_ok heq
        have hsk3 : sameSkeleton r.1 hA :=
          sameSkeleton_trans (insertLayersGo_skeleton j _ _ _ r hgo) hfold
        split at hrest
        · rename_i hpromo
          cases hrest
          have hpromo0 : L > h.current_max_level := by
            rw [hsk3.2.2.2.1] at hpromo
            exact hpromo
          refine EntryLevelInv_of_skeleton ?_ (hAinvPromo hpromo0)
          exact ⟨hsk3.1, hsk3.2.1, rfl, rfl, hsk3.2.2.2.2.1,
            hsk3.2.2.2.2.2.1, hsk3.2.2.2.2.2.2.1, hsk3.2.2.2.2.2.2.2.1,
            hsk3.2.2.2.2.2.2.2.2.1, hsk3.2.2.2.2.2.2.2.2.2⟩
        · rename_i hnopromo
          cases hrest
          have hnopromo0 : ¬ L > h.current_max_level := by
            rw [hsk3.2.2.2.1] at hnopromo
            exact hnopromo
          exact EntryLevelInv_of_skeleton hsk3 (hAinvSome hsome0 hnopromo0)

theorem mark_deleted_EntryLevelInv {h : HNSWIndex} (hinv : h.EntryLevelInv)
    (x : PointId) : (h.mark_deleted x).EntryLevelInv := by
  obtain ⟨inv1, inv2, inv3, inv4⟩ := hinv
  simp only [HNSWIndex.mark_deleted]
  by_cases hex : h.entry_point = some x
  · rw [if_pos hex]
    refine ⟨?_, ?_, ?_, inv4⟩
    · intro e he
      simp only at he
      have hek : e ∈ alKeys h.vectors := List.mem_of_find?_eq_some he
      have hlive := List.find?_some he
      have hnd : e ∉ h.deleted := by
        intro hmem
        have hse : e ∈ slInsert h.deleted x := mem_slInsert.mpr (Or.inl hmem)
        simp [hse] at hlive
      have hkl : e ∈ alKeys h.levels := inv4 ▸ hek
      obtain ⟨lv, hlv⟩ := Option.isSome_iff_exists.mp
        (alGet?_isSome_of_mem_keys hkl)
      refine ⟨hek, ?_⟩
      rw [hlv]
      exact inv2 (e, lv) (alGet?_mem hlv) hnd
    · intro pr hpr hlive
      refine inv2 pr hpr (fun hmem => hlive ?_)
      exact mem_slInsert.mpr (Or.inl hmem)
    · intro hn k hk
      simp only at hn
      have := List.find?_eq_none.mp hn k hk
      simpa using this
  · rw [if_neg hex]
    refine ⟨?_, ?_, ?_, inv4⟩
    · intro e he
      exact inv1 e he
    · intro pr hpr hlive
      refine inv2 pr hpr (fun hmem => hlive ?_)
      exact mem_slInsert.mpr (Or.inl hmem)
    · intro hn k hk
      exact mem_slInsert.mpr (Or.inl (inv3 hn k hk))

theorem new_EntryLevelInv (metric : DistanceMetric) (m ef cap dim : Nat) :
    (HNSWIndex.new metric m ef cap dim).EntryLevelInv := by
  refine ⟨?_, ?_, ?_, rfl⟩ <;> simp [HNSWIndex.new, alKeys]

theorem applyOp_EntryLevelInv {h : HNSWIndex} (hinv : h.EntryLevelInv)
    (op : HOp) : (h.applyOp op).EntryLevelInv := by
  cases op with
  | insert id v l =>
    unfold HNSWIndex.applyOp
    cases heq : HNSWIndex.insert h id v l with
    | ok h1 =>
      simp only [heq]
      exact insert_EntryLevelInv hinv heq
    | error e =>
      simp only [heq]
      exact hinv
  | markDeleted id => exact mark_deleted_EntryLevelInv hinv id

theorem applyOps_EntryLevelInv :
    ∀ (ops : List HOp) (h : HNSWIndex), h.EntryLevelInv →
      (h.applyOps ops).EntryLevelInv := by
  intro ops
  induction ops with
  | nil => exact fun h hinv => hinv
  | cons op rest ih =>
    intro h hinv
    exact ih _ (applyOp_EntryLevelInv hinv op)

/-! ## Heap-model permutation lemmas -/

theorem selectMin_perm (b : ScoredPoint) (l : List ScoredPoint) :
    List.Perm (b :: l) ((selectMin b l).1 :: (selectMin b l).2) := by
  induction l generalizing b with
  | nil => simp [selectMin]
  | cons x xs ih =>
    by_cases hx : x.sort_key < b.sort_key
    · simp only [selectMin, hx, if_true]
      exact (List.Perm.cons b (ih x)).trans (List.Perm.swap _ b _)
    · simp only [selectMin, hx, if_false]
      exact ((List.Perm.swap x b xs).trans
        (List.Perm.cons x (ih b))).trans (List.Perm.swap _ x _)

theorem selectMax_perm (b : ScoredPoint) (l : List ScoredPoint) :
    List.Perm (b :: l) ((selectMax b l).1 :: (selectMax b l).2) := by
  induction l generalizing b with
  | nil => simp [selectMax]
  | cons x xs ih =>
    by_cases hx : x.sort_key > b.sort_key
    · simp only [selectMax, hx, if_true]
      exact (List.Perm.cons b (ih x)).trans (List.Perm.swap _ b _)
    · simp only [selectMax, hx, if_false]
      exact ((List.Perm.swap x b xs).trans
        (List.Perm.cons x (ih b))).trans (List.Perm.swap _ x _)

theorem popMin_perm {l : List ScoredPoint} {c : ScoredPoint}
    {rest : List ScoredPoint} (h : popMin l = some (c, rest)) :
    List.Perm l (c :: rest) := by
  cases l with
  | nil => cases h
  | cons x xs =>
    simp only [popMin] at h
    have hcr : selectMin x xs = (c, rest) := Option.some.inj h
    have hp := selectMin_perm x xs
    rw [hcr] at hp
    exact hp

theorem popMax_perm {l : List ScoredPoint} {c : ScoredPoint}
    {rest : List ScoredPoint} (h : popMax l = some (c, rest)) :
    List.Perm l (c :: rest) := by
  cases l with
  | nil => cases h
  | cons x xs =>
    simp only [popMax] at h
    have hcr : selectMax x xs = (c, rest) := Option.some.inj h
    have hp := selectMax_perm x xs
    rw [hcr] at hp
    exact hp

theorem selectMax_is_max : ∀ (l : List ScoredPoint) (b : ScoredPoint),
    ∀ x ∈ b :: l, x.sort_key ≤ (selectMax b l).1.sort_key := by
  intro l
  induction l with
  | nil =>
    intro b x hx
    simp only [List.mem_singleton] at hx
    simp [selectMax, hx]
  | cons y ys ih =>
    intro b x hx
    by_cases hy : y.sort_key > b.sort_key
    · simp only [selectMax, hy, if_true]
      rcases List.mem_cons.mp hx with hxb | hx2
      · rw [hxb]
        exact le_trans (le_of_lt hy) (ih y y (List.mem_cons_self _ _))
      · exact ih y x hx2
    · simp only [selectMax, hy, if_false]
      rcases List.mem_cons.mp hx with hxb | hx2
      · rw [hxb]
        exact ih b b (List.mem_cons_self _ _)
      · rcases List.mem_cons.mp hx2 with hxy | hx3
        · rw [hxy]
          exact le_trans (le_of_not_lt hy) (ih b b (List.mem_cons_self _ _))
        · exact ih b x (List.mem_cons_of_mem _ hx3)

theorem popMax_is_max {l : List ScoredPoint} {c : ScoredPoint}
    {rest : List ScoredPoint} (h : popMax l = some (c, rest)) :
    ∀ x ∈ l, x.sort_key ≤ c.sort_key := by
  cases l with
  | nil => cases h
  | cons x xs =>
    simp only [popMax] at h
    have hcr : selectMax x xs = (c, rest) := Option.some.inj h
    intro y hy
    have hle := selectMax_is_max xs x y hy
    rw [hcr] at hle
    exact hle

theorem popMin_eq_none {l : List ScoredPoint} (h : popMin l = none) :
    l = [] := by
  cases l with
  | nil => rfl
  | cons x xs => cases h

theorem popMax_eq_none {l : List ScoredPoint} (h : popMax l = none) :
    l = [] := by
  cases l with
  | nil => rfl
  | cons x xs => cases h

theorem mem_of_mem_popMin_evict {res1 : List ScoredPoint} {sp : ScoredPoint}
    (hsp : sp ∈ ((popMin res1).map (fun p => p.2)).getD res1) : sp ∈ res1 := by
  cases hp : popMin res1 with
  | none =>
    rw [hp] at hsp
    simpa using hsp
  | some pr =>
    obtain ⟨c, restl⟩ := pr
    rw [hp] at hsp
    simp only [Option.map_some', Option.getD_some] at hsp
    exact (popMin_perm hp).mem_iff.mpr (List.mem_cons_of_mem c hsp)

theorem mem_of_mem_popMax_evict {res1 : List ScoredPoint} {sp : ScoredPoint}
    (hsp : sp ∈ ((popMax res1).map (fun p => p.2)).getD res1) : sp ∈ res1 := by
  cases hp : popMax res1 with
  | none =>
    rw [hp] at hsp
    simpa using hsp
  | some pr =>
    obtain ⟨c, restl⟩ := pr
    rw [hp] at hsp
    simp only [Option.map_some', Option.getD_some] at hsp
    exact (popMax_perm hp).mem_iff.mpr (List.mem_cons_of_mem c hsp)

/-! ## Filter soundness of the in-place search (C2) -/

theorem gswfPass_sound {hnsw : HNSWIndex} {payloads : List (PointId × Payload)}
    {f : Filter} {is_deleted : PointId → Bool} {q : QVector} {lv : Nat}
    {entry : PointId} {r : PointId × Bool}
    (heq : gswfPass hnsw payloads (some f) is_deleted q lv entry = .ok r) :
    passesFilter payloads f r.1 ∨ r.1 = entry := by
  unfold gswfPass at heq
  split at heq
  · cases heq
    exact Or.inr rfl
  · rename_i nbrs hnb
    clear hnb
    revert heq
    generalize hst : ((entry, false) : PointId × Bool) = st
    have hQ : passesFilter payloads f st.1 ∨ st.1 = entry :=
      Or.inr (by rw [← hst])
    clear hst
    induction nbrs generalizing st with
    | nil =>
      intro heq
      rw [List.foldlM_nil] at heq
      cases heq
      exact hQ
    | cons n rest ih =>
      intro heq
      rw [List.foldlM_cons] at heq
      obtain ⟨st1, hstep, hrest⟩ := except_bind_ok heq
      refine ih st1 ?_ hrest
      split at hstep
      · cases hstep
        exact hQ
      · cases hpm : alGet? payloads n with
        | none =>
          rw [hpm] at hstep
          cases hstep
          exact hQ
        | some p =>
          rw [hpm] at hstep
          obtain ⟨pass, hM, hbody⟩ := except_bind_ok hstep
          simp only [] at hbody
          split at hbody
          · cases hbody
            exact hQ
          · rename_i hpass
            have hptrue : pass = true := by
              cases pass
              · simp at hpass
              · rfl
            split at hbody
            · cases hbody
              exact Or.inl ⟨p, hpm, by rw [hM, hptrue]⟩
            · cases hbody
              exact hQ

theorem gswfGo_sound {hnsw : HNSWIndex} {payloads : List (PointId × Payload)}
    {f : Filter} {is_deleted : PointId → Bool} {q : QVector} {lv : Nat} :
    ∀ {fuel : Nat} {cur r : PointId},
      gswfGo hnsw payloads (some f) is_deleted q lv fuel cur = .ok r →
      passesFilter payloads f r ∨ r = cur := by
  intro fuel
  induction fuel with
  | zero =>
    intro cur r heq
    cases heq
    exact Or.inr rfl
  | succ fl ih =>
    intro cur r heq
    simp only [gswfGo] at heq
    obtain ⟨rr, hpass, hrest⟩ := except_bind_ok heq
    have h1 := gswfPass_sound hpass
    split at hrest
    · rcases ih hrest with h2 | h2
      · exact Or.inl h2
      · rw [h2]
        exact h1
    · cases hrest
      exact h1

theorem gswf_sound {hnsw : HNSWIndex} {payloads : List (PointId × Payload)}
    {f : Filter} {is_deleted : PointId → Bool} {q : QVector} {lv : Nat}
    {entry r : PointId}
    (heq : greedy_search_layer_with_filter q entry lv hnsw payloads (some f)
      is_deleted = .ok r) :
    passesFilter payloads f r ∨ r = entry :=
  gswfGo_sound heq

theorem gswfDescent_sound {hnsw : HNSWIndex}
    {payloads : List (PointId × Payload)} {f : Filter}
    {is_deleted : PointId → Bool} {q : QVector} :
    ∀ (ls : List Nat) {s0 cur : PointId},
      ls.foldlM (fun cur level => greedy_search_layer_with_filter q cur level
        hnsw payloads (some f) is_deleted) s0 = .ok cur →
      passesFilter payloads f cur ∨ cur = s0 := by
  intro ls
  induction ls with
  | nil =>
    intro s0 cur heq
    rw [List.foldlM_nil] at heq
    cases heq
    exact Or.inr rfl
  | cons l rest ih =>
    intro s0 cur heq
    rw [List.foldlM_cons] at heq
    obtain ⟨c1, hstep, hrest⟩ := except_bind_ok heq
    rcases ih hrest with h2 | h2
    · exact Or.inl h2
    · rw [h2]
      exact gswf_sound hstep

theorem inPlaceProcess_sound {hnsw : HNSWIndex}
    {payloads : List (PointId × Payload)} {f : Filter}
    {is_deleted : PointId → Bool} {q : QVector} {cur : ScoredPoint}
    {st st1 : InPlaceState} (P : PointId → Prop)
    (hP : ∀ n p, alGet? payloads n = some p → evaluate_filter f p = .ok true →
      P n)
    (heq : inPlaceProcess hnsw payloads (some f) is_deleted q cur st = .ok st1)
    (hres : ∀ sp ∈ st.res, P sp.id) (hcands : ∀ sp ∈ st.cands, P sp.id) :
    (∀ sp ∈ st1.res, P sp.id) ∧ (∀ sp ∈ st1.cands, P sp.id) := by
  unfold inPlaceProcess at heq
  revert heq hres hcands
  generalize ((hnsw.layer_neighbors 0 cur.id).getD []) = nbrs
  induction nbrs generalizing st with
  | nil =>
    intro heq hres hcands
    rw [List.foldlM_nil] at heq
    cases heq
    exact ⟨hres, hcands⟩
  | cons n rest ih =>
    intro heq hres hcands
    rw [List.foldlM_cons] at heq
    obtain ⟨stm, hstep, hrest⟩ := except_bind_ok heq
    split at hstep
    · cases hstep
      exact ih hrest hres hcands
    · split at hstep
      · cases hstep
        exact ih hrest hres hcands
      · cases hpm : alGet? payloads n with
        | none =>
          rw [hpm] at hstep
          cases hstep
          exact ih hrest hres hcands
        | some p =>
        rw [hpm] at hstep
        obtain ⟨pass, hM, hbody⟩ := except_bind_ok hstep
        simp only [] at hbody
        split at hbody
        · cases hbody
          exact ih hrest hres hcands
        · rename_i hpass
          have hptrue : pass = true := by
            cases pass
            · simp at hpass
            · rfl
          have hPn : P n := hP n p hpm (by rw [hM, hptrue])
          cases hbody
          refine ih hrest ?_ ?_
          · intro sp hsp
            simp only at hsp
            have hmem : sp ∈ st.res ++
                [(⟨n, score q ((hnsw.get_vector n).getD []) hnsw.metric,
                  normalize_score hnsw.metric
                    (score q ((hnsw.get_vector n).getD [])
                      hnsw.metric)⟩ : ScoredPoint)] := by
              split at hsp
              · exact mem_of_mem_popMin_evict hsp
              · exact hsp
            rcases List.mem_append.mp hmem with hold | hnew
            · exact hres sp hold
            · rw [List.mem_singleton.mp hnew]
              exact hPn
          · intro sp hsp
            rcases List.mem_append.mp hsp with hold | hnew
            · exact hcands sp hold
            · rw [List.mem_singleton.mp hnew]
              exact hPn

theorem inPlaceLoop_sound {hnsw : HNSWIndex}
    {payloads : List (PointId × Payload)} {f : Filter}
    {is_deleted : PointId → Bool} {q : QVector} (P : PointId → Prop)
    (hP : ∀ n p, alGet? payloads n = some p → evaluate_filter f p = .ok true →
      P n) :
    ∀ {fuel : Nat} {st st1 : InPlaceState},
      inPlaceLoop hnsw payloads (some f) is_deleted q fuel st = .ok st1 →
      (∀ sp ∈ st.res, P sp.id) → (∀ sp ∈ st.cands, P sp.id) →
      ∀ sp ∈ st1.res, P sp.id := by
  intro fuel
  induction fuel with
  | zero =>
    intro st st1 heq hres hcands
    cases heq
    exact hres
  | succ fl ih =>
    intro st st1 heq hres hcands
    simp only [inPlaceLoop] at heq
    cases hpop : popMin st.cands with
    | none =>
      rw [hpop] at heq
      cases heq
      exact hres
    | some pr =>
      rw [hpop] at heq
      obtain ⟨stm, hproc, hrest⟩ := except_bind_ok heq
      have hperm := popMin_perm hpop
      have hcands2 : ∀ sp ∈ pr.2, P sp.id := fun sp hsp =>
        hcands sp (hperm.mem_iff.mpr (List.mem_cons_of_mem pr.1 hsp))
      have := inPlaceProcess_sound P hP hproc hres hcands2
      exact ih hrest this.1 this.2

/-! ## Purge preservation (C7) -/

theorem abe_skeleton (h : HNSWIndex) (l : Nat) (a b : PointId) :
    sameSkeleton (h.add_bidirectional_edge l a b) h :=
  ⟨rfl, rfl, rfl, rfl, rfl, rfl, rfl, rfl, rfl, rfl⟩

theorem bfae_skeleton {h h' : HNSWIndex} {id : PointId} {v : QVector}
    {p : Payload} {idx : PayloadIndex} {pls : List (PointId × Payload)}
    {ks : List String}
    (heq : h.build_filter_aware_edges id v p idx pls ks = .ok h') :
    sameSkeleton h' h := by
  simp only [HNSWIndex.build_filter_aware_edges] at heq
  obtain ⟨extra, hgo, hrest⟩ := except_bind_ok heq
  cases hrest
  exact foldl_skeleton _ (fun h n => abe_skeleton h 0 id n) _ _

theorem insert_of_present {h : HNSWIndex} {j : PointId} {v : QVector}
    {lvl : Nat} (hp : (alGet? h.vectors j).isSome = true) :
    h.insert j v lvl = .ok h := by
  simp only [HNSWIndex.insert]
  rw [if_pos hp]

theorem insert_vectors_of_fresh {h h' : HNSWIndex} {j : PointId} {v : QVector}
    {lvl : Nat} (hfresh : alGet? h.vectors j = none)
    (heq : h.insert j v lvl = .ok h') :
    h'.vectors = alSet h.vectors j (maybe_normalize h.metric v) ∧
    h'.metric = h.metric := by
  simp only [HNSWIndex.insert] at heq
  split at heq
  · rename_i hjs
    rw [hfresh] at hjs
    exact absurd hjs (by simp)
  · split at heq
    · exact Except.noConfusion heq
    · set L := min lvl h.max_level_cap with hL
      set nv := maybe_normalize h.metric v with hnv
      set hA : HNSWIndex :=
        { h with vectors := alSet h.vectors j nv,
                 levels := alSet h.levels j L } with hhA
      set hB := List.foldl (fun h l => h.pushLink l j j) hA
        (List.range (L + 1)) with hhB
      have hfold : sameSkeleton hB hA := foldl_skeleton _
        (fun h a => pushLink_skeleton h a j j) (List.range (L + 1)) hA
      split at heq
      · cases heq
        exact ⟨hfold.1, hfold.2.2.2.2.2.1⟩
      · obtain ⟨r, hgo, hrest⟩ := except_bind_ok heq
        have hsk3 : sameSkeleton r.1 hA :=
          sameSkeleton_trans (insertLayersGo_skeleton j _ _ _ r hgo) hfold
        split at hrest
        · cases hrest
          exact ⟨hsk3.1, hsk3.2.2.2.2.2.1⟩
        · cases hrest
          exact ⟨hsk3.1, hsk3.2.2.2.2.2.1⟩

theorem purgeStep_effects {s : Segment} {lvl : PointId → Nat}
    {st st' : HNSWIndex × PayloadIndex × List (PointId × Payload)}
    {pr : PointId × QVector}
    (heq : s.purgeStep lvl st pr = .ok st') (i : PointId) :
    st'.1.metric = st.1.metric ∧
    (∀ w, alGet? st.1.vectors i = some w →
      alGet? st'.1.vectors i = some w) ∧
    (i ≠ pr.1 →
      alGet? st'.1.vectors i = alGet? st.1.vectors i ∧
      alGet? st'.2.2 i = alGet? st.2.2 i) ∧
    (alGet? st.2.2 i = alGet? s.payloads i →
      alGet? st'.2.2 i = alGet? s.payloads i) := by
  simp only [Segment.purgeStep] at heq
  split at heq
  · have heq2 : (Except.ok st : Except DBError
        (HNSWIndex × PayloadIndex × List (PointId × Payload))) = .ok st' :=
      heq
    cases heq2
    exact ⟨rfl, fun w hw => hw, fun _ => ⟨rfl, rfl⟩, fun hp => hp⟩
  · obtain ⟨h1, hins, hrest⟩ := except_bind_ok heq
    have hins1 : h1.metric = st.1.metric ∧
        (∀ w, alGet? st.1.vectors i = some w →
          alGet? h1.vectors i = some w) ∧
        (i ≠ pr.1 → alGet? h1.vectors i = alGet? st.1.vectors i) := by
      cases hfresh : alGet? st.1.vectors pr.1 with
      | some w0 =>
        have hok : st.1.insert pr.1 pr.2 (lvl pr.1) = .ok st.1 :=
          insert_of_present (by rw [hfresh]; rfl)
        rw [hok] at hins
        cases hins
        exact ⟨rfl, fun w hw => hw, fun _ => rfl⟩
      | none =>
        obtain ⟨hvec, hmetr⟩ := insert_vectors_of_fresh hfresh hins
        refine ⟨hmetr, ?_, ?_⟩
        · intro w hw
          have hne : i ≠ pr.1 := by
            intro hcontra
            rw [hcontra, hfresh] at hw
            exact Option.noConfusion hw
          rw [hvec, alGet?_alSet_ne _ _ _ _ hne]
          exact hw
        · intro hne
          rw [hvec, alGet?_alSet_ne _ _ _ _ hne]
    cases hpm : alGet? s.payloads pr.1 with
    | some p =>
      rw [hpm] at hrest
      have hrest2 : (do
          let h2 ← h1.build_filter_aware_edges pr.1 pr.2 p
            (st.2.1.insert pr.1 p) (alSet st.2.2 pr.1 p)
            ((p.filter (fun kv => PayloadIndex.is_indexable kv.2)).map
              (fun kv => kv.1))
          pure (h2, st.2.1.insert pr.1 p, alSet st.2.2 pr.1 p) :
          Except DBError
            (HNSWIndex × PayloadIndex × List (PointId × Payload))) =
          .ok st' := hrest
      obtain ⟨h2, hbf, hfin⟩ := except_bind_ok hrest2
      have hfin2 : (Except.ok
          (h2, st.2.1.insert pr.1 p, alSet st.2.2 pr.1 p) :
          Except DBError
            (HNSWIndex × PayloadIndex × List (PointId × Payload))) =
          .ok st' := hfin
      cases hfin2
      have hsk := bfae_skeleton hbf
      refine ⟨(hsk.2.2.2.2.2.1).trans hins1.1, ?_, ?_, ?_⟩
      · intro w hw
        show alGet? h2.vectors i = some w
        rw [hsk.1]
        exact hins1.2.1 w hw
      · intro hne
        refine ⟨?_, ?_⟩
        · show alGet? h2.vectors i = _
          rw [hsk.1]
          exact hins1.2.2 hne
        · show alGet? (alSet st.2.2 pr.1 p) i = _
          rw [alGet?_alSet_ne _ _ _ _ hne]
      · intro hpp
        show alGet? (alSet st.2.2 pr.1 p) i = _
        by_cases hip : i = pr.1
        · subst hip
          rw [alGet?_alSet_self, hpm]
        · rw [alGet?_alSet_ne _ _ _ _ hip]
          exact hpp
    | none =>
      rw [hpm] at hrest
      have hrest2 : (Except.ok (h1, st.2.1, st.2.2) :
          Except DBError
            (HNSWIndex × PayloadIndex × List (PointId × Payload))) =
          .ok st' := hrest
      cases hrest2
      exact ⟨hins1.1, hins1.2.1, fun hne => ⟨hins1.2.2 hne, rfl⟩,
        fun hp => hp⟩

theorem purgeStep_processed {s : Segment} {lvl : PointId → Nat}
    {st st' : HNSWIndex × PayloadIndex × List (PointId × Payload)}
    {pr : PointId × QVector}
    (hdel : s.deleted.contains pr.1 = false)
    (hfresh : alGet? st.1.vectors pr.1 = none)
    (hp0 : alGet? st.2.2 pr.1 = none)
    (heq : s.purgeStep lvl st pr = .ok st') :
    alGet? st'.1.vectors pr.1 = some (maybe_normalize st.1.metric pr.2) ∧
    st'.1.metric = st.1.metric ∧
    alGet? st'.2.2 pr.1 = alGet? s.payloads pr.1 := by
  simp only [Segment.purgeStep] at heq
  split at heq
  · rename_i hc
    have hc2 : s.deleted.contains pr.1 = true := hc
    rw [hdel] at hc2
    exact Bool.noConfusion hc2
  · obtain ⟨h1, hins, hrest⟩ := except_bind_ok heq
    obtain ⟨hvec, hmetr⟩ := insert_vectors_of_fresh hfresh hins
    cases hpm : alGet? s.payloads pr.1 with
    | some p =>
      rw [hpm] at hrest
      have hrest2 : (do
          let h2 ← h1.build_filter_aware_edges pr.1 pr.2 p
            (st.2.1.insert pr.1 p) (alSet st.2.2 pr.1 p)
            ((p.filter (fun kv => PayloadIndex.is_indexable kv.2)).map
              (fun kv => kv.1))
          pure (h2, st.2.1.insert pr.1 p, alSet st.2.2 pr.1 p) :
          Except DBError
            (HNSWIndex × PayloadIndex × List (PointId × Payload))) =
          .ok st' := hrest
      obtain ⟨h2, hbf, hfin⟩ := except_bind_ok hrest2
      have hfin2 : (Except.ok
          (h2, st.2.1.insert pr.1 p, alSet st.2.2 pr.1 p) :
          Except DBError
            (HNSWIndex × PayloadIndex × List (PointId × Payload))) =
          .ok st' := hfin
      cases hfin2
      have hsk := bfae_skeleton hbf
      refine ⟨?_, (hsk.2.2.2.2.2.1).trans hmetr, ?_⟩
      · show alGet? h2.vectors pr.1 = _
        rw [hsk.1, hvec, alGet?_alSet_self]
      · show alGet? (alSet st.2.2 pr.1 p) pr.1 = _
        rw [alGet?_alSet_self]
    | none =>
      rw [hpm] at hrest
      have hrest2 : (Except.ok (h1, st.2.1, st.2.2) :
          Except DBError
            (HNSWIndex × PayloadIndex × List (PointId × Payload))) =
          .ok st' := hrest
      cases hrest2
      refine ⟨?_, hmetr, ?_⟩
      · show alGet? h1.vectors pr.1 = _
        rw [hvec, alGet?_alSet_self]
      · show alGet? st.2.2 pr.1 = _
        rw [hp0]

theorem purgeFold_pres {s : Segment} {lvl : PointId → Nat} {i : PointId} :
    ∀ (prs : List (PointId × QVector))
      (st0 st : HNSWIndex × PayloadIndex × List (PointId × Payload)),
      prs.foldlM (s.purgeStep lvl) st0 = .ok st →
      ∀ w, alGet? st0.1.vectors i = some w →
      alGet? st.1.vectors i = some w ∧ st.1.metric = st0.1.metric ∧
      (alGet? st0.2.2 i = alGet? s.payloads i →
        alGet? st.2.2 i = alGet? s.payloads i) := by
  intro prs
  induction prs with
  | nil =>
    intro st0 st heq w hw
    rw [List.foldlM_nil] at heq
    have heq2 : (Except.ok st0 : Except DBError
        (HNSWIndex × PayloadIndex × List (PointId × Payload))) = .ok st :=
      heq
    cases heq2
    exact ⟨hw, rfl, fun h => h⟩
  | cons pr rest ih =>
    intro st0 st heq w hw
    rw [List.foldlM_cons] at heq
    obtain ⟨st1, hstep, hrest⟩ := except_bind_ok heq
    obtain ⟨hm1, hkeep, _, hpay⟩ := purgeStep_effects hstep i
    obtain ⟨q1, q2, q3⟩ := ih st1 st hrest w (hkeep w hw)
    exact ⟨q1, q2.trans hm1, fun h => q3 (hpay h)⟩

theorem purgeFold_main {s : Segment} {lvl : PointId → Nat} {i : PointId}
    {v : QVector} (hdel : s.deleted.contains i = false) :
    ∀ (prs : List (PointId × QVector))
      (st0 st : HNSWIndex × PayloadIndex × List (PointId × Payload)),
      prs.foldlM (s.purgeStep lvl) st0 = .ok st →
      (i, v) ∈ prs →
      (prs.map (fun pr => pr.1)).Nodup →
      alGet? st0.1.vectors i = none →
      alGet? st0.2.2 i = none →
      alGet? st.1.vectors i = some (maybe_normalize st0.1.metric v) ∧
      alGet? st.2.2 i = alGet? s.payloads i := by
  intro prs
  induction prs with
  | nil =>
    intro st0 st heq hmem
    exact absurd hmem (List.not_mem_nil _)
  | cons pr rest ih =>
    intro st0 st heq hmem hnd hv0 hp0
    simp only [List.map_cons] at hnd
    rw [List.foldlM_cons] at heq
    obtain ⟨st1, hstep, hrest⟩ := except_bind_ok heq
    rcases List.mem_cons.mp hmem with hpr | hmem'
    · have hpr1 : pr.1 = i := by rw [← hpr]
      have hpr2 : pr.2 = v := by rw [← hpr]
      have hstepP := purgeStep_processed (by rw [hpr1]; exact hdel)
        (by rw [hpr1]; exact hv0) (by rw [hpr1]; exact hp0) hstep
      have hpv1 : alGet? st1.1.vectors i =
          some (maybe_normalize st0.1.metric v) := by
        rw [← hpr1, ← hpr2]
        exact hstepP.1
      have hpp1 : alGet? st1.2.2 i = alGet? s.payloads i := by
        rw [← hpr1]
        exact hstepP.2.2
      have hpres := purgeFold_pres rest st1 st hrest _ hpv1
      refine ⟨hpres.1, hpres.2.2 hpp1⟩
    · have hkey : i ∈ rest.map (fun pr => pr.1) :=
        List.mem_map_of_mem _ hmem'
      have hne : i ≠ pr.1 := by
        intro hcontra
        rw [hcontra] at hkey
        exact (List.nodup_cons.mp hnd).1 hkey
      obtain ⟨hm1, _, hpres, _⟩ := purgeStep_effects hstep i
      have hv1 : alGet? st1.1.vectors i = none := (hpres hne).1.trans hv0
      have hp1 : alGet? st1.2.2 i = none := (hpres hne).2.trans hp0
      have hih := ih st1 st hrest hmem' (List.nodup_cons.mp hnd).2 hv1 hp1
      refine ⟨?_, hih.2⟩
      rw [hih.1, hm1]

/-! ## Beam recall analysis (C1) -/

theorem foldl_visited_mono {α : Type} (f : BeamState → α → BeamState)
    (hf : ∀ st a, st.visited ⊆ (f st a).visited) :
    ∀ (l : List α) (st : BeamState),
      st.visited ⊆ (l.foldl f st).visited := by
  intro l
  induction l with
  | nil => intro st x hx; exact hx
  | cons a as ih => intro st x hx; exact ih (f st a) (hf st a hx)

theorem beamPush_visited_mono (h : HNSWIndex) (q : QVector)
    (level ef : Nat) (nf : Bool) (st : BeamState) (n : PointId) :
    st.visited ⊆ (h.beamPush q level ef nf st n).visited := by
  simp only [HNSWIndex.beamPush]
  split
  · exact fun x hx => hx
  · split <;> split <;> exact fun x hx => List.mem_append_left _ hx

theorem beamProcess_visited_mono (h : HNSWIndex) (q : QVector)
    (level ef : Nat) (nf : Bool) (cur : ScoredPoint) (st : BeamState) :
    st.visited ⊆ (h.beamProcess q level ef nf cur st).visited :=
  foldl_visited_mono _
    (fun st2 a => beamPush_visited_mono h q level ef nf st2 a) _ st

theorem beamLoop_visited_mono (h : HNSWIndex) (q : QVector)
    (level ef : Nat) (nf : Bool) :
    ∀ (fuel : Nat) (st : BeamState),
      st.visited ⊆ (h.beamLoop q level ef nf fuel st).visited := by
  intro fuel
  induction fuel with
  | zero => intro st x hx; exact hx
  | succ m ih =>
    intro st
    unfold HNSWIndex.beamLoop
    cases hpop : popMin st.cands with
    | none => exact fun x hx => hx
    | some pr =>
      obtain ⟨cur, rest⟩ := pr
      show st.visited ⊆ (if cur.sort_key > st.worst then st
        else h.beamLoop q level ef nf m
          (h.beamProcess q level ef nf cur
            { st with cands := rest })).visited
      split
      · exact fun x hx => hx
      · intro x hx
        exact ih _ (beamProcess_visited_mono h q level ef nf cur
          { st with cands := rest } hx)

theorem beamPush_inv {h : HNSWIndex} {q : QVector} {level ef : Nat}
    {nf : Bool} {i : PointId} {st : BeamState} {n : PointId}
    (hef : 1 ≤ ef)
    (hinv : BeamInv h q nf i st)
    (hmin : ∀ j, j ∈ (h.beamPush q level ef nf st n).visited → j ≠ i →
      (mkScored h q nf i).sort_key < (mkScored h q nf j).sort_key) :
    BeamInv h q nf i (h.beamPush q level ef nf st n) := by
  obtain ⟨hA, hC, hD, hE⟩ := hinv
  by_cases hskip : (h.deleted.contains n || st.visited.contains n) = true
  · have hps : h.beamPush q level ef nf st n = st := by
      unfold HNSWIndex.beamPush
      rw [if_pos hskip]
    rw [hps]
    exact ⟨hA, hC, hD, hE⟩
  · have hskip2 := hskip
    simp only [Bool.or_eq_true, not_or, Bool.not_eq_true] at hskip2
    obtain ⟨hdelf, hvisf⟩ := hskip2
    have hnnv : n ∉ st.visited := contains_false_not_mem hvisf
    unfold HNSWIndex.beamPush at hmin ⊢
    rw [if_neg hskip] at hmin ⊢
    simp only [] at hmin ⊢
    set K : ℚ := if nf = true then
        normalize_score h.metric (score q (h.vecOf n) h.metric)
      else score q (h.vecOf n) h.metric with hK
    set spT : ScoredPoint := ⟨n, score q (h.vecOf n) h.metric, K⟩ with hspT
    set vis1 : List PointId := st.visited ++ [n] with hvis1
    set res1 : List ScoredPoint := st.res ++ [spT] with hres1
    by_cases hfit : (decide (st.res.length < ef) ||
        decide (K < st.worst)) = true
    · rw [if_pos hfit] at hmin ⊢
      have hmin' : ∀ j, j ∈ vis1 → j ≠ i →
          (mkScored h q nf i).sort_key < (mkScored h q nf j).sort_key := hmin
      have hA1 : ∀ sp' ∈ res1, sp'.id ∈ vis1 ∧
          sp' = mkScored h q nf sp'.id := by
        intro sp' hsp'
        rw [hres1] at hsp'
        rcases List.mem_append.mp hsp' with hold | hnew
        · obtain ⟨hv, hmk⟩ := hA sp' hold
          rw [hvis1]
          exact ⟨List.mem_append_left _ hv, hmk⟩
        · rw [List.mem_singleton.mp hnew]
          constructor
          · rw [hvis1]
            exact List.mem_append_right _ (List.mem_singleton.mpr rfl)
          · rfl
      have hcnt1 : List.countP (fun sp => sp.id == i) [spT] =
          if n = i then 1 else 0 := by
        by_cases hni : n = i
        · simp [hspT, hni]
        · simp [hspT, hni]
      have hE1 : res1.countP (fun sp => sp.id == i) =
          if i ∈ vis1 then 1 else 0 := by
        rw [hres1, List.countP_append, hcnt1, hE]
        by_cases hni : n = i
        · have hiv : i ∉ st.visited := fun hh => hnnv (hni ▸ hh)
          have hiv1 : i ∈ vis1 := by
            rw [hvis1]
            exact List.mem_append_right _ (by simp [hni])
          rw [if_pos hni, if_neg hiv, if_pos hiv1]
        · by_cases hiv : i ∈ st.visited
          · have hiv1 : i ∈ vis1 := by
              rw [hvis1]
              exact List.mem_append_left _ hiv
            rw [if_neg hni, if_pos hiv, if_pos hiv1]
          · have hiv1 : i ∉ vis1 := by
              rw [hvis1]
              intro hh
              rcases List.mem_append.mp hh with hh1 | hh2
              · exact hiv hh1
              · exact hni (List.mem_singleton.mp hh2).symm
            rw [if_neg hni, if_neg hiv, if_neg hiv1]
      by_cases hlong : res1.length > ef
      · rw [if_pos hlong]
        cases hpop : popMax res1 with
        | none =>
          exact absurd (popMax_eq_none hpop) (by rw [hres1]; simp)
        | some pr =>
          obtain ⟨c, restl⟩ := pr
          simp only [Option.map_some', Option.getD_some]
          have hperm1 : List.Perm res1 (c :: restl) := popMax_perm hpop
          have hlen : 1 ≤ restl.length := by
            have hle := hperm1.length_eq
            simp only [List.length_cons] at hle
            omega
          cases hpop2 : popMax restl with
          | none =>
            have := popMax_eq_none hpop2
            rw [this] at hlen
            simp at hlen
          | some pr2 =>
            obtain ⟨c2, r2⟩ := pr2
            have hc2restl : c2 ∈ restl :=
              (popMax_perm hpop2).mem_iff.mpr (List.mem_cons_self _ _)
            have hsubr : ∀ x ∈ restl, x ∈ res1 := fun x hx =>
              hperm1.mem_iff.mpr (List.mem_cons_of_mem _ hx)
            have hcres1 : c ∈ res1 :=
              hperm1.mem_iff.mpr (List.mem_cons_self _ _)
            have hcnteq := hperm1.countP_eq (fun sp => sp.id == i)
            rw [List.countP_cons] at hcnteq
            have hci : (c.id == i) = false := by
              by_contra hcc
              rw [Bool.not_eq_false] at hcc
              have hceq : c.id = i := eq_of_beq hcc
              by_cases hiv1 : i ∈ vis1
              · have h1 : res1.countP (fun sp => sp.id == i) = 1 := by
                  rw [hE1, if_pos hiv1]
                have hcm := (hA1 c hcres1).2
                have hc2res1 : c2 ∈ res1 := hsubr c2 hc2restl
                have hc2le : c2.sort_key ≤ c.sort_key :=
                  popMax_is_max hpop c2 hc2res1
                obtain ⟨hc2v, hc2m⟩ := hA1 c2 hc2res1
                by_cases hc2i : c2.id = i
                · have hpos : 0 < restl.countP (fun sp => sp.id == i) :=
                    List.countP_pos.mpr ⟨c2, hc2restl, by simp [hc2i]⟩
                  rw [if_pos hcc] at hcnteq
                  omega
                · have hlt := hmin' c2.id hc2v hc2i
                  rw [← hc2m] at hlt
                  have hii : c.sort_key = (mkScored h q nf i).sort_key := by
                    conv_lhs => rw [hcm]
                    rw [hceq]
                  exact absurd (lt_of_lt_of_le hlt (hc2le.trans_eq hii))
                    (lt_irrefl _)
              · have h0 : res1.countP (fun sp => sp.id == i) = 0 := by
                  rw [hE1, if_neg hiv1]
                have hpos : 0 < res1.countP (fun sp => sp.id == i) :=
                  List.countP_pos.mpr ⟨c, hcres1, hcc⟩
                omega
            have hEr : restl.countP (fun sp => sp.id == i) =
                if i ∈ vis1 then 1 else 0 := by
              rw [if_neg (by simp [hci])] at hcnteq
              rw [Nat.add_zero] at hcnteq
              rw [← hcnteq]
              exact hE1
            refine ⟨?_, ?_, ?_, ?_⟩
            · intro sp' hsp'
              exact hA1 sp' (hsubr sp' hsp')
            · exact ⟨c2, hc2restl, rfl⟩
            · exact popMax_is_max hpop2
            · exact hEr
      · rw [if_neg hlong]
        cases hpop : popMax res1 with
        | none =>
          exact absurd (popMax_eq_none hpop) (by rw [hres1]; simp)
        | some pr =>
          obtain ⟨c, restl⟩ := pr
          refine ⟨?_, ?_, ?_, ?_⟩
          · intro sp' hsp'
            exact hA1 sp' hsp'
          · exact ⟨c, (popMax_perm hpop).mem_iff.mpr
              (List.mem_cons_self _ _), rfl⟩
          · exact popMax_is_max hpop
          · exact hE1
    · rw [if_neg hfit] at hmin ⊢
      have hmin' : ∀ j, j ∈ vis1 → j ≠ i →
          (mkScored h q nf i).sort_key < (mkScored h q nf j).sort_key := hmin
      simp only [Bool.or_eq_true, not_or, decide_eq_true_eq] at hfit
      obtain ⟨hf1, hf2⟩ := hfit
      refine ⟨?_, ?_, ?_, ?_⟩
      · intro sp' hsp'
        obtain ⟨hv, hmk⟩ := hA sp' hsp'
        show sp'.id ∈ vis1 ∧ _
        rw [hvis1]
        exact ⟨List.mem_append_left _ hv, hmk⟩
      · exact hC
      · exact hD
      · show st.res.countP (fun sp => sp.id == i) =
          if i ∈ vis1 then 1 else 0
        by_cases hni : n = i
        · exfalso
          obtain ⟨sp0, hsp0, hw0⟩ := hC
          obtain ⟨hv0, hm0⟩ := hA sp0 hsp0
          have hsp0i : sp0.id ≠ i := by
            intro hh
            exact hnnv (hni ▸ (hh ▸ hv0))
          have hv0v : sp0.id ∈ vis1 := by
            rw [hvis1]
            exact List.mem_append_left _ hv0
          have hlt := hmin' sp0.id hv0v hsp0i
          rw [← hm0] at hlt
          rw [← hw0] at hlt
          have hKK : K = (mkScored h q nf i).sort_key := by
            rw [hK, hni]
            rfl
          exact hf2 (hKK ▸ hlt)
        · rw [hE]
          by_cases hiv : i ∈ st.visited
          · have hiv1 : i ∈ vis1 := by
              rw [hvis1]
              exact List.mem_append_left _ hiv
            rw [if_pos hiv, if_pos hiv1]
          · have hiv1 : i ∉ vis1 := by
              rw [hvis1]
              intro hh
              rcases List.mem_append.mp hh with hh1 | hh2
              · exact hiv hh1
              · exact hni (List.mem_singleton.mp hh2).symm
            rw [if_neg hiv, if_neg hiv1]

theorem beamFold_inv {h : HNSWIndex} {q : QVector} {level ef : Nat}
    {nf : Bool} {i : PointId} (hef : 1 ≤ ef) :
    ∀ (ns : List PointId) (st : BeamState),
      BeamInv h q nf i st →
      (∀ j, j ∈ (ns.foldl (h.beamPush q level ef nf) st).visited → j ≠ i →
        (mkScored h q nf i).sort_key < (mkScored h q nf j).sort_key) →
      BeamInv h q nf i (ns.foldl (h.beamPush q level ef nf) st) := by
  intro ns
  induction ns with
  | nil => intro st hinv hmin; exact hinv
  | cons n rest ih =>
    intro st hinv hmin
    rw [List.foldl_cons] at hmin ⊢
    refine ih _ ?_ hmin
    refine beamPush_inv hef hinv ?_
    intro j hj hji
    exact hmin j (foldl_visited_mono (h.beamPush q level ef nf)
      (fun st2 a => beamPush_visited_mono h q level ef nf st2 a) rest
      (h.beamPush q level ef nf st n) hj) hji

theorem beamLoop_inv {h : HNSWIndex} {q : QVector} {level ef : Nat}
    {nf : Bool} {i : PointId} (hef : 1 ≤ ef) :
    ∀ (fuel : Nat) (st : BeamState),
      BeamInv h q nf i st →
      (∀ j, j ∈ (h.beamLoop q level ef nf fuel st).visited → j ≠ i →
        (mkScored h q nf i).sort_key < (mkScored h q nf j).sort_key) →
      BeamInv h q nf i (h.beamLoop q level ef nf fuel st) := by
  intro fuel
  induction fuel with
  | zero => intro st hinv hmin; exact hinv
  | succ m ih =>
    intro st hinv hmin
    unfold HNSWIndex.beamLoop at hmin ⊢
    cases hpop : popMin st.cands with
    | none => exact hinv
    | some pr =>
      obtain ⟨cur, rest⟩ := pr
      by_cases hw : cur.sort_key > st.worst
      · have heq : (match some (cur, rest) with
            | none => st
            | some (cur, rest) =>
              if cur.sort_key > st.worst then st
              else h.beamLoop q level ef nf m
                (h.beamProcess q level ef nf cur
                  { st with cands := rest })) = st := by
          show (if cur.sort_key > st.worst then st
            else h.beamLoop q level ef nf m
              (h.beamProcess q level ef nf cur
                { st with cands := rest })) = st
          rw [if_pos hw]
        rw [heq]
        exact hinv
      · have heq : (match some (cur, rest) with
            | none => st
            | some (cur, rest) =>
              if cur.sort_key > st.worst then st
              else h.beamLoop q level ef nf m
                (h.beamProcess q level ef nf cur
                  { st with cands := rest })) =
            h.beamLoop q level ef nf m
              (h.beamProcess q level ef nf cur
                { st with cands := rest }) := by
          show (if cur.sort_key > st.worst then st
            else h.beamLoop q level ef nf m
              (h.beamProcess q level ef nf cur
                { st with cands := rest })) =
            h.beamLoop q level ef nf m
              (h.beamProcess q level ef nf cur
                { st with cands := rest })
          rw [if_neg hw]
        rw [hpop] at hmin
        rw [heq] at hmin ⊢
        refine ih _ ?_ hmin
        have hinv2 : BeamInv h q nf i { st with cands := rest } := hinv
        show BeamInv h q nf i (h.beamProcess q level ef nf cur
          { st with cands := rest })
        unfold HNSWIndex.beamProcess
        refine beamFold_inv hef _ _ hinv2 ?_
        intro j hj hji
        refine hmin j ?_ hji
        have hmono := beamLoop_visited_mono h q level ef nf m
          (h.beamProcess q level ef nf cur { st with cands := rest })
        refine hmono ?_
        show j ∈ (h.beamProcess q level ef nf cur
          { st with cands := rest }).visited
        unfold HNSWIndex.beamProcess
        exact hj

theorem sortAsc_head_of_min {l : List ScoredPoint} {x : ScoredPoint}
    (hx : x ∈ l)
    (huq : ∀ y ∈ l, y.sort_key ≤ x.sort_key → y = x) :
    ∃ tl, sortAsc l = x :: tl := by
  haveI hTot : IsTotal ScoredPoint (fun a b => a.sort_key ≤ b.sort_key) :=
    ⟨fun a b => le_total a.sort_key b.sort_key⟩
  haveI hTrans : IsTrans ScoredPoint (fun a b => a.sort_key ≤ b.sort_key) :=
    ⟨fun a b c hab hbc => le_trans hab hbc⟩
  have hperm : List.Perm (sortAsc l) l := by
    unfold sortAsc
    exact List.perm_insertionSort _ l
  have hsorted : List.Sorted (fun a b => a.sort_key ≤ b.sort_key)
      (sortAsc l) := by
    unfold sortAsc
    exact List.sorted_insertionSort _ l
  cases hs : sortAsc l with
  | nil =>
    rw [hs] at hperm
    exact absurd (hperm.symm.subset hx) (List.not_mem_nil x)
  | cons y tl =>
    refine ⟨tl, ?_⟩
    rw [hs] at hperm hsorted
    have hy : y ∈ l := hperm.subset (List.mem_cons_self _ _)
    have hxin : x ∈ y :: tl := hperm.symm.subset hx
    have hyx : y.sort_key ≤ x.sort_key := by
      rcases List.mem_cons.mp hxin with hxy | hxtl
      · exact le_of_eq (by rw [hxy])
      · exact (List.sorted_cons.mp hsorted).1 x hxtl
    rw [huq y hy hyx]

theorem maybe_normalize_length (m : DistanceMetric) (v : QVector) :
    (maybe_normalize m v).length = v.length := by
  cases m with
  | Cosine =>
    show (if ratSqrt ((v.map (fun x => x * x)).sum) = 0 then v
      else v.map (fun x =>
        x / ratSqrt ((v.map (fun x => x * x)).sum))).length = v.length
    split
    · rfl
    · exact List.length_map _ _
  | Euclidean => rfl
  | Dot => rfl

theorem beamInit_inv (h : HNSWIndex) (q : QVector) (nf : Bool)
    (i se : PointId) :
    BeamInv h q nf i ⟨[mkScored h q nf se], [mkScored h q nf se], [se],
      (mkScored h q nf se).sort_key⟩ := by
  refine ⟨?_, ?_, ?_, ?_⟩
  · intro sp hsp
    rw [List.mem_singleton.mp hsp]
    exact ⟨List.mem_singleton.mpr rfl, rfl⟩
  · exact ⟨mkScored h q nf se, List.mem_singleton.mpr rfl, rfl⟩
  · intro sp hsp
    rw [List.mem_singleton.mp hsp]
  · by_cases hsi : se = i
    · simp [mkScored, hsi]
    · simp only [mkScored, List.countP_cons, List.countP_nil]
      simp [hsi]
      rw [if_neg (fun hh => hsi hh.symm)]

theorem search_layer_full_ok {h : HNSWIndex} {q : QVector}
    {entry : PointId} {level ef : Nat} {nf : Bool}
    {res : List ScoredPoint} {vis : List PointId}
    (heq : h.search_layer_full q entry level ef nf = .ok (res, vis)) :
    ∃ se : PointId,
      se = (if h.deleted.contains entry then
        ((alKeys h.vectors).find?
          (fun id => !h.deleted.contains id)).getD entry
      else entry) ∧
      res = sortAsc (h.beamLoop q level ef nf h.beamFuel
        ⟨[mkScored h q nf se], [mkScored h q nf se], [se],
          (mkScored h q nf se).sort_key⟩).res ∧
      vis = (h.beamLoop q level ef nf h.beamFuel
        ⟨[mkScored h q nf se], [mkScored h q nf se], [se],
          (mkScored h q nf se).sort_key⟩).visited := by
  unfold HNSWIndex.search_layer_full at heq
  split at heq
  · exact Except.noConfusion heq
  · refine ⟨if h.deleted.contains entry then
        ((alKeys h.vectors).find?
          (fun id => !h.deleted.contains id)).getD entry
      else entry, rfl, ?_, ?_⟩
    · have hpair := Except.ok.inj heq
      exact (congrArg Prod.fst hpair).symm
    · have hpair := Except.ok.inj heq
      exact (congrArg Prod.snd hpair).symm

/-! ## Deletion invisibility (C4): mention tracking -/

theorem adjIds_decompose {layers : List (Nat × List (PointId × List PointId))}
    {x : PointId}
    (hx : x ∈ (layers.map (fun lv =>
      (lv.2.map (fun p => p.2)).flatten)).flatten) :
    ∃ lv ∈ layers, ∃ p ∈ lv.2, x ∈ p.2 := by
  rw [List.mem_flatten] at hx
  obtain ⟨inner, hinner, hxin⟩ := hx
  rw [List.mem_map] at hinner
  obtain ⟨lv, hlv, hinner2⟩ := hinner
  rw [← hinner2, List.mem_flatten] at hxin
  obtain ⟨l2, hl2, hx2⟩ := hxin
  rw [List.mem_map] at hl2
  obtain ⟨p, hp, hpl⟩ := hl2
  exact ⟨lv, hlv, p, hp, by rw [hpl]; exact hx2⟩

theorem adjIds_compose {h : HNSWIndex}
    {lv : Nat × List (PointId × List PointId)}
    {p : PointId × List PointId} {x : PointId}
    (hlv : lv ∈ h.layers) (hp : p ∈ lv.2) (hx : x ∈ p.2) :
    x ∈ h.adjIds := by
  unfold HNSWIndex.adjIds
  rw [List.mem_flatten]
  refine ⟨(lv.2.map (fun p => p.2)).flatten, List.mem_map_of_mem _ hlv, ?_⟩
  rw [List.mem_flatten]
  exact ⟨p.2, List.mem_map_of_mem _ hp, hx⟩

theorem adjIds_update {h h2 : HNSWIndex} {L : Nat} {a : PointId}
    {lst : List PointId} {x : PointId}
    (hlay : h2.layers = alSet h.layers L
      (alSet ((alGet? h.layers L).getD []) a lst))
    (hx : x ∈ h2.adjIds) :
    x ∈ h.adjIds ∨ x ∈ lst := by
  unfold HNSWIndex.adjIds at hx
  rw [hlay] at hx
  obtain ⟨lv, hlv, p, hp, hxp⟩ := adjIds_decompose hx
  rcases mem_alSet hlv with hold | hnew
  · exact Or.inl (adjIds_compose hold hp hxp)
  · have hp2 : p ∈ alSet ((alGet? h.layers L).getD []) a lst := by
      rw [hnew] at hp
      exact hp
    rcases mem_alSet hp2 with hold2 | hnew2
    · cases hg : alGet? h.layers L with
      | none =>
        rw [hg] at hold2
        simp at hold2
      | some lm1 =>
        rw [hg] at hold2
        exact Or.inl (adjIds_compose (alGet?_mem hg) hold2 hxp)
    · have hxl : x ∈ lst := by
        rw [hnew2] at hxp
        exact hxp
      exact Or.inr hxl

theorem mem_nested_getD {h : HNSWIndex} {L : Nat} {a x : PointId}
    (hx : x ∈ (alGet? ((alGet? h.layers L).getD []) a).getD []) :
    x ∈ h.adjIds := by
  cases hg : alGet? h.layers L with
  | none =>
    rw [hg] at hx
    simp [alGet?] at hx
  | some lm =>
    rw [hg] at hx
    have hx2 : x ∈ (alGet? lm a).getD [] := hx
    cases hga : alGet? lm a with
    | none =>
      rw [hga] at hx2
      simp at hx2
    | some lst =>
      rw [hga] at hx2
      exact adjIds_compose (alGet?_mem hg) (alGet?_mem hga) hx2

theorem pushLink_mentions {h : HNSWIndex} {l : Nat} {a b : PointId} :
    ∀ x ∈ (h.pushLink l a b).mentionIds, x ∈ h.mentionIds ∨ x = b := by
  intro x hx
  unfold HNSWIndex.mentionIds at hx ⊢
  rcases List.mem_append.mp hx with hx1 | hadj
  · exact Or.inl (List.mem_append_left _ hx1)
  · have hlay : (h.pushLink l a b).layers = alSet h.layers l
        (alSet ((alGet? h.layers l).getD []) a
          ((alGet? ((alGet? h.layers l).getD []) a).getD [] ++ [b])) := rfl
    rcases adjIds_update hlay hadj with hold | hnew
    · exact Or.inl (List.mem_append_right _ hold)
    · rcases List.mem_append.mp hnew with hlst | hb
      · exact Or.inl (List.mem_append_right _ (mem_nested_getD hlst))
      · exact Or.inr (List.mem_singleton.mp hb)

theorem abe_mentions {h : HNSWIndex} {level : Nat} {a b : PointId} :
    ∀ x ∈ (h.add_bidirectional_edge level a b).mentionIds,
      x ∈ h.mentionIds ∨ x = a ∨ x = b := by
  intro x hx
  have habe : h.add_bidirectional_edge level a b =
      (h.pushLink level a b).pushLink level b a := rfl
  rw [habe] at hx
  rcases pushLink_mentions x hx with h1 | h1
  · rcases pushLink_mentions x h1 with h2 | h2
    · exact Or.inl h2
    · exact Or.inr (Or.inr h2)
  · exact Or.inr (Or.inl h1)

theorem mark_deleted_mentions {h : HNSWIndex} {j : PointId} :
    ∀ x ∈ (h.mark_deleted j).mentionIds, x ∈ h.mentionIds := by
  intro x hx
  simp only [HNSWIndex.mentionIds, HNSWIndex.mark_deleted] at hx ⊢
  rcases List.mem_append.mp hx with hx1 | hadj
  · rcases List.mem_append.mp hx1 with hent | hkeys
    · by_cases hc : h.entry_point = some j
      · rw [if_pos hc] at hent
        cases hf : (alKeys h.vectors).find?
            (fun id => !(slInsert h.deleted j).contains id) with
        | none =>
          rw [hf] at hent
          simp at hent
        | some e =>
          rw [hf] at hent
          have hxe : x = e := by simpa using hent
          rw [hxe]
          exact List.mem_append_left _
            (List.mem_append_right _ (List.mem_of_find?_eq_some hf))
      · rw [if_neg hc] at hent
        exact List.mem_append_left _ (List.mem_append_left _ hent)
    · exact List.mem_append_left _ (List.mem_append_right _ hkeys)
  · exact List.mem_append_right _ hadj

theorem sortByRaw_mem {m : DistanceMetric} {l : List ScoredPoint}
    {sp : ScoredPoint} (hs : sp ∈ sortByRaw m l) : sp ∈ l := by
  unfold sortByRaw at hs
  split at hs
  · exact (List.perm_insertionSort _ _).subset hs
  · exact (List.perm_insertionSort _ _).subset hs

theorem sortAsc_mem {l : List ScoredPoint} {sp : ScoredPoint}
    (hs : sp ∈ sortAsc l) : sp ∈ l := by
  unfold sortAsc at hs
  exact (List.perm_insertionSort _ _).subset hs

theorem mem_adjIds_of_neighbor {h : HNSWIndex} {level : Nat} {x n : PointId}
    (hn : n ∈ (h.layer_neighbors level x).getD []) : n ∈ h.adjIds := by
  unfold HNSWIndex.layer_neighbors at hn
  cases hl : alGet? h.layers level with
  | none =>
    rw [hl] at hn
    simp at hn
  | some lm =>
    rw [hl] at hn
    have hn2 : n ∈ (alGet? lm x).getD [] := hn
    cases hx : alGet? lm x with
    | none =>
      rw [hx] at hn2
      simp at hn2
    | some lst =>
      rw [hx] at hn2
      exact adjIds_compose (alGet?_mem hl) (alGet?_mem hx) hn2

theorem greedy_step_mem {h : HNSWIndex} {q : QVector} {level : Nat}
    {cur n : PointId} (hs : h.greedy_step q level cur = some n) :
    n ∈ h.adjIds := by
  unfold HNSWIndex.greedy_step at hs
  cases hl : h.layer_neighbors level cur with
  | none =>
    rw [hl] at hs
    exact Option.noConfusion hs
  | some nbrs =>
    rw [hl] at hs
    have hn : n ∈ nbrs := List.mem_of_find?_eq_some hs
    exact @mem_adjIds_of_neighbor h level cur n (by rw [hl]; exact hn)

theorem greedyGo_mem {h : HNSWIndex} {q : QVector} {level : Nat}
    {M : List PointId} (hadj : ∀ x ∈ h.adjIds, x ∈ M) :
    ∀ (fuel : Nat) (cur : PointId), cur ∈ M →
      h.greedyGo q level fuel cur ∈ M := by
  intro fuel
  induction fuel with
  | zero => intro cur hcur; exact hcur
  | succ m ih =>
    intro cur hcur
    unfold HNSWIndex.greedyGo
    cases hs : h.greedy_step q level cur with
    | none => exact hcur
    | some n => exact ih n (hadj n (greedy_step_mem hs))

theorem greedy_foldl_mem {h : HNSWIndex} {q : QVector} {M : List PointId}
    (hadj : ∀ x ∈ h.adjIds, x ∈ M) :
    ∀ (ls : List Nat) (ep : PointId), ep ∈ M →
      ls.foldl (fun cur l => h.greedy_search_layer q cur l) ep ∈ M := by
  intro ls
  induction ls with
  | nil => intro ep hep; exact hep
  | cons l rest ih =>
    intro ep hep
    rw [List.foldl_cons]
    exact ih _ (greedyGo_mem hadj 1000 ep hep)

theorem greedyDescent_mem {h : HNSWIndex} {q : QVector} {M : List PointId}
    (hadj : ∀ x ∈ h.adjIds, x ∈ M) {ep : PointId} (hep : ep ∈ M) :
    h.greedyDescent q ep ∈ M := by
  unfold HNSWIndex.greedyDescent
  exact greedy_foldl_mem hadj _ ep hep

theorem beamPush_sub {h : HNSWIndex} {q : QVector} {level ef : Nat}
    {nf : Bool} {st : BeamState} {n : PointId} {M : List PointId}
    (hres : ∀ sp ∈ st.res, sp.id ∈ st.visited)
    (hvis : ∀ j ∈ st.visited, j ∈ M) (hn : n ∈ M) :
    (∀ sp ∈ (h.beamPush q level ef nf st n).res,
      sp.id ∈ (h.beamPush q level ef nf st n).visited) ∧
    (∀ j ∈ (h.beamPush q level ef nf st n).visited, j ∈ M) := by
  by_cases hskip : (h.deleted.contains n || st.visited.contains n) = true
  · have hps : h.beamPush q level ef nf st n = st := by
      unfold HNSWIndex.beamPush
      rw [if_pos hskip]
    rw [hps]
    exact ⟨hres, hvis⟩
  · unfold HNSWIndex.beamPush
    rw [if_neg hskip]
    simp only []
    set K : ℚ := if nf = true then
        normalize_score h.metric (score q (h.vecOf n) h.metric)
      else score q (h.vecOf n) h.metric with hK
    set spT : ScoredPoint := ⟨n, score q (h.vecOf n) h.metric, K⟩ with hspT
    set vis1 : List PointId := st.visited ++ [n] with hvis1
    set res1 : List ScoredPoint := st.res ++ [spT] with hres1
    have hvis1M : ∀ j ∈ vis1, j ∈ M := by
      intro j hj
      rw [hvis1] at hj
      rcases List.mem_append.mp hj with hold | hnew
      · exact hvis j hold
      · rw [List.mem_singleton.mp hnew]
        exact hn
    have hres1sub : ∀ sp ∈ res1, sp.id ∈ vis1 := by
      intro sp hsp
      rw [hres1] at hsp
      rcases List.mem_append.mp hsp with hold | hnew
      · rw [hvis1]
        exact List.mem_append_left _ (hres sp hold)
      · rw [List.mem_singleton.mp hnew, hvis1]
        exact List.mem_append_right _ (List.mem_singleton.mpr rfl)
    by_cases hfit : (decide (st.res.length < ef) ||
        decide (K < st.worst)) = true
    · rw [if_pos hfit]
      by_cases hlong : res1.length > ef
      · rw [if_pos hlong]
        cases hpop : popMax res1 with
        | none =>
          exact absurd (popMax_eq_none hpop) (by rw [hres1]; simp)
        | some pr =>
          obtain ⟨c, restl⟩ := pr
          simp only [Option.map_some', Option.getD_some]
          refine ⟨?_, hvis1M⟩
          intro sp hsp
          exact hres1sub sp ((popMax_perm hpop).mem_iff.mpr
            (List.mem_cons_of_mem _ hsp))
      · rw [if_neg hlong]
        exact ⟨hres1sub, hvis1M⟩
    · rw [if_neg hfit]
      refine ⟨?_, hvis1M⟩
      intro sp hsp
      rw [hvis1]
      exact List.mem_append_left _ (hres sp hsp)

theorem beamFold_sub {h : HNSWIndex} {q : QVector} {level ef : Nat}
    {nf : Bool} {M : List PointId} :
    ∀ (ns : List PointId) (st : BeamState),
      (∀ sp ∈ st.res, sp.id ∈ st.visited) →
      (∀ j ∈ st.visited, j ∈ M) →
      (∀ a ∈ ns, a ∈ M) →
      (∀ sp ∈ (ns.foldl (h.beamPush q level ef nf) st).res,
        sp.id ∈ (ns.foldl (h.beamPush q level ef nf) st).visited) ∧
      (∀ j ∈ (ns.foldl (h.beamPush q level ef nf) st).visited, j ∈ M) := by
  intro ns
  induction ns with
  | nil => intro st hres hvis hns; exact ⟨hres, hvis⟩
  | cons n rest ih =>
    intro st hres hvis hns
    rw [List.foldl_cons]
    obtain ⟨hres2, hvis2⟩ := beamPush_sub hres hvis
      (hns n (List.mem_cons_self _ _))
    exact ih _ hres2 hvis2 (fun a ha => hns a (List.mem_cons_of_mem _ ha))

theorem beamProcess_sub {h : HNSWIndex} {q : QVector} {level ef : Nat}
    {nf : Bool} {M : List PointId} {cur : ScoredPoint} {st : BeamState}
    (hadj : ∀ x ∈ h.adjIds, x ∈ M)
    (hres : ∀ sp ∈ st.res, sp.id ∈ st.visited)
    (hvis : ∀ j ∈ st.visited, j ∈ M) :
    (∀ sp ∈ (h.beamProcess q level ef nf cur st).res,
      sp.id ∈ (h.beamProcess q level ef nf cur st).visited) ∧
    (∀ j ∈ (h.beamProcess q level ef nf cur st).visited, j ∈ M) := by
  unfold HNSWIndex.beamProcess
  exact beamFold_sub _ st hres hvis
    (fun a ha => hadj a (mem_adjIds_of_neighbor ha))

theorem beamLoop_sub {h : HNSWIndex} {q : QVector} {level ef : Nat}
    {nf : Bool} {M : List PointId} (hadj : ∀ x ∈ h.adjIds, x ∈ M) :
    ∀ (fuel : Nat) (st : BeamState),
      (∀ sp ∈ st.res, sp.id ∈ st.visited) →
      (∀ j ∈ st.visited, j ∈ M) →
      (∀ sp ∈ (h.beamLoop q level ef nf fuel st).res,
        sp.id ∈ (h.beamLoop q level ef nf fuel st).visited) ∧
      (∀ j ∈ (h.beamLoop q level ef nf fuel st).visited, j ∈ M) := by
  intro fuel
  induction fuel with
  | zero => intro st hres hvis; exact ⟨hres, hvis⟩
  | succ m ih =>
    intro st hres hvis
    unfold HNSWIndex.beamLoop
    cases hpop : popMin st.cands with
    | none => exact ⟨hres, hvis⟩
    | some pr =>
      obtain ⟨cur, rest⟩ := pr
      by_cases hw : cur.sort_key > st.worst
      · have heq : (match some (cur, rest) with
            | none => st
            | some (cur, rest) =>
              if cur.sort_key > st.worst then st
              else h.beamLoop q level ef nf m
                (h.beamProcess q level ef nf cur
                  { st with cands := rest })) = st := by
          show (if cur.sort_key > st.worst then st
            else h.beamLoop q level ef nf m
              (h.beamProcess q level ef nf cur
                { st with cands := rest })) = st
          rw [if_pos hw]
        rw [heq]
        exact ⟨hres, hvis⟩
      · have heq : (match some (cur, rest) with
            | none => st
            | some (cur, rest) =>
              if cur.sort_key > st.worst then st
              else h.beamLoop q level ef nf m
                (h.beamProcess q level ef nf cur
                  { st with cands := rest })) =
            h.beamLoop q level ef nf m
              (h.beamProcess q level ef nf cur
                { st with cands := rest }) := by
          show (if cur.sort_key > st.worst then st
            else h.beamLoop q level ef nf m
              (h.beamProcess q level ef nf cur
                { st with cands := rest })) =
            h.beamLoop q level ef nf m
              (h.beamProcess q level ef nf cur
                { st with cands := rest })
          rw [if_neg hw]
        rw [heq]
        obtain ⟨hres2, hvis2⟩ := @beamProcess_sub h q level ef nf M cur
          { st with cands := rest } hadj hres hvis
        exact ih _ hres2 hvis2

theorem search_layer_full_sub {h : HNSWIndex} {q : QVector}
    {entry : PointId} {level ef : Nat} {nf : Bool} {M : List PointId}
    {res : List ScoredPoint} {vis : List PointId}
    (hadj : ∀ x ∈ h.adjIds, x ∈ M)
    (hkeys : ∀ x ∈ alKeys h.vectors, x ∈ M)
    (hentry : entry ∈ M)
    (hok : h.search_layer_full q entry level ef nf = .ok (res, vis)) :
    (∀ sp ∈ res, sp.id ∈ M) ∧ (∀ j ∈ vis, j ∈ M) := by
  obtain ⟨se, hsedef, hres, hvis⟩ := search_layer_full_ok hok
  have hseM : se ∈ M := by
    rw [hsedef]
    split
    · cases hf : (alKeys h.vectors).find?
          (fun id => !h.deleted.contains id) with
      | none => exact hentry
      | some e => exact hkeys e (List.mem_of_find?_eq_some hf)
    · exact hentry
  obtain ⟨hr, hv⟩ := beamLoop_sub hadj h.beamFuel
    ⟨[mkScored h q nf se], [mkScored h q nf se], [se],
      (mkScored h q nf se).sort_key⟩
    (by
      intro sp hsp
      rw [List.mem_singleton.mp hsp]
      exact List.mem_singleton.mpr rfl)
    (by
      intro j hj
      rw [List.mem_singleton.mp hj]
      exact hseM)
  constructor
  · intro sp hsp
    rw [hres] at hsp
    exact hv _ (hr sp (sortAsc_mem hsp))
  · intro j hj
    rw [hvis] at hj
    exact hv j hj

theorem hnsw_search_sub {h : HNSWIndex} {q : QVector} {k : Nat}
    {res : List ScoredPoint}
    (hok : h.search q k = .ok res) :
    ∀ sp ∈ res, sp.id ∈ h.mentionIds := by
  have hadj : ∀ x ∈ h.adjIds, x ∈ h.mentionIds := by
    intro x hx
    unfold HNSWIndex.mentionIds
    exact List.mem_append_right _ hx
  have hkeys : ∀ x ∈ alKeys h.vectors, x ∈ h.mentionIds := by
    intro x hx
    unfold HNSWIndex.mentionIds
    exact List.mem_append_left _ (List.mem_append_right _ hx)
  unfold HNSWIndex.search at hok
  cases hep : h.entry_point with
  | none =>
    rw [hep] at hok
    have hre : res = [] := (Except.ok.inj hok).symm
    rw [hre]
    intro sp hsp
    simp at hsp
  | some ep =>
    rw [hep] at hok
    have hok2 : ((if q.length ≠ h.dim then
        .error (.VectorLengthMismatch h.dim q.length)
      else do
        let results ← h.search_layer
          (if h.metric = DistanceMetric.Cosine
            then maybe_normalize h.metric q else q)
          (h.greedyDescent
            (if h.metric = DistanceMetric.Cosine
              then maybe_normalize h.metric q else q) ep) 0 h.ef
          (decide (h.metric = DistanceMetric.Cosine ∨
            h.metric = DistanceMetric.Dot))
        .ok ((sortAsc results).take k)) :
        Except DBError (List ScoredPoint)) = .ok res := hok
    split at hok2
    · exact Except.noConfusion hok2
    · obtain ⟨results, hsl, hfin⟩ := except_bind_ok hok2
      have hres : res = (sortAsc results).take k :=
        (Except.ok.inj hfin).symm
      unfold HNSWIndex.search_layer at hsl
      cases hfull : h.search_layer_full
          (if h.metric = DistanceMetric.Cosine
            then maybe_normalize h.metric q else q)
          (h.greedyDescent
            (if h.metric = DistanceMetric.Cosine
              then maybe_normalize h.metric q else q) ep) 0 h.ef
          (decide (h.metric = DistanceMetric.Cosine ∨
            h.metric = DistanceMetric.Dot)) with
      | error e =>
        rw [hfull] at hsl
        exact Except.noConfusion hsl
      | ok pr =>
        obtain ⟨r, v⟩ := pr
        rw [hfull] at hsl
        have hsl2 : (Except.ok r : Except DBError (List ScoredPoint)) =
            .ok results := hsl
        have hrr : results = r := (Except.ok.inj hsl2).symm
        have hepM : ep ∈ h.mentionIds := by
          unfold HNSWIndex.mentionIds
          refine List.mem_append_left _ (List.mem_append_left _ ?_)
          rw [hep]
          exact List.mem_singleton.mpr rfl
        have hcur : h.greedyDescent
            (if h.metric = DistanceMetric.Cosine
              then maybe_normalize h.metric q else q) ep ∈ h.mentionIds :=
          greedyDescent_mem hadj hepM
        obtain ⟨hrM, _⟩ := search_layer_full_sub hadj hkeys hcur hfull
        intro sp hsp
        rw [hres, hrr] at hsp
        exact hrM sp (sortAsc_mem (List.mem_of_mem_take hsp))

theorem search_layer_sub {h : HNSWIndex} {q : QVector} {entry : PointId}
    {level ef : Nat} {nf : Bool} {M : List PointId}
    {cs : List ScoredPoint}
    (hadj : ∀ x ∈ h.adjIds, x ∈ M)
    (hkeys : ∀ x ∈ alKeys h.vectors, x ∈ M)
    (hentry : entry ∈ M)
    (hok : h.search_layer q entry level ef nf = .ok cs) :
    ∀ sp ∈ cs, sp.id ∈ M := by
  unfold HNSWIndex.search_layer at hok
  cases hfull : h.search_layer_full q entry level ef nf with
  | error e =>
    rw [hfull] at hok
    exact Except.noConfusion hok
  | ok pr =>
    obtain ⟨r, v⟩ := pr
    rw [hfull] at hok
    have hok3 : (Except.ok r : Except DBError (List ScoredPoint)) =
        .ok cs := hok
    have hcsr : cs = r := (Except.ok.inj hok3).symm
    rw [hcsr]
    exact (search_layer_full_sub hadj hkeys hentry hfull).1

theorem mem_alKeys_alSet_inv {α β : Type} [DecidableEq α]
    {l : List (α × β)} {k y : α} {v : β}
    (h : y ∈ alKeys (alSet l k v)) : y ∈ alKeys l ∨ y = k := by
  rw [alKeys_alSet] at h
  split at h
  · exact Or.inl h
  · rcases List.mem_append.mp h with h1 | h2
    · exact Or.inl h1
    · exact Or.inr (List.mem_singleton.mp h2)

theorem insertBackLink_mentions {j : PointId} {l : Nat} {h : HNSWIndex}
    {n : PointId} {M : List PointId}
    (hadj : ∀ x ∈ h.adjIds, x ∈ M ∨ x = j) :
    ∀ x ∈ (insertBackLink j l h n).adjIds, x ∈ M ∨ x = j := by
  intro x hx
  unfold insertBackLink at hx
  simp only [] at hx
  by_cases hc : (((alGet? ((alGet? h.layers l).getD []) n).getD
      []).contains j) = true
  · rw [if_pos hc] at hx
    exact hadj x hx
  · rw [if_neg hc] at hx
    rcases adjIds_update rfl hx with hold | hnew
    · exact hadj x hold
    · rcases List.mem_append.mp hnew with he | hj
      · exact hadj x (mem_nested_getD he)
      · exact Or.inr (List.mem_singleton.mp hj)

theorem insertBackLink_foldl_mentions {j : PointId} {l : Nat}
    {M : List PointId} :
    ∀ (ns : List PointId) (h : HNSWIndex),
      (∀ x ∈ h.adjIds, x ∈ M ∨ x = j) →
      ∀ x ∈ (ns.foldl (insertBackLink j l) h).adjIds, x ∈ M ∨ x = j := by
  intro ns
  induction ns with
  | nil => intro h hadj; exact hadj
  | cons n rest ih =>
    intro h hadj
    rw [List.foldl_cons]
    exact ih _ (insertBackLink_mentions hadj)

theorem pushLink_foldl_mentions {j : PointId} {M : List PointId} :
    ∀ (ls : List Nat) (h : HNSWIndex),
      (∀ y ∈ h.mentionIds, y ∈ M ∨ y = j) →
      ∀ y ∈ (ls.foldl (fun h l => h.pushLink l j j) h).mentionIds,
        y ∈ M ∨ y = j := by
  intro ls
  induction ls with
  | nil => intro h hm; exact hm
  | cons l rest ih =>
    intro h hm
    rw [List.foldl_cons]
    refine ih _ ?_
    intro y hy
    rcases pushLink_mentions y hy with h1 | h1
    · exact hm y h1
    · exact Or.inr h1

theorem insertBackLink_foldl_vectors (j : PointId) (l : Nat) :
    ∀ (ns : List PointId) (h0 : HNSWIndex),
      (ns.foldl (insertBackLink j l) h0).vectors = h0.vectors :=
  fun ns h0 =>
    (foldl_skeleton _ (fun h n => insertBackLink_skeleton j l h n) ns h0).1

theorem insertLayersGo_mentions {j : PointId} {M : List PointId} :
    ∀ (ls : List Nat) (h : HNSWIndex) (cur : PointId)
      (r : HNSWIndex × PointId),
      insertLayersGo j ls h cur = .ok r →
      (∀ x ∈ h.adjIds, x ∈ M ∨ x = j) →
      (∀ x ∈ alKeys h.vectors, x ∈ M ∨ x = j) →
      (cur ∈ M ∨ cur = j) →
      (∀ x ∈ r.1.adjIds, x ∈ M ∨ x = j) ∧ (r.2 ∈ M ∨ r.2 = j) := by
  intro ls
  induction ls with
  | nil =>
    intro h cur r heq hadj hkeys hcur
    simp only [insertLayersGo] at heq
    cases heq
    exact ⟨hadj, hcur⟩
  | cons l rest ih =>
    intro h cur r heq hadj hkeys hcur
    simp only [insertLayersGo] at heq
    cases hsl : h.search_layer (h.vecOf j) cur l h.ef
        (decide (h.metric = DistanceMetric.Cosine ∨
          h.metric = DistanceMetric.Dot)) with
    | error e =>
      rw [hsl] at heq
      cases heq
    | ok cs =>
      rw [hsl] at heq
      have hadjA : ∀ x ∈ h.adjIds, x ∈ M ++ [j] := by
        intro x hx
        rcases hadj x hx with h1 | h1
        · exact List.mem_append_left _ h1
        · rw [h1]
          exact List.mem_append_right _ (List.mem_singleton.mpr rfl)
      have hkeysA : ∀ x ∈ alKeys h.vectors, x ∈ M ++ [j] := by
        intro x hx
        rcases hkeys x hx with h1 | h1
        · exact List.mem_append_left _ h1
        · rw [h1]
          exact List.mem_append_right _ (List.mem_singleton.mpr rfl)
      have hcurA : cur ∈ M ++ [j] := by
        rcases hcur with h1 | h1
        · exact List.mem_append_left _ h1
        · rw [h1]
          exact List.mem_append_right _ (List.mem_singleton.mpr rfl)
      have hcs := search_layer_sub hadjA hkeysA hcurA hsl
      have hnb : ∀ n ∈ (cs.take h.m).map (fun sp => sp.id),
          n ∈ M ∨ n = j := by
        intro n hn
        rw [List.mem_map] at hn
        obtain ⟨sp, hsp, hid⟩ := hn
        have := hcs sp (List.mem_of_mem_take hsp)
        rw [hid] at this
        rcases List.mem_append.mp this with h1 | h1
        · exact Or.inl h1
        · exact Or.inr (List.mem_singleton.mp h1)
      refine ih _ _ _ heq ?_ ?_ ?_
      · refine insertBackLink_foldl_mentions _ _ ?_
        intro x hx
        rcases adjIds_update rfl hx with hold | hlk
        · exact hadj x hold
        · by_cases hcon : (((cs.take h.m).map
              (fun sp => sp.id)).contains j) = true
          · rw [if_pos hcon] at hlk
            exact hnb x hlk
          · rw [if_neg hcon] at hlk
            rcases List.mem_append.mp hlk with h1 | h1
            · exact hnb x h1
            · exact Or.inr (List.mem_singleton.mp h1)
      · intro x hx
        rw [insertBackLink_foldl_vectors] at hx
        exact hkeys x hx
      · cases hnbl : (cs.take h.m).map (fun sp => sp.id) with
        | nil => exact hcur
        | cons a as =>
          refine hnb a ?_
          rw [hnbl]
          exact List.mem_cons_self _ _

theorem insert_mentions {h h' : HNSWIndex} {j : PointId} {v : QVector}
    {lvl : Nat} (hok : h.insert j v lvl = .ok h') :
    ∀ x ∈ h'.mentionIds, x ∈ h.mentionIds ∨ x = j := by
  simp only [HNSWIndex.insert] at hok
  split at hok
  · cases hok
    intro x hx
    exact Or.inl hx
  · split at hok
    · exact Except.noConfusion hok
    · set L := min lvl h.max_level_cap with hL
      set nv := maybe_normalize h.metric v with hnv
      set hA : HNSWIndex :=
        { h with vectors := alSet h.vectors j nv,
                 levels := alSet h.levels j L } with hhA
      set hB := List.foldl (fun h l => h.pushLink l j j) hA
        (List.range (L + 1)) with hhB
      have hAm : ∀ y ∈ hA.mentionIds, y ∈ h.mentionIds ∨ y = j := by
        intro y hy
        unfold HNSWIndex.mentionIds at hy ⊢
        rcases List.mem_append.mp hy with hy1 | hadj
        · rcases List.mem_append.mp hy1 with hent | hkeys
          · exact Or.inl (List.mem_append_left _
              (List.mem_append_left _ hent))
          · have hkeys2 : y ∈ alKeys (alSet h.vectors j nv) := hkeys
            rcases mem_alKeys_alSet_inv hkeys2 with h1 | h1
            · exact Or.inl (List.mem_append_left _
                (List.mem_append_right _ h1))
            · exact Or.inr h1
        · exact Or.inl (List.mem_append_right _ hadj)
      have hBm : ∀ y ∈ hB.mentionIds, y ∈ h.mentionIds ∨ y = j :=
        pushLink_foldl_mentions (List.range (L + 1)) hA hAm
      have hskB : sameSkeleton hB hA := foldl_skeleton _
        (fun h a => pushLink_skeleton h a j j) (List.range (L + 1)) hA
      have hadjB : ∀ x ∈ hB.adjIds, x ∈ h.mentionIds ∨ x = j := by
        intro x hx
        refine hBm x ?_
        unfold HNSWIndex.mentionIds
        exact List.mem_append_right _ hx
      have hkeysB : ∀ x ∈ alKeys hB.vectors, x ∈ h.mentionIds ∨ x = j := by
        intro x hx
        refine hBm x ?_
        unfold HNSWIndex.mentionIds
        exact List.mem_append_left _ (List.mem_append_right _ hx)
      split at hok
      · cases hok
        intro x hx
        unfold HNSWIndex.mentionIds at hx
        rcases List.mem_append.mp hx with hx1 | hadj
        · rcases List.mem_append.mp hx1 with hent | hkeys
          · exact Or.inr (by simpa using hent)
          · refine hBm x ?_
            unfold HNSWIndex.mentionIds
            exact List.mem_append_left _ (List.mem_append_right _ hkeys)
        · refine hBm x ?_
          unfold HNSWIndex.mentionIds
          exact List.mem_append_right _ hadj
      · obtain ⟨r, hgo, hrest⟩ := except_bind_ok hok
        obtain ⟨hadjR, -⟩ := insertLayersGo_mentions _ _ _ r hgo hadjB
          hkeysB (by
            have hadjB2 : ∀ x ∈ hB.adjIds, x ∈ h.mentionIds ++ [j] := by
              intro x hx
              rcases hadjB x hx with h1 | h1
              · exact List.mem_append_left _ h1
              · rw [h1]
                exact List.mem_append_right _ (List.mem_singleton.mpr rfl)
            have hce : (match hB.entry_point with
                | some ep =>
                  if hB.deleted.contains ep then
                    ((alKeys hB.vectors).find?
                      (fun id => !hB.deleted.contains id)).getD ep
                  else ep
                | none => j) ∈ h.mentionIds ++ [j] := by
              cases hBe : hB.entry_point with
              | none =>
                exact List.mem_append_right _ (List.mem_singleton.mpr rfl)
              | some ep =>
                have hBeh : h.entry_point = some ep := by
                  rw [← hBe, hskB.2.2.1]
                have hepM : ep ∈ h.mentionIds := by
                  unfold HNSWIndex.mentionIds
                  refine List.mem_append_left _ (List.mem_append_left _ ?_)
                  rw [hBeh]
                  exact List.mem_singleton.mpr rfl
                show (if hB.deleted.contains ep = true then
                    ((alKeys hB.vectors).find?
                      (fun id => !hB.deleted.contains id)).getD ep
                  else ep) ∈ h.mentionIds ++ [j]
                by_cases hdc : hB.deleted.contains ep = true
                · rw [if_pos hdc]
                  cases hf : (alKeys hB.vectors).find?
                      (fun id => !hB.deleted.contains id) with
                  | none => exact List.mem_append_left _ hepM
                  | some e =>
                    rcases hkeysB e (List.mem_of_find?_eq_some hf) with
                      h1 | h1
                    · exact List.mem_append_left _ h1
                    · rw [h1]
                      exact List.mem_append_right _
                        (List.mem_singleton.mpr rfl)
                · rw [if_neg hdc]
                  exact List.mem_append_left _ hepM
            have hfold := @greedy_foldl_mem hB (hB.vecOf j)
              (h.mentionIds ++ [j]) hadjB2
              (rangeRev (L + 1) hB.current_max_level) _ hce
            rcases List.mem_append.mp hfold with h1 | h1
            · exact Or.inl h1
            · exact Or.inr (List.mem_singleton.mp h1))
        have hskR : sameSkeleton r.1 hB := insertLayersGo_skeleton j _ _ _ r hgo
        split at hrest
        · cases hrest
          intro x hx
          unfold HNSWIndex.mentionIds at hx
          rcases List.mem_append.mp hx with hx1 | hadj
          · rcases List.mem_append.mp hx1 with hent | hkeys
            · exact Or.inr (by simpa using hent)
            · have hx2 : x ∈ alKeys r.1.vectors := hkeys
              rw [hskR.1] at hx2
              exact hkeysB x hx2
          · exact hadjR x hadj
        · cases hrest
          intro x hx
          unfold HNSWIndex.mentionIds at hx
          rcases List.mem_append.mp hx with hx1 | hadj
          · rcases List.mem_append.mp hx1 with hent | hkeys
            · have hent2 : x ∈ hB.entry_point.toList := by
                rw [← hskR.2.2.1]
                exact hent
              have hent3 : x ∈ h.entry_point.toList := by
                rw [← hskB.2.2.1]
                exact hent2
              exact Or.inl (by
                unfold HNSWIndex.mentionIds
                exact List.mem_append_left _ (List.mem_append_left _ hent3))
            · have hx2 : x ∈ alKeys r.1.vectors := hkeys
              rw [hskR.1] at hx2
              exact hkeysB x hx2
          · exact hadjR x hadj

theorem slInsert_foldl_sp {P : PointId → Prop} :
    ∀ (l : List ScoredPoint) (e : List PointId),
      (∀ y ∈ e, P y) → (∀ sp ∈ l, P sp.id) →
      ∀ y ∈ l.foldl (fun ex sp => slInsert ex sp.id) e, P y := by
  intro l
  induction l with
  | nil => intro e he _ y hy; exact he y hy
  | cons sp rest ih =>
    intro e he hl y hy
    rw [List.foldl_cons] at hy
    refine ih _ ?_ (fun sp2 hsp2 => hl sp2 (List.mem_cons_of_mem _ hsp2))
      y hy
    intro z hz
    rcases mem_slInsert.mp hz with h1 | h1
    · exact he z h1
    · rw [h1]
      exact hl sp (List.mem_cons_self _ _)

theorem slInsert_foldl_id {P : PointId → Prop} :
    ∀ (l : List PointId) (e : List PointId),
      (∀ y ∈ e, P y) → (∀ n ∈ l, P n) →
      ∀ y ∈ l.foldl (fun ex id => slInsert ex id) e, P y := by
  intro l
  induction l with
  | nil => intro e he _ y hy; exact he y hy
  | cons n rest ih =>
    intro e he hl y hy
    rw [List.foldl_cons] at hy
    refine ih _ ?_ (fun n2 hn2 => hl n2 (List.mem_cons_of_mem _ hn2)) y hy
    intro z hz
    rcases mem_slInsert.mp hz with h1 | h1
    · exact he z h1
    · rw [h1]
      exact hl n (List.mem_cons_self _ _)

theorem get_vector_some_mem_keys {h : HNSWIndex} {id : PointId}
    {vec : QVector} (hv : h.get_vector id = some vec) :
    id ∈ alKeys h.vectors := by
  unfold HNSWIndex.get_vector at hv
  split at hv
  · exact Option.noConfusion hv
  · exact mem_alKeys_of_alGet? hv

theorem bfae_candidates_sub {h : HNSWIndex} {qv : QVector} {j : PointId}
    {cands : List ScoredPoint}
    (hcands : (if h.current_max_level > 0 then
        h.search_layer qv
          (h.greedyDescent qv (h.get_entry_point.getD 0)) 0 h.ef
          (decide (h.metric = DistanceMetric.Cosine ∨
            h.metric = DistanceMetric.Dot))
      else .ok (h.vectors.filterMap (fun p =>
        if p.1 ≠ j ∧ ¬ h.deleted.contains p.1 then
          let raw := score qv p.2 h.metric
          some (⟨p.1, raw, normalize_score h.metric raw⟩ : ScoredPoint)
        else none))) = .ok cands) :
    ∀ sp ∈ cands, sp.id ∈ h.mentionIds ++ [0] := by
  have hadj : ∀ x ∈ h.adjIds, x ∈ h.mentionIds ++ [0] := by
    intro x hx
    refine List.mem_append_left _ ?_
    unfold HNSWIndex.mentionIds
    exact List.mem_append_right _ hx
  have hkeys : ∀ x ∈ alKeys h.vectors, x ∈ h.mentionIds ++ [0] := by
    intro x hx
    refine List.mem_append_left _ ?_
    unfold HNSWIndex.mentionIds
    exact List.mem_append_left _ (List.mem_append_right _ hx)
  split at hcands
  · have hentry : h.get_entry_point.getD 0 ∈ h.mentionIds ++ [0] := by
      unfold HNSWIndex.get_entry_point
      cases hc : h.entry_point with
      | none => exact List.mem_append_right _ (List.mem_singleton.mpr rfl)
      | some ep =>
        refine List.mem_append_left _ ?_
        unfold HNSWIndex.mentionIds
        refine List.mem_append_left _ (List.mem_append_left _ ?_)
        rw [hc]
        exact List.mem_singleton.mpr rfl
    exact search_layer_sub hadj hkeys (greedyDescent_mem hadj hentry) hcands
  · have hceq : cands = h.vectors.filterMap (fun p =>
        if p.1 ≠ j ∧ ¬ h.deleted.contains p.1 then
          let raw := score qv p.2 h.metric
          some (⟨p.1, raw, normalize_score h.metric raw⟩ : ScoredPoint)
        else none) := (Except.ok.inj hcands).symm
    intro sp hsp
    rw [hceq, List.mem_filterMap] at hsp
    obtain ⟨pr, hpr, hf⟩ := hsp
    split at hf
    · have hspid : sp.id = pr.1 := by
        have := Option.some.inj hf
        rw [← this]
      rw [hspid]
      exact hkeys pr.1 (mem_alKeys_of_mem hpr)
    · exact Option.noConfusion hf

theorem bfaeGo_extra {h : HNSWIndex} {qv : QVector} {j : PointId}
    {p : Payload} {idx : PayloadIndex} {pls : List (PointId × Payload)} :
    ∀ (ks : List String) (extra0 extra : List PointId),
      h.bfaeGo qv j p idx pls ks extra0 = .ok extra →
      (∀ y ∈ extra0, y ∈ h.mentionIds ∨ y = j ∨ y = 0) →
      ∀ y ∈ extra, y ∈ h.mentionIds ∨ y = j ∨ y = 0 := by
  intro ks
  induction ks with
  | nil =>
    intro extra0 extra heq h0
    simp only [HNSWIndex.bfaeGo] at heq
    cases heq
    exact h0
  | cons key rest ih =>
    intro extra0 extra heq h0
    simp only [HNSWIndex.bfaeGo] at heq
    split at heq
    · exact ih extra0 extra heq h0
    · rename_i value hg
      have hM : ∀ y ∈ (match idx.query_exact key value with
          | some id_set =>
            ((sortByRaw h.metric
              (((id_set.filter (fun id =>
                id ≠ j && (h.get_vector id).isSome)).take 100).filterMap
                (fun id => (h.get_vector id).map (fun vec =>
                  let raw := score qv vec h.metric
                  (⟨id, raw, normalize_score h.metric raw⟩ :
                    ScoredPoint))))).take h.m).foldl
              (fun ex (sp : ScoredPoint) => slInsert ex sp.id) extra0
          | none => extra0),
          y ∈ h.mentionIds ∨ y = j ∨ y = 0 := by
        cases hq : idx.query_exact key value with
        | none => exact h0
        | some id_set =>
          refine slInsert_foldl_sp _ _ h0 ?_
          intro sp hsp
          have hsp2 := sortByRaw_mem (List.mem_of_mem_take hsp)
          rw [List.mem_filterMap] at hsp2
          obtain ⟨id0, hid0, hf⟩ := hsp2
          cases hv : h.get_vector id0 with
          | none =>
            rw [hv] at hf
            exact Option.noConfusion hf
          | some vec =>
            rw [hv] at hf
            have hspv : sp.id = id0 := by
              have hfe := Option.some.inj hf
              rw [← hfe]
            rw [hspv]
            refine Or.inl ?_
            unfold HNSWIndex.mentionIds
            exact List.mem_append_left _ (List.mem_append_right _
              (get_vector_some_mem_keys hv))
      split at heq
      · cases heq
        exact hM
      · split at heq
        · rename_i hcm
          obtain ⟨cands, hcands0, hrest2⟩ := except_bind_ok heq
          have hcfull : (if h.current_max_level > 0 then
              h.search_layer qv
                (h.greedyDescent qv (h.get_entry_point.getD 0)) 0 h.ef
                (decide (h.metric = DistanceMetric.Cosine ∨
                  h.metric = DistanceMetric.Dot))
            else .ok (h.vectors.filterMap (fun p =>
              if p.1 ≠ j ∧ ¬ h.deleted.contains p.1 then
                let raw := score qv p.2 h.metric
                some (⟨p.1, raw, normalize_score h.metric raw⟩ :
                  ScoredPoint)
              else none))) = .ok cands := by
            rw [if_pos hcm]
            exact hcands0
          have hc := bfae_candidates_sub hcfull
          have hcprop : ∀ sp ∈ cands,
              sp.id ∈ h.mentionIds ∨ sp.id = j ∨ sp.id = 0 := by
            intro sp hsp
            rcases List.mem_append.mp (hc sp hsp) with h1 | h1
            · exact Or.inl h1
            · exact Or.inr (Or.inr (List.mem_singleton.mp h1))
          split at hrest2
          · cases hrest2
            refine slInsert_foldl_id _ _ hM ?_
            intro n hn
            rw [List.mem_map] at hn
            obtain ⟨sp, hsp, hid⟩ := hn
            rw [← hid]
            exact hcprop sp (sortByRaw_mem
              (List.mem_filter.mp (List.mem_of_mem_take hsp)).1)
          · refine ih _ extra hrest2 ?_
            refine slInsert_foldl_id _ _ hM ?_
            intro n hn
            rw [List.mem_map] at hn
            obtain ⟨sp, hsp, hid⟩ := hn
            rw [← hid]
            exact hcprop sp (sortByRaw_mem
              (List.mem_filter.mp (List.mem_of_mem_take hsp)).1)
        · rename_i hcm
          obtain ⟨cands, hcands0, hrest2⟩ := except_bind_ok heq
          have hcfull : (if h.current_max_level > 0 then
              h.search_layer qv
                (h.greedyDescent qv (h.get_entry_point.getD 0)) 0 h.ef
                (decide (h.metric = DistanceMetric.Cosine ∨
                  h.metric = DistanceMetric.Dot))
            else .ok (h.vectors.filterMap (fun p =>
              if p.1 ≠ j ∧ ¬ h.deleted.contains p.1 then
                let raw := score qv p.2 h.metric
                some (⟨p.1, raw, normalize_score h.metric raw⟩ :
                  ScoredPoint)
              else none))) = .ok cands := by
            rw [if_neg hcm]
            exact hcands0
          have hc := bfae_candidates_sub hcfull
          have hcprop : ∀ sp ∈ cands,
              sp.id ∈ h.mentionIds ∨ sp.id = j ∨ sp.id = 0 := by
            intro sp hsp
            rcases List.mem_append.mp (hc sp hsp) with h1 | h1
            · exact Or.inl h1
            · exact Or.inr (Or.inr (List.mem_singleton.mp h1))
          split at hrest2
          · cases hrest2
            refine slInsert_foldl_id _ _ hM ?_
            intro n hn
            rw [List.mem_map] at hn
            obtain ⟨sp, hsp, hid⟩ := hn
            rw [← hid]
            exact hcprop sp (sortByRaw_mem
              (List.mem_filter.mp (List.mem_of_mem_take hsp)).1)
          · refine ih _ extra hrest2 ?_
            refine slInsert_foldl_id _ _ hM ?_
            intro n hn
            rw [List.mem_map] at hn
            obtain ⟨sp, hsp, hid⟩ := hn
            rw [← hid]
            exact hcprop sp (sortByRaw_mem
              (List.mem_filter.mp (List.mem_of_mem_take hsp)).1)

theorem abe_foldl_mentions {j : PointId} {M : List PointId}
    (hj : j ∈ M ∨ j = j) :
    ∀ (ns : List PointId) (h : HNSWIndex),
      (∀ n ∈ ns, n ∈ M ∨ n = j ∨ n = 0) →
      (∀ x ∈ h.mentionIds, x ∈ M ∨ x = j ∨ x = 0) →
      ∀ x ∈ (ns.foldl (fun h n => h.add_bidirectional_edge 0 j n)
        h).mentionIds, x ∈ M ∨ x = j ∨ x = 0 := by
  intro ns
  induction ns with
  | nil => intro h _ hm; exact hm
  | cons n rest ih =>
    intro h hns hm
    rw [List.foldl_cons]
    refine ih _ (fun n2 hn2 => hns n2 (List.mem_cons_of_mem _ hn2)) ?_
    intro x hx
    rcases abe_mentions x hx with h1 | h1 | h1
    · exact hm x h1
    · exact Or.inr (Or.inl h1)
    · rw [h1] at hx ⊢
      exact hns n (List.mem_cons_self _ _)

theorem bfae_mentions {h h' : HNSWIndex} {j : PointId} {v : QVector}
    {p : Payload} {idx : PayloadIndex} {pls : List (PointId × Payload)}
    {ks : List String}
    (hok : h.build_filter_aware_edges j v p idx pls ks = .ok h') :
    ∀ x ∈ h'.mentionIds, x ∈ h.mentionIds ∨ x = j ∨ x = 0 := by
  simp only [HNSWIndex.build_filter_aware_edges] at hok
  obtain ⟨extra, hgo, hrest⟩ := except_bind_ok hok
  cases hrest
  have hext := bfaeGo_extra _ [] extra hgo (by intro y hy; simp at hy)
  refine abe_foldl_mentions (Or.inr rfl) _ _ ?_ (fun x hx => Or.inl hx)
  intro n hn
  rcases mem_slInsert.mp hn with h1 | h1
  · exact hext n h1
  · exact Or.inr (Or.inl h1)

/-! ## Dead-id preservation (C4) -/

theorem mentionIds_new (metric : DistanceMetric) (m ef cap dim : Nat) :
    (HNSWIndex.new metric m ef cap dim).mentionIds = [] := rfl

theorem purgeStep_skip {s : Segment} {lvl : PointId → Nat}
    {st st' : HNSWIndex × PayloadIndex × List (PointId × Payload)}
    {pr : PointId × QVector}
    (hc : s.deleted.contains pr.1 = true)
    (hok : s.purgeStep lvl st pr = .ok st') : st' = st := by
  simp only [Segment.purgeStep] at hok
  rw [if_pos hc] at hok
  exact (Except.ok.inj hok).symm

theorem purgeStep_mentions {s : Segment} {lvl : PointId → Nat}
    {st st' : HNSWIndex × PayloadIndex × List (PointId × Payload)}
    {pr : PointId × QVector}
    (hok : s.purgeStep lvl st pr = .ok st') :
    ∀ x ∈ st'.1.mentionIds, x ∈ st.1.mentionIds ∨ x = pr.1 ∨ x = 0 := by
  simp only [Segment.purgeStep] at hok
  split at hok
  · have h2 : (Except.ok st : Except DBError
        (HNSWIndex × PayloadIndex × List (PointId × Payload))) = .ok st' :=
      hok
    cases h2
    exact fun x hx => Or.inl hx
  · obtain ⟨h1, hins, hrest⟩ := except_bind_ok hok
    cases hpm : alGet? s.payloads pr.1 with
    | some p =>
      rw [hpm] at hrest
      have hrest2 : (do
          let h2 ← h1.build_filter_aware_edges pr.1 pr.2 p
            (st.2.1.insert pr.1 p) (alSet st.2.2 pr.1 p)
            ((p.filter (fun kv => PayloadIndex.is_indexable kv.2)).map
              (fun kv => kv.1))
          pure (h2, st.2.1.insert pr.1 p, alSet st.2.2 pr.1 p) :
          Except DBError
            (HNSWIndex × PayloadIndex × List (PointId × Payload))) =
          .ok st' := hrest
      obtain ⟨h2, hbf, hfin⟩ := except_bind_ok hrest2
      have hfin2 : (Except.ok
          (h2, st.2.1.insert pr.1 p, alSet st.2.2 pr.1 p) :
          Except DBError
            (HNSWIndex × PayloadIndex × List (PointId × Payload))) =
          .ok st' := hfin
      cases hfin2
      intro x hx
      rcases bfae_mentions hbf x hx with hm | hm | hm
      · rcases insert_mentions hins x hm with hm2 | hm2
        · exact Or.inl hm2
        · exact Or.inr (Or.inl hm2)
      · exact Or.inr (Or.inl hm)
      · exact Or.inr (Or.inr hm)
    | none =>
      rw [hpm] at hrest
      have hrest2 : (Except.ok (h1, st.2.1, st.2.2) :
          Except DBError
            (HNSWIndex × PayloadIndex × List (PointId × Payload))) =
          .ok st' := hrest
      cases hrest2
      intro x hx
      rcases insert_mentions hins x hx with hm | hm
      · exact Or.inl hm
      · exact Or.inr (Or.inl hm)

theorem purgeFold_mentions {s : Segment} {lvl : PointId → Nat} {i : PointId}
    (hi0 : i ≠ 0) :
    ∀ (prs : List (PointId × QVector))
      (st0 st : HNSWIndex × PayloadIndex × List (PointId × Payload)),
      (∀ pr ∈ prs, pr.1 = i → s.deleted.contains pr.1 = true) →
      i ∉ st0.1.mentionIds →
      prs.foldlM (s.purgeStep lvl) st0 = .ok st →
      i ∉ st.1.mentionIds := by
  intro prs
  induction prs with
  | nil =>
    intro st0 st _ h0 heq
    rw [List.foldlM_nil] at heq
    have heq2 : (Except.ok st0 : Except DBError
        (HNSWIndex × PayloadIndex × List (PointId × Payload))) = .ok st :=
      heq
    cases heq2
    exact h0
  | cons pr rest ih =>
    intro st0 st hpr h0 heq
    rw [List.foldlM_cons] at heq
    obtain ⟨st1, hstep, hrest⟩ := except_bind_ok heq
    refine ih st1 st (fun p hp => hpr p (List.mem_cons_of_mem _ hp)) ?_ hrest
    intro hi
    rcases purgeStep_mentions hstep i hi with hm | hm | hm
    · exact h0 hm
    · by_cases hc : s.deleted.contains pr.1 = true
      · obtain rfl := purgeStep_skip hc hstep
        exact h0 hi
      · exact hc (hpr pr (List.mem_cons_self _ _) hm.symm)
    · exact hi0 hm

theorem purge_mentions {s s' : Segment} {lvl : PointId → Nat} {i : PointId}
    (hi0 : i ≠ 0)
    (hpr : ∀ pr ∈ s.hnsw.vectors, pr.1 = i → s.deleted.contains pr.1 = true)
    (hok : s.purge lvl = .ok s') :
    i ∉ s'.hnsw.mentionIds ∧ s'.deleted = [] ∧ s'.next_id = s.next_id := by
  simp only [Segment.purge] at hok
  obtain ⟨st, hfold, hrest⟩ := except_bind_ok hok
  have h2 : (Except.ok (⟨st.1, st.2.1, st.2.2, [], s.next_id⟩ : Segment) :
      Except DBError Segment) = .ok s' := hrest
  cases h2
  refine ⟨?_, rfl, rfl⟩
  refine purgeFold_mentions hi0 s.hnsw.vectors _ st hpr ?_ hfold
  show i ∉ (HNSWIndex.new s.hnsw.metric s.hnsw.m s.hnsw.ef
    s.hnsw.max_level_cap s.hnsw.dim).mentionIds
  rw [mentionIds_new]
  exact List.not_mem_nil _

theorem insert_Dead {s s' : Segment} {v : QVector} {pOpt : Option Payload}
    {l : Nat} {pid i : PointId} (hi0 : i ≠ 0)
    (hok : s.insert v pOpt l = .ok (pid, s')) (hd : s.Dead i) :
    s'.Dead i := by
  obtain ⟨hlt, hcase⟩ := hd
  have hne : i ≠ s.next_id := Nat.ne_of_lt hlt
  simp only [Segment.insert] at hok
  obtain ⟨h1, hins, hrest⟩ := except_bind_ok hok
  have hmen1 : i ∉ s.hnsw.mentionIds → i ∉ h1.mentionIds := by
    intro hnm hm
    rcases insert_mentions hins i hm with hm2 | hm2
    · exact hnm hm2
    · exact hne hm2
  cases pOpt with
  | none =>
    have h2 : (Except.ok ((s.next_id, { s with hnsw := h1, next_id := s.next_id + 1 }) : PointId × Segment) : Except DBError (PointId × Segment)) = .ok (pid, s') := hrest
    cases h2
    refine ⟨Nat.lt_succ_of_lt hlt, ?_⟩
    rcases hcase with hdl | hnm
    · exact Or.inl hdl
    · exact Or.inr (hmen1 hnm)
  | some p =>
    have hrest2 : (if ((p.filter (fun kv => PayloadIndex.is_indexable kv.2)).map (fun kv => kv.1)).isEmpty = true then (Except.ok ((s.next_id, (⟨h1, s.payload_index.insert s.next_id p, alSet s.payloads s.next_id p, s.deleted, s.next_id + 1⟩ : Segment)) : PointId × Segment) : Except DBError (PointId × Segment)) else do
        let h2 ← h1.build_filter_aware_edges s.next_id v p (s.payload_index.insert s.next_id p) (alSet s.payloads s.next_id p) ((p.filter (fun kv => PayloadIndex.is_indexable kv.2)).map (fun kv => kv.1))
        Except.ok ((s.next_id, (⟨h2, s.payload_index.insert s.next_id p, alSet s.payloads s.next_id p, s.deleted, s.next_id + 1⟩ : Segment)) : PointId × Segment)) = .ok (pid, s') := hrest
    split at hrest2
    · cases hrest2
      refine ⟨Nat.lt_succ_of_lt hlt, ?_⟩
      rcases hcase with hdl | hnm
      · exact Or.inl hdl
      · exact Or.inr (hmen1 hnm)
    · obtain ⟨h2, hbf, hfin⟩ := except_bind_ok hrest2
      have hfin2 : (Except.ok ((s.next_id, (⟨h2, s.payload_index.insert s.next_id p, alSet s.payloads s.next_id p, s.deleted, s.next_id + 1⟩ : Segment)) : PointId × Segment) : Except DBError (PointId × Segment)) = .ok (pid, s') := hfin
      cases hfin2
      refine ⟨Nat.lt_succ_of_lt hlt, ?_⟩
      rcases hcase with hdl | hnm
      · exact Or.inl hdl
      · refine Or.inr ?_
        intro hm
        rcases bfae_mentions hbf i hm with hm2 | hm2 | hm2
        · exact hmen1 hnm hm2
        · exact hne hm2
        · exact hi0 hm2

theorem keys_sub_mentions {h : HNSWIndex} {i : PointId}
    (hnm : i ∉ h.mentionIds) : i ∉ alKeys h.vectors := by
  intro hk
  refine hnm ?_
  unfold HNSWIndex.mentionIds
  exact List.mem_append_left _ (List.mem_append_right _ hk)

theorem delete_Dead {s s' : Segment} {pid : PointId} {lvl : PointId → Nat}
    {i : PointId} (hi0 : i ≠ 0)
    (hok : s.delete pid lvl = .ok s') (hd : s.Dead i) : s'.Dead i := by
  obtain ⟨hlt, hcase⟩ := hd
  simp only [Segment.delete] at hok
  split at hok
  · have h2 : (Except.ok s : Except DBError Segment) = .ok s' := hok
    cases h2
    exact ⟨hlt, hcase⟩
  · cases hpp : alGet? s.payloads pid with
    | some p =>
      simp only [hpp] at hok
      split at hok
      · rename_i hcond
        have hpr : ∀ pr ∈ s.hnsw.vectors, pr.1 = i →
            (slInsert s.deleted pid).contains pr.1 = true := by
          intro pr hprm hpe
          rcases hcase with hdl | hnm
          · rw [hpe]
            exact contains_true_of_mem (mem_slInsert.mpr (Or.inl hdl))
          · exact absurd (hpe ▸ mem_alKeys_of_mem hprm)
              (keys_sub_mentions hnm)
        obtain ⟨hm, _, hn⟩ := purge_mentions hi0 hpr hok
        refine ⟨?_, Or.inr hm⟩
        rw [hn]
        exact hlt
      · have h2 : (Except.ok (⟨s.hnsw.mark_deleted pid, s.payload_index.remove pid p, s.payloads, slInsert s.deleted pid, s.next_id⟩ : Segment) : Except DBError Segment) = .ok s' := hok
        cases h2
        refine ⟨hlt, ?_⟩
        rcases hcase with hdl | hnm
        · exact Or.inl (mem_slInsert.mpr (Or.inl hdl))
        · exact Or.inr (fun hm => hnm (mark_deleted_mentions i hm))
    | none =>
      simp only [hpp] at hok
      split at hok
      · rename_i hcond
        have hpr : ∀ pr ∈ s.hnsw.vectors, pr.1 = i →
            (slInsert s.deleted pid).contains pr.1 = true := by
          intro pr hprm hpe
          rcases hcase with hdl | hnm
          · rw [hpe]
            exact contains_true_of_mem (mem_slInsert.mpr (Or.inl hdl))
          · exact absurd (hpe ▸ mem_alKeys_of_mem hprm)
              (keys_sub_mentions hnm)
        obtain ⟨hm, _, hn⟩ := purge_mentions hi0 hpr hok
        refine ⟨?_, Or.inr hm⟩
        rw [hn]
        exact hlt
      · have h2 : (Except.ok (⟨s.hnsw.mark_deleted pid, s.payload_index, s.payloads, slInsert s.deleted pid, s.next_id⟩ : Segment) : Except DBError Segment) = .ok s' := hok
        cases h2
        refine ⟨hlt, ?_⟩
        rcases hcase with hdl | hnm
        · exact Or.inl (mem_slInsert.mpr (Or.inl hdl))
        · exact Or.inr (fun hm => hnm (mark_deleted_mentions i hm))

theorem applyOp_Dead {s : Segment} {op : SegOp} {i : PointId}
    (hi0 : i ≠ 0) (hd : s.Dead i) : (s.applyOp op).Dead i := by
  cases op with
  | insert v p l =>
    simp only [Segment.applyOp]
    cases hins : Segment.insert s v p l with
    | ok r =>
      obtain ⟨pid, s1⟩ := r
      exact insert_Dead hi0 hins hd
    | error e => exact hd
  | delete pid lvl =>
    simp only [Segment.applyOp]
    cases hdel : Segment.delete s pid lvl with
    | ok s1 => exact delete_Dead hi0 hdel hd
    | error e => exact hd

theorem applyOps_Dead {i : PointId} (hi0 : i ≠ 0) :
    ∀ (ops : List SegOp) (s : Segment), s.Dead i →
      (Segment.applyOps s ops).Dead i := by
  intro ops
  induction ops with
  | nil => exact fun s hd => hd
  | cons op rest ih =>
    intro s hd
    exact ih (s.applyOp op) (applyOp_Dead hi0 hd)

theorem delete_makes_Dead {s s' : Segment} {i : PointId}
    {lvl : PointId → Nat} (hwf : s.WF)
    (hmem : i ∈ alKeys s.hnsw.vectors)
    (hok : s.delete i lvl = .ok s') : s'.Dead i ∧ 1 ≤ i := by
  obtain ⟨_, _, hkb, _⟩ := hwf
  obtain ⟨hi1, hlt⟩ := hkb i hmem
  have hi0 : i ≠ 0 := Nat.one_le_iff_ne_zero.mp hi1
  refine ⟨?_, hi1⟩
  simp only [Segment.delete] at hok
  split at hok
  · rename_i hguard
    have h2 : (Except.ok s : Except DBError Segment) = .ok s' := hok
    cases h2
    have hcp : s.hnsw.containsPt i = true := by
      unfold HNSWIndex.containsPt
      rw [alGet?_isSome_of_mem_keys hmem]
    rw [hcp] at hguard
    simp only [Bool.not_true, Bool.or_false] at hguard
    refine ⟨hlt, Or.inl ?_⟩
    simpa using hguard
  · cases hpp : alGet? s.payloads i with
    | some p =>
      simp only [hpp] at hok
      split at hok
      · have hpr : ∀ pr ∈ s.hnsw.vectors, pr.1 = i →
            (slInsert s.deleted i).contains pr.1 = true := by
          intro pr _ hpe
          rw [hpe]
          exact contains_true_of_mem (mem_slInsert.mpr (Or.inr rfl))
        obtain ⟨hm, _, hn⟩ := purge_mentions hi0 hpr hok
        refine ⟨?_, Or.inr hm⟩
        rw [hn]
        exact hlt
      · have h2 : (Except.ok (⟨s.hnsw.mark_deleted i, s.payload_index.remove i p, s.payloads, slInsert s.deleted i, s.next_id⟩ : Segment) : Except DBError Segment) = .ok s' := hok
        cases h2
        exact ⟨hlt, Or.inl (mem_slInsert.mpr (Or.inr rfl))⟩
    | none =>
      simp only [hpp] at hok
      split at hok
      · have hpr : ∀ pr ∈ s.hnsw.vectors, pr.1 = i →
            (slInsert s.deleted i).contains pr.1 = true := by
          intro pr _ hpe
          rw [hpe]
          exact contains_true_of_mem (mem_slInsert.mpr (Or.inr rfl))
        obtain ⟨hm, _, hn⟩ := purge_mentions hi0 hpr hok
        refine ⟨?_, Or.inr hm⟩
        rw [hn]
        exact hlt
      · have h2 : (Except.ok (⟨s.hnsw.mark_deleted i, s.payload_index, s.payloads, slInsert s.deleted i, s.next_id⟩ : Segment) : Except DBError Segment) = .ok s' := hok
        cases h2
        exact ⟨hlt, Or.inl (mem_slInsert.mpr (Or.inr rfl))⟩

theorem dead_conclusions {s : Segment} {i : PointId} (hd : s.Dead i) :
    (∀ q k res, s.search q k = .ok res → ∀ sp ∈ res, sp.id ≠ i) ∧
    (∀ q k fOpt res, s.post_filter q k fOpt = .ok res →
      ∀ sp ∈ res, sp.id ≠ i) ∧
    s.get_vector i = none := by
  obtain ⟨_, hcase⟩ := hd
  have hsp : ∀ (sp : ScoredPoint), sp.id ∈ s.hnsw.mentionIds →
      (!s.deleted.contains sp.id) = true → sp.id ≠ i := by
    intro sp hmen hflt hpe
    rcases hcase with hdl | hnm
    · rw [hpe, contains_true_of_mem hdl] at hflt
      exact Bool.noConfusion hflt
    · exact hnm (hpe ▸ hmen)
  refine ⟨?_, ?_, ?_⟩
  · intro q k res hok sp hsp2
    simp only [Segment.search] at hok
    split at hok
    · exact Except.noConfusion hok
    · obtain ⟨cands, hc, hfin⟩ := except_bind_ok hok
      have hfin2 : (Except.ok ((cands.filter
          (fun sp => !s.deleted.contains sp.id)).take k) :
          Except DBError (List ScoredPoint)) = .ok res := hfin
      cases hfin2
      obtain ⟨hcm, hflt⟩ := List.mem_filter.mp (List.mem_of_mem_take hsp2)
      exact hsp sp (hnsw_search_sub hc sp hcm) hflt
  · intro q k fOpt res hok sp hsp2
    simp only [Segment.post_filter] at hok
    split at hok
    · exact Except.noConfusion hok
    · obtain ⟨cands, hc, hfin⟩ := except_bind_ok hok
      have hfin2 : (Except.ok ((cands.filter (fun sp =>
          !s.deleted.contains sp.id &&
            (match fOpt with
             | none => true
             | some f =>
               match alGet? s.payloads sp.id with
               | some p =>
                 match evaluate_filter f p with
                 | .ok b => b
                 | .error _ => false
               | none => false))).take k) :
          Except DBError (List ScoredPoint)) = .ok res := hfin
      cases hfin2
      obtain ⟨hcm, hflt⟩ := List.mem_filter.mp (List.mem_of_mem_take hsp2)
      rw [Bool.and_eq_true] at hflt
      exact hsp sp (hnsw_search_sub hc sp hcm) hflt.1
  · unfold Segment.get_vector
    rcases hcase with hdl | hnm
    · rw [if_pos (contains_true_of_mem hdl)]
    · split
      · rfl
      · unfold HNSWIndex.get_vector
        split
        · rfl
        · exact alGet?_eq_none_of_not_mem_keys (keys_sub_mentions hnm)

/-! ## Claim theorems -/

/-- C1 (counterexample): four points are successfully inserted under
Euclidean; searching with the stored vector of id 3 (which is [0], at
distance 0 from the query) and top_k = 1 returns id 4 at distance 3
(far beyond the 10^-4 tolerance), not id 3: the beam (ef = 1) stops at
the closer dead-end neighbor 4 of the entry before ever reaching 3. -/
theorem C1_counterexample :
    fixC1.vectors = [(1, [5]), (2, [-4]), (3, [0]), (4, [3])] ∧
    fixC1.metric = DistanceMetric.Euclidean ∧
    fixC1.search [0] 1 = .ok [⟨4, 3, 3⟩] ∧ ((3 : ℚ) > 1 / 10000) := by
  with_unfolding_all decide

/-- C1 (amended): exact recall does not hold in general — the beam can
terminate without ever reaching the query's own id (counterexample).
What the code does guarantee is recall over the visited set: whenever
the level-0 beam of `search` visits a point `i` whose sort key is
strictly smaller than that of every other visited point, `i` is
returned as the top result.  (`nq` and `nf` are the metric-dependent
normalized query and normalization flag computed by `search`.) -/
theorem C1_amended_visited_recall (h : HNSWIndex) (q nq : QVector)
    (nf : Bool) (top_k : Nat) (ep i : PointId) (res : List ScoredPoint)
    (vis : List PointId)
    (hef : 1 ≤ h.ef) (hk : 1 ≤ top_k)
    (hep : h.entry_point = some ep)
    (hdim : ¬ q.length ≠ h.dim)
    (hnq : nq = if h.metric = DistanceMetric.Cosine
      then maybe_normalize h.metric q else q)
    (hnf : nf = decide (h.metric = DistanceMetric.Cosine ∨
      h.metric = DistanceMetric.Dot))
    (hrun : h.search_layer_full nq (h.greedyDescent nq ep) 0 h.ef nf =
      .ok (res, vis))
    (hvis : i ∈ vis)
    (hmin : ∀ j ∈ vis, j ≠ i →
      (mkScored h nq nf i).sort_key < (mkScored h nq nf j).sort_key) :
    ∃ xs, h.search q top_k = .ok (mkScored h nq nf i :: xs) := by
  obtain ⟨se, hsedef, hres, hvis2⟩ := search_layer_full_ok hrun
  have hminf : ∀ j, j ∈ (h.beamLoop nq 0 h.ef nf h.beamFuel
      ⟨[mkScored h nq nf se], [mkScored h nq nf se], [se],
        (mkScored h nq nf se).sort_key⟩).visited → j ≠ i →
      (mkScored h nq nf i).sort_key < (mkScored h nq nf j).sort_key := by
    intro j hj hji
    exact hmin j (hvis2 ▸ hj) hji
  have hinv := beamLoop_inv hef h.beamFuel _
    (beamInit_inv h nq nf i se) hminf
  obtain ⟨hA, hC, hD, hE⟩ := hinv
  have hivis : i ∈ (h.beamLoop nq 0 h.ef nf h.beamFuel
      ⟨[mkScored h nq nf se], [mkScored h nq nf se], [se],
        (mkScored h nq nf se).sort_key⟩).visited := hvis2 ▸ hvis
  have hpos : 0 < (h.beamLoop nq 0 h.ef nf h.beamFuel
      ⟨[mkScored h nq nf se], [mkScored h nq nf se], [se],
        (mkScored h nq nf se).sort_key⟩).res.countP
        (fun sp => sp.id == i) := by
    rw [hE, if_pos hivis]
    exact Nat.zero_lt_one
  obtain ⟨spi, hspimem, hspip⟩ := List.countP_pos.mp hpos
  have hspid : spi.id = i := eq_of_beq hspip
  have hspimk : spi = mkScored h nq nf i := by
    have := (hA spi hspimem).2
    rw [hspid] at this
    exact this
  have hxmem : mkScored h nq nf i ∈ res := by
    rw [hres]
    have : mkScored h nq nf i ∈ (h.beamLoop nq 0 h.ef nf h.beamFuel
        ⟨[mkScored h nq nf se], [mkScored h nq nf se], [se],
          (mkScored h nq nf se).sort_key⟩).res := hspimk ▸ hspimem
    unfold sortAsc
    exact (List.perm_insertionSort _ _).symm.subset this
  have hsub : ∀ y ∈ res, y ∈ (h.beamLoop nq 0 h.ef nf h.beamFuel
      ⟨[mkScored h nq nf se], [mkScored h nq nf se], [se],
        (mkScored h nq nf se).sort_key⟩).res := by
    intro y hy
    rw [hres] at hy
    unfold sortAsc at hy
    exact (List.perm_insertionSort _ _).subset hy
  have huq : ∀ y ∈ res, y.sort_key ≤ (mkScored h nq nf i).sort_key →
      y = mkScored h nq nf i := by
    intro y hy hyle
    obtain ⟨hyv, hymk⟩ := hA y (hsub y hy)
    by_cases hyi : y.id = i
    · rw [hyi] at hymk
      exact hymk
    · exfalso
      have hlt := hminf y.id hyv hyi
      rw [← hymk] at hlt
      exact absurd (lt_of_lt_of_le hlt hyle) (lt_irrefl _)
  have hsl : h.search_layer nq (h.greedyDescent nq ep) 0 h.ef nf =
      .ok res := by
    unfold HNSWIndex.search_layer
    rw [hrun]
    rfl
  have hfinal : h.search q top_k = .ok ((sortAsc res).take top_k) := by
    unfold HNSWIndex.search
    rw [hep]
    show (if q.length ≠ h.dim then
        (.error (.VectorLengthMismatch h.dim q.length) :
          Except DBError (List ScoredPoint))
      else do
        let results ← h.search_layer
          (if h.metric = DistanceMetric.Cosine
            then maybe_normalize h.metric q else q)
          (h.greedyDescent
            (if h.metric = DistanceMetric.Cosine
              then maybe_normalize h.metric q else q) ep) 0 h.ef
          (decide (h.metric = DistanceMetric.Cosine ∨
            h.metric = DistanceMetric.Dot))
        .ok ((sortAsc results).take top_k)) =
      .ok ((sortAsc res).take top_k)
    rw [if_neg hdim, ← hnq, ← hnf, hsl]
    rfl
  obtain ⟨tl, hsort⟩ := sortAsc_head_of_min hxmem huq
  cases top_k with
  | zero => exact absurd hk (by omega)
  | succ m =>
    refine ⟨tl.take m, ?_⟩
    rw [hfinal, hsort]
    rfl

/-- C1 (witness): on the four-point C1 index the beam visits 1, 2 and
4; id 4 scores strictly best among them, and the amended theorem
returns it first — matching the counterexample's observed output. -/
theorem C1_amended_visited_recall_witness :
    ∃ xs, fixC1.search [0] 1 =
      .ok (mkScored fixC1 [0] false 4 :: xs) :=
  C1_amended_visited_recall fixC1 [0] [0] false 1 1 4
    [⟨4, 3, 3⟩] [1, 2, 4]
    (by with_unfolding_all decide) (by with_unfolding_all decide)
    (by with_unfolding_all decide) (by with_unfolding_all decide)
    (by with_unfolding_all decide) (by with_unfolding_all decide)
    (by with_unfolding_all decide) (by with_unfolding_all decide)
    (by with_unfolding_all decide)

/-- C5 (counterexample): point 1 (level 1) is the entry point; after
inserting point 2 (level 0) and tombstoning point 1, the entry point is
reassigned to 2 but `current_max_level` stays 1, so
`levels[entry] = current_max_level` fails while a live point remains. -/
theorem C5_counterexample :
    fixC5.entry_point = some 2 ∧
    alGet? fixC5.levels 2 = some 0 ∧
    fixC5.current_max_level = 1 ∧
    alGet? fixC5.levels 2 ≠ some fixC5.current_max_level ∧
    alGet? fixC5.vectors 2 = some [1] ∧ 2 ∉ fixC5.deleted := by
  with_unfolding_all decide

/-- C5 (amended): after every sequence of public HNSW operations
(insert, mark_deleted; search does not mutate), a Some entry point is a
stored id and its level is AT MOST `current_max_level`; the claimed
equality fails after `mark_deleted` of the entry point (see the
counterexample). -/
theorem C5_amended_entry_invariant (h : HNSWIndex) (e : PointId)
    (hreach : HReachable h) (he : h.entry_point = some e) :
    e ∈ alKeys h.vectors ∧
      (alGet? h.levels e).getD 0 ≤ h.current_max_level := by
  obtain ⟨metric, m, ef, cap, dim, ops, rfl⟩ := hreach
  exact (applyOps_EntryLevelInv ops _
    (new_EntryLevelInv metric m ef cap dim)).1 e he

/-- C5 (witness): the amended invariant applied to the concrete
post-tombstoning index of the counterexample. -/
theorem C5_amended_entry_invariant_witness :
    2 ∈ alKeys fixC5.vectors ∧
      (alGet? fixC5.levels 2).getD 0 ≤ fixC5.current_max_level :=
  C5_amended_entry_invariant fixC5 2
    ⟨DistanceMetric.Euclidean, 2, 2, 16, 1,
      [HOp.insert 1 [0] 1, HOp.insert 2 [1] 0, HOp.markDeleted 1], rfl⟩
    (by with_unfolding_all decide)

/-- C2 (counterexample): the only stored point has payload
group = "odd"; with the filter Match group = "even" no matching seed can
be resolved, yet in-place filtered search returns that point (the
unfiltered fallback seed) instead of the empty list, and its payload
evaluates to false under the filter. -/
theorem C2_counterexample :
    in_place_filtered_search [0] 1 fixC2.hnsw fixC2.payloads
      fixC2.payload_index (some fixC2Filter)
      (fun id => fixC2.deleted.contains id) = .ok [⟨1, 0, 0⟩] ∧
    fixC2.get_payload 1 = some [("group", PayloadValue.Str "odd")] ∧
    evaluate_filter fixC2Filter [("group", PayloadValue.Str "odd")] =
      .ok false := by
  with_unfolding_all decide

/-- C2 (amended): every id returned by `post_filter` satisfies the
filter; every id returned by `in_place_filtered_search` satisfies the
filter EXCEPT possibly the resolved seed, which is returned even when it
fails the filter (namely the entry-point fallback used when no matching
seed exists — see the counterexample); and when the index has no entry
point and no seed matches, in-place filtered search returns empty. -/
theorem C2_amended_filter_soundness :
    (∀ (s : Segment) (q : QVector) (k : Nat) (f : Filter)
      (xs : List ScoredPoint), s.post_filter q k (some f) = .ok xs →
      ∀ sp ∈ xs, passesFilter s.payloads f sp.id) ∧
    (∀ (q : QVector) (k : Nat) (hnsw : HNSWIndex)
      (payloads : List (PointId × Payload)) (idx : PayloadIndex) (f : Filter)
      (isdel : PointId → Bool) (seed : PointId) (xs : List ScoredPoint),
      inPlaceSeed hnsw payloads idx (some f) isdel = .ok (some seed) →
      in_place_filtered_search q k hnsw payloads idx (some f) isdel = .ok xs →
      ∀ sp ∈ xs, passesFilter payloads f sp.id ∨ sp.id = seed) ∧
    (∀ (q : QVector) (k : Nat) (hnsw : HNSWIndex)
      (payloads : List (PointId × Payload)) (idx : PayloadIndex) (f : Filter)
      (isdel : PointId → Bool),
      hnsw.get_entry_point = none →
      find_entry_point_matching_filter idx isdel hnsw f = none →
      ¬ q.length ≠ hnsw.dim →
      in_place_filtered_search q k hnsw payloads idx (some f) isdel =
        .ok []) := by
  refine ⟨?_, ?_, ?_⟩
  · intro s q k f xs heq sp hsp
    unfold Segment.post_filter at heq
    split at heq
    · exact Except.noConfusion heq
    · obtain ⟨cands, hs, hok⟩ := except_bind_ok heq
      cases hok
      have hmem := List.mem_of_mem_take hsp
      have hfil := List.mem_filter.mp hmem
      have hcond := hfil.2
      rw [Bool.and_eq_true] at hcond
      have h2 : (match alGet? s.payloads sp.id with
          | some p =>
            match evaluate_filter f p with
            | .ok b => b
            | .error _ => false
          | none => false) = true := hcond.2
      cases hpm : alGet? s.payloads sp.id with
      | none =>
        rw [hpm] at h2
        exact Bool.noConfusion (show (false : Bool) = true from h2)
      | some p =>
        rw [hpm] at h2
        have h3 : (match evaluate_filter f p with
            | .ok b => b
            | .error _ => false) = true := h2
        cases hev : evaluate_filter f p with
        | ok b =>
          rw [hev] at h3
          cases b
          · exact Bool.noConfusion (show (false : Bool) = true from h3)
          · exact ⟨p, hpm, hev⟩
        | error e =>
          rw [hev] at h3
          exact Bool.noConfusion (show (false : Bool) = true from h3)
  · intro q k hnsw payloads idx f isdel seed xs hseed heq sp hsp
    unfold in_place_filtered_search at heq
    split at heq
    · exact Except.noConfusion heq
    · obtain ⟨seedOpt, hs1, hrest⟩ := except_bind_ok heq
      have hso : seedOpt = some seed := Except.ok.inj (hs1.symm.trans hseed)
      subst hso
      obtain ⟨c0, hdesc, hrest2⟩ := except_bind_ok hrest
      have hc0 : passesFilter payloads f c0 ∨ c0 = seed :=
        gswfDescent_sound _ hdesc
      obtain ⟨st, hloop, hfin⟩ := except_bind_ok hrest2
      cases hfin
      have hres := inPlaceLoop_sound
        (fun id => passesFilter payloads f id ∨ id = seed)
        (fun n p hp he => Or.inl ⟨p, hp, he⟩) hloop
        (by
          intro sp2 hsp2
          rw [List.mem_singleton.mp hsp2]
          exact hc0)
        (by
          intro sp2 hsp2
          rw [List.mem_singleton.mp hsp2]
          exact hc0)
      have hmem := List.mem_of_mem_take hsp
      have hmem2 : sp ∈ st.res :=
        (List.perm_insertionSort _ _).mem_iff.mp hmem
      exact hres sp hmem2
  · intro q k hnsw payloads idx f isdel hentry hfind hdim
    have hseed0 : inPlaceSeed hnsw payloads idx (some f) isdel = .ok none := by
      unfold inPlaceSeed
      rw [hentry]
      exact (by rw [hfind] :
        (match find_entry_point_matching_filter idx isdel hnsw f with
          | some id => (Except.ok (some id) : Except DBError (Option PointId))
          | none => Except.ok none) = Except.ok none)
    unfold in_place_filtered_search
    rw [if_neg hdim, hseed0]
    rfl

/-- C2 (witness): for a concrete segment whose single point satisfies
the filter, the in-place result and the post-filter result each satisfy
the amended soundness statement, and the empty-index case returns []. -/
theorem C2_amended_filter_soundness_witness :
    (∀ sp ∈ ([⟨1, 0, 0⟩] : List ScoredPoint),
      passesFilter fixW2.payloads fixC2Filter sp.id) ∧
    (∀ sp ∈ ([⟨1, 0, 0⟩] : List ScoredPoint),
      passesFilter fixW2.payloads fixC2Filter sp.id ∨ sp.id = 1) ∧
    in_place_filtered_search [0] 1
      (Segment.new (HNSWIndex.new DistanceMetric.Euclidean 16 50 16 1)).hnsw
      [] [] (some fixC2Filter) (fun _ => false) = .ok [] := by
  refine ⟨?_, ?_, ?_⟩
  · exact C2_amended_filter_soundness.1 fixW2 [0] 1 fixC2Filter [⟨1, 0, 0⟩]
      (by with_unfolding_all decide)
  · exact C2_amended_filter_soundness.2.1 [0] 1 fixW2.hnsw fixW2.payloads
      fixW2.payload_index fixC2Filter (fun id => fixW2.deleted.contains id) 1
      [⟨1, 0, 0⟩] (by with_unfolding_all decide)
      (by with_unfolding_all decide)
  · exact C2_amended_filter_soundness.2.2 [0] 1
      (Segment.new (HNSWIndex.new DistanceMetric.Euclidean 16 50 16 1)).hnsw
      [] [] fixC2Filter (fun _ => false) (by with_unfolding_all decide)
      (by with_unfolding_all decide) (by with_unfolding_all decide)

/-- C6 (counterexample): the filter `Compare a >= 0` errors on the
second point's payload (missing field "a"); `in_place_filtered_search`
propagates that error and aborts the query instead of skipping the
point, while `post_filter` on the same segment and filter skips it and
answers. -/
theorem C6_counterexample :
    in_place_filtered_search [0] 2 fixC6.hnsw fixC6.payloads
      fixC6.payload_index (some fixC6Filter)
      (fun id => fixC6.deleted.contains id) =
      .error (DBError.InvalidPayload ("Missing field: " ++ "a")) ∧
    fixC6.post_filter [0] 2 (some fixC6Filter) = .ok [⟨1, 0, 0⟩] := by
  with_unfolding_all decide

/-- C7 (counterexample): under Cosine the insert stores the normalized
vector of (3,2,1,1) using the inexact square root; `purge` re-normalizes
it on reinsertion and the stored vector changes, so a live id does not
retain exactly its previous vector across compaction. -/
theorem C7_counterexample :
    fixC7.hnsw.metric = DistanceMetric.Cosine ∧
    fixC7.deleted = [] ∧
    alGet? fixC7.hnsw.vectors 1 = some [1, 2/3, 1/3, 1/3] ∧
    (fixC7.purge (fun _ => 0)).map (fun s => alGet? s.hnsw.vectors 1) =
      .ok (some [1/2, 1/3, 1/6, 1/6]) ∧
    ([1, 2/3, 1/3, 1/3] : QVector) ≠ [1/2, 1/3, 1/6, 1/6] := by
  with_unfolding_all decide

/-- C3 (code_bug): on a two-point segment, unfiltered in-place search
with top_k = 2 returns sort keys [3, 0] — strictly decreasing — because
`into_sorted_vec` on the inverted `ScoredPoint` order sorts descending:
the claim (and §4.H.5 of the spec, matching `HNSWIndex::search`) says
ascending. -/
theorem C3_in_place_descending :
    in_place_filtered_search [0] 2 fixC3.hnsw fixC3.payloads
      fixC3.payload_index none (fun id => fixC3.deleted.contains id) =
      .ok [⟨2, 3, 3⟩, ⟨1, 0, 0⟩] ∧
    ¬ ((3 : ℚ) ≤ (0 : ℚ)) := by
  with_unfolding_all decide

/-- C4 (counterexample): `delete 2` returns Ok (as a no-op) on a segment
that never allocated id 2; a later insert allocates id 2, after which
search returns it and `get_vector 2` is Some — so "after delete(i)
returns Ok, i never appears and get_vector(i) is None" fails for
never-allocated ids. -/
theorem C4_counterexample :
    fixC4.delete 2 (fun _ => 0) = .ok fixC4 ∧
    (Segment.applyOps fixC4 [SegOp.insert [1] none 0]).search [1] 1 =
      .ok [⟨2, 0, 0⟩] ∧
    (Segment.applyOps fixC4 [SegOp.insert [1] none 0]).get_vector 2 =
      some [1] := by
  with_unfolding_all decide

/-- C4 (amended): deletion invisibility holds for ids that are actually
stored when deleted.  If the segment is well-formed, `i` is a stored id
and `delete i` returns Ok, then in every state reachable by further
inserts and deletes, `i` never appears in the results of `search` or
`post_filter`, and `get_vector i` returns None. -/
theorem C4_amended_deletion_invisibility (s s' : Segment) (i : PointId)
    (lvl : PointId → Nat) (ops : List SegOp)
    (hwf : s.WF) (hmem : i ∈ alKeys s.hnsw.vectors)
    (hdel : s.delete i lvl = .ok s') :
    (∀ q k res, (Segment.applyOps s' ops).search q k = .ok res →
      ∀ sp ∈ res, sp.id ≠ i) ∧
    (∀ q k fOpt res,
      (Segment.applyOps s' ops).post_filter q k fOpt = .ok res →
      ∀ sp ∈ res, sp.id ≠ i) ∧
    (Segment.applyOps s' ops).get_vector i = none := by
  obtain ⟨hdead, hi1⟩ := delete_makes_Dead hwf hmem hdel
  exact dead_conclusions
    (applyOps_Dead (Nat.one_le_iff_ne_zero.mp hi1) ops s' hdead)

/-- C4 witness: the one stored point of the C4 fixture is deleted; after
a further insert (which allocates the fresh id 2), search and
post_filter return only id 2 and `get_vector 1` is None. -/
theorem C4_amended_deletion_invisibility_witness :
    fixC4.delete 1 (fun _ => 0) = .ok fixC4d ∧
    (Segment.applyOps fixC4d [SegOp.insert [1] none 0]).search [1] 1 =
      .ok [⟨2, 0, 0⟩] ∧
    (∀ sp ∈ ([⟨2, 0, 0⟩] : List ScoredPoint), sp.id ≠ 1) ∧
    (Segment.applyOps fixC4d [SegOp.insert [1] none 0]).get_vector 1 =
      none := by
  have hwf : fixC4.WF := by
    refine ⟨⟨?_, ?_⟩, ?_, ?_, ?_⟩
    · intro e he
      rw [(by with_unfolding_all rfl :
        fixC4.hnsw.entry_point = some 1)] at he
      cases he
      with_unfolding_all decide
    · with_unfolding_all decide
    · with_unfolding_all decide
    · with_unfolding_all decide
    · with_unfolding_all decide
  have hmain := C4_amended_deletion_invisibility fixC4 fixC4d 1 (fun _ => 0)
    [SegOp.insert [1] none 0] hwf (by with_unfolding_all decide)
    (by with_unfolding_all decide)
  exact ⟨by with_unfolding_all decide, by with_unfolding_all decide,
    hmain.1 [1] 1 [⟨2, 0, 0⟩] (by with_unfolding_all decide), hmain.2.2⟩

/-- C8 (counterexample): `compare_field` on a ListStr field with a Str
operand under Eq returns Ok(membership) — here Ok(true) — rather than an
InvalidPayload type-mismatch error. -/
theorem C8_counterexample :
    Payload.compare_field [("f", PayloadValue.ListStr ["a"])] "f"
      ScalarComparisonOp.Eq (PayloadValue.Str "a") = .ok true := by
  with_unfolding_all decide

/-- C8 (amended): on a ListStr field with a Str operand,
`compare_field` implements Eq as list membership and Neq as its
negation; every other operator yields the InvalidPayload error. -/
theorem C8_amended_liststr_compare (p : Payload) (f : String)
    (l : List String) (s : String)
    (h : p.get f = some (PayloadValue.ListStr l)) :
    p.compare_field f .Eq (.Str s) = .ok (decide (s ∈ l)) ∧
    p.compare_field f .Neq (.Str s) = .ok (!decide (s ∈ l)) ∧
    (∀ op, op ≠ ScalarComparisonOp.Eq → op ≠ ScalarComparisonOp.Neq →
      p.compare_field f op (.Str s) =
        .error (.InvalidPayload "Invalid operation for ListStr and Str")) := by
  refine ⟨?_, ?_, ?_⟩
  · simp [Payload.compare_field, h]
  · simp [Payload.compare_field, h]
  · intro op h1 h2
    cases op <;> simp_all [Payload.compare_field, h]

/-- C8 (witness for the amended theorem at a concrete input). -/
theorem C8_amended_liststr_compare_witness :
    Payload.compare_field [("f", PayloadValue.ListStr ["x", "y"])] "f"
      ScalarComparisonOp.Eq (PayloadValue.Str "y") =
      .ok (decide ("y" ∈ ["x", "y"])) ∧
    Payload.compare_field [("f", PayloadValue.ListStr ["x", "y"])] "f"
      ScalarComparisonOp.Neq (PayloadValue.Str "y") =
      .ok (!decide ("y" ∈ ["x", "y"])) ∧
    (∀ op, op ≠ ScalarComparisonOp.Eq → op ≠ ScalarComparisonOp.Neq →
      Payload.compare_field [("f", PayloadValue.ListStr ["x", "y"])] "f" op
        (PayloadValue.Str "y") =
        .error (.InvalidPayload "Invalid operation for ListStr and Str")) :=
  C8_amended_liststr_compare [("f", PayloadValue.ListStr ["x", "y"])] "f"
    ["x", "y"] "y" (by decide)

/-- C9 (confirmed): on a key absent from the payload, a Match filter
evaluates to Ok(false) while a Compare filter yields the
InvalidPayload missing-field error. -/
theorem C9_missing_key_asymmetry (p : Payload) (key : String)
    (v : PayloadValue) (op : ScalarComparisonOp) (h : p.get key = none) :
    evaluate_filter (.Match key v) p = .ok false ∧
    evaluate_filter (.Compare key op v) p =
      .error (.InvalidPayload ("Missing field: " ++ key)) := by
  constructor
  · simp [evaluate_filter, h]
  · simp [evaluate_filter, Payload.compare_field, h]

/-- C9 (witness at a concrete payload and key). -/
theorem C9_missing_key_asymmetry_witness :
    evaluate_filter (.Match "b" (PayloadValue.Int 0))
      [("a", PayloadValue.Int 1)] = .ok false ∧
    evaluate_filter (.Compare "b" ScalarComparisonOp.Eq (PayloadValue.Int 0))
      [("a", PayloadValue.Int 1)] =
      .error (.InvalidPayload ("Missing field: " ++ "b")) :=
  C9_missing_key_asymmetry [("a", PayloadValue.Int 1)] "b"
    (PayloadValue.Int 0) ScalarComparisonOp.Eq (by decide)

/-- C10 (confirmed): deleting a live id whose deletion does not trip the
compaction thresholds removes it from the inverted index (the index
becomes exactly `remove i p`) and tombstones it in both tombstone sets,
but leaves the per-id payload map — and in particular `get_payload i` —
unchanged, as well as the stored vectors. -/
theorem C10_delete_keeps_payload (s : Segment) (i : PointId) (p : Payload)
    (lvl : PointId → Nat)
    (hdel : s.deleted.contains i = false)
    (hcon : s.hnsw.containsPt i = true)
    (hpay : alGet? s.payloads i = some p)
    (hnop : ¬(100 ≤ s.deleted.length + 1 ∧
      (1 : ℚ) / 4 ≤ (s.deleted.length + 1 : ℚ) / (s.hnsw.lenPts : ℚ))) :
    ∃ s', s.delete i lvl = .ok s' ∧
      s'.payloads = s.payloads ∧
      s'.get_payload i = some p ∧
      i ∈ s'.deleted ∧ i ∈ s'.hnsw.deleted ∧
      s'.payload_index = s.payload_index.remove i p ∧
      s'.hnsw.vectors = s.hnsw.vectors := by
  have hni : i ∉ s.deleted := contains_false_not_mem hdel
  have hlen : (slInsert s.deleted i).length = s.deleted.length + 1 :=
    slInsert_length_not_mem hni
  refine ⟨⟨s.hnsw.mark_deleted i, s.payload_index.remove i p, s.payloads,
    slInsert s.deleted i, s.next_id⟩, ?_, rfl, ?_, ?_, ?_, rfl, rfl⟩
  · unfold Segment.delete
    rw [hdel, hcon]
    simp only [Bool.false_or, Bool.not_true, Bool.false_eq_true, if_false,
      hpay]
    rw [if_neg]
    intro hcond
    exact hnop (by
      constructor
      · have := hcond.1
        simpa [hlen] using this
      · have := hcond.2
        simpa [HNSWIndex.mark_deleted, HNSWIndex.lenPts, hlen] using this)
  · simpa [Segment.get_payload] using hpay
  · exact mem_slInsert.mpr (Or.inr rfl)
  · simp only [HNSWIndex.mark_deleted]
    exact mem_slInsert.mpr (Or.inr rfl)

/-- C10 (witness): the theorem applied to a concrete two-point segment. -/
theorem C10_delete_keeps_payload_witness :
    ∃ s', fixW7.delete 1 (fun _ => 0) = .ok s' ∧
      s'.payloads = fixW7.payloads ∧
      s'.get_payload 1 = some [("k", PayloadValue.Int 7)] ∧
      1 ∈ s'.deleted ∧ 1 ∈ s'.hnsw.deleted ∧
      s'.payload_index = fixW7.payload_index.remove 1
        [("k", PayloadValue.Int 7)] ∧
      s'.hnsw.vectors = fixW7.hnsw.vectors :=
  C10_delete_keeps_payload fixW7 1 [("k", PayloadValue.Int 7)] (fun _ => 0)
    (by with_unfolding_all decide) (by with_unfolding_all decide)
    (by with_unfolding_all decide) (by with_unfolding_all decide)

/-- C7 (amended): when `purge` returns Ok on a segment whose stored
vector keys are duplicate-free, every live id keeps its payload under
the same id, the tombstone set is cleared and the id counter is
preserved; the id's stored vector is re-normalized
(`maybe_normalize`) rather than kept verbatim, which is the identity
for every metric except Cosine — under Cosine the counterexample shows
the stored vector can change. -/
theorem C7_amended_purge_preservation (s s' : Segment)
    (lvl : PointId → Nat) (i : PointId) (v : QVector)
    (hok : s.purge lvl = .ok s')
    (hlive : s.deleted.contains i = false)
    (hnd : (s.hnsw.vectors.map (fun pr => pr.1)).Nodup)
    (hv : alGet? s.hnsw.vectors i = some v) :
    alGet? s'.hnsw.vectors i = some (maybe_normalize s.hnsw.metric v) ∧
    (s.hnsw.metric ≠ DistanceMetric.Cosine →
      alGet? s'.hnsw.vectors i = some v) ∧
    alGet? s'.payloads i = alGet? s.payloads i ∧
    s'.deleted = [] ∧ s'.next_id = s.next_id := by
  simp only [Segment.purge] at hok
  obtain ⟨st, hfold, hfin⟩ := except_bind_ok hok
  have hfin2 : (Except.ok (⟨st.1, st.2.1, st.2.2, [], s.next_id⟩ : Segment) :
      Except DBError Segment) = .ok s' := hfin
  cases hfin2
  have hmm := purgeFold_main hlive s.hnsw.vectors _ st hfold
    (alGet?_mem hv) hnd rfl rfl
  refine ⟨hmm.1, ?_, hmm.2, rfl, rfl⟩
  intro hnc
  have hid : maybe_normalize s.hnsw.metric v = v := by
    cases hm : s.hnsw.metric with
    | Cosine => exact absurd hm hnc
    | Euclidean => rfl
    | Dot => rfl
  rw [← hid]
  exact hmm.1

/-- C7 (witness): on the concrete Euclidean two-point segment, purging
with level oracle 0 reproduces the segment itself, and the live id 1
keeps its vector and payload with an empty tombstone set. -/
theorem C7_amended_purge_preservation_witness :
    alGet? fixW7.hnsw.vectors 1 =
      some (maybe_normalize fixW7.hnsw.metric [0]) ∧
    (fixW7.hnsw.metric ≠ DistanceMetric.Cosine →
      alGet? fixW7.hnsw.vectors 1 = some [0]) ∧
    alGet? fixW7.payloads 1 = alGet? fixW7.payloads 1 ∧
    fixW7.deleted = [] ∧ fixW7.next_id = fixW7.next_id :=
  C7_amended_purge_preservation fixW7 fixW7 (fun _ => 0) 1 [0]
    (by with_unfolding_all decide) (by with_unfolding_all decide)
    (by with_unfolding_all decide) (by with_unfolding_all decide)

/-- C6 (amended): `post_filter` never aborts because of a filter
evaluation error — whenever the live-point guard passes and the
underlying HNSW search succeeds, it answers `Ok` and every candidate
whose payload makes the filter error is skipped (treated as
non-matching).  `in_place_filtered_search` gives no such guarantee: it
propagates a filter evaluation error raised while seeding the search
(and, per the counterexample, also one raised mid-loop) outward as the
query's result. -/
theorem C6_amended_error_handling :
    (∀ (s : Segment) (q : QVector) (k : Nat) (f : Filter)
      (cands : List ScoredPoint),
      ¬ (s.hnsw.lenPts - s.deleted.length = 0) →
      s.hnsw.search q (k * 4) = .ok cands →
      ∃ xs, s.post_filter q k (some f) = .ok xs ∧
        ∀ sp ∈ cands,
          (∃ p e, alGet? s.payloads sp.id = some p ∧
            evaluate_filter f p = .error e) → sp ∉ xs) ∧
    (∀ (q : QVector) (k : Nat) (hnsw : HNSWIndex)
      (payloads : List (PointId × Payload)) (idx : PayloadIndex)
      (fOpt : Option Filter) (isdel : PointId → Bool) (e : DBError),
      ¬ (q.length ≠ hnsw.dim) →
      inPlaceSeed hnsw payloads idx fOpt isdel = .error e →
      in_place_filtered_search q k hnsw payloads idx fOpt isdel =
        .error e) := by
  constructor
  · intro s q k f cands hguard hsearch
    have heq : s.post_filter q k (some f) =
        .ok ((cands.filter (fun sp =>
          !s.deleted.contains sp.id &&
            (match alGet? s.payloads sp.id with
             | some p =>
               match evaluate_filter f p with
               | .ok b => b
               | .error _ => false
             | none => false))).take k) := by
      unfold Segment.post_filter
      rw [if_neg hguard, hsearch]
      with_unfolding_all rfl
    refine ⟨_, heq, ?_⟩
    intro sp hsp hbad hmem
    obtain ⟨p, e, hp, he⟩ := hbad
    have hcond := (List.mem_filter.mp (List.mem_of_mem_take hmem)).2
    have hcond2 : (!s.deleted.contains sp.id &&
        (match alGet? s.payloads sp.id with
         | some p =>
           match evaluate_filter f p with
           | .ok b => b
           | .error _ => false
         | none => false)) = true := hcond
    rw [Bool.and_eq_true] at hcond2
    have h2 := hcond2.2
    rw [hp] at h2
    have h3 : (match evaluate_filter f p with
        | .ok b => b
        | .error _ => false) = true := h2
    rw [he] at h3
    exact Bool.noConfusion (show (false : Bool) = true from h3)
  · intro q k hnsw payloads idx fOpt isdel e hdim hseed
    unfold in_place_filtered_search
    rw [if_neg hdim, hseed]
    rfl

/-- C6 (witness): on the concrete C6 segment the post-filter branch of
the amended theorem applies (the candidate list is the 8x-oversampled
search result), and on the fixW6 segment the seed-error branch yields
the propagated `InvalidPayload` error. -/
theorem C6_amended_error_handling_witness :
    (∃ xs, fixC6.post_filter [0] 2 (some fixC6Filter) = .ok xs ∧
      ∀ sp ∈ ([⟨1, 0, 0⟩, ⟨2, 3, 3⟩] : List ScoredPoint),
        (∃ p e, alGet? fixC6.payloads sp.id = some p ∧
          evaluate_filter fixC6Filter p = .error e) → sp ∉ xs) ∧
    in_place_filtered_search [0] 2 fixW6.hnsw fixW6.payloads
      fixW6.payload_index (some fixC6Filter)
      (fun id => fixW6.deleted.contains id) =
      .error (DBError.InvalidPayload ("Missing field: " ++ "a")) := by
  constructor
  · exact C6_amended_error_handling.1 fixC6 [0] 2 fixC6Filter
      [⟨1, 0, 0⟩, ⟨2, 3, 3⟩]
      (by with_unfolding_all decide) (by with_unfolding_all decide)
  · exact C6_amended_error_handling.2 [0] 2 fixW6.hnsw fixW6.payloads
      fixW6.payload_index (some fixC6Filter)
      (fun id => fixW6.deleted.contains id)
      (DBError.InvalidPayload ("Missing field: " ++ "a"))
      (by with_unfolding_all decide) (by with_unfolding_all decide)

end VectorDB
